import Mathlib

/-!
# gutils: a verification development

Shallow embedding of parts of the `gutils` Go library, with theorems about them.

## Package `cryptox` (src/cryptox/cryptox.go)

Conventions of the embedding.

* Byte slices are `List Byte`; a nil slice and an empty slice are both `[]`.
* A Go `error` is `Option Error` (`none` is `nil`).
* `uint` is 64 bits wide: it is a `Nat` below `2 ^ 64`, and every `uint`
  operation of the source is written with its wrap-around.
* `time.Time` and `time.Duration` are nanosecond counts in `Int`; the clock is
  part of the environment of a call (`Env`).
* The primitives that live outside the repository (scrypt, NaCl secretbox,
  encoding/json, the slice growth policy of the runtime) are the fields of
  `Prims`; theorems state what they need of them as hypotheses.
* The package variable `durs` is threaded through `GenKey` explicitly.
* A Go run-time panic is the result `Result.panic`; a loop that is still running
  when the fuel of the model is used up is `Result.diverge`.
-/

namespace cryptox

/-- One octet. -/
abbrev Byte := Fin 256

deriving instance DecidableEq for Except

/-- A Go error value, by its message. -/
abbrev Error := String

/-- The constant `minL2N` of the source. -/
def minL2N : Nat := 14

/-- The constant `secretbox.Overhead`. -/
def Overhead : Nat := 16

/-- Number of values of a `uint`. -/
def uintSize : Nat := 2 ^ 64

/-- The struct `Key`. -/
structure Key where
  Bytes : List Byte
  Salt : List Byte
  L2N : Nat
  R : Int
  P : Int
deriving DecidableEq

/-- The zero value `Key{}`. -/
def Key.zero : Key := { Bytes := [], Salt := [], L2N := 0, R := 0, P := 0 }

/-- A slice of durations: the backing array (its length is the capacity) and the
length of the slice. -/
structure Slice where
  arr : List Int
  len : Nat
deriving DecidableEq

/-- The function `cap`. -/
def Slice.cap (s : Slice) : Nat := s.arr.length

/-- The elements a `range` loop visits. -/
def Slice.elems (s : Slice) : List Int := s.arr.take s.len

/-- The value `make([]time.Duration, 0, 8)` the package variable `durs` starts with. -/
def Slice.initial : Slice := { arr := List.replicate 8 0, len := 0 }

/-- What a call leaves behind: a returned value, a run-time panic, or a loop
still running when the fuel is used up. -/
inductive Result (α : Type) where
  | ret (v : α)
  | panic (msg : String)
  | diverge
deriving DecidableEq

/-- What `json.Decoder.Decode(&key)` leaves: the fields it stored into a zero
`Key` (never `Bytes`, which is tagged `json:"-"`), its error, and the bytes of
the stream after the value it consumed. -/
structure Decoded where
  Salt : List Byte
  L2N : Nat
  R : Int
  P : Int
  err : Option Error
  rest : List Byte
deriving DecidableEq

/-- The primitives the package takes from outside the repository. -/
structure Prims where
  /-- The call `scrypt.Key(password, salt, N, r, p, keyLen)`; on an error the
  returned slice is nil. -/
  scrypt : List Byte → List Byte → Int → Int → Int → Int → Except Error (List Byte)
  /-- The call `secretbox.Seal(out, message, &nonce, &key)` for an empty `out`,
  as `boxSeal message nonce key`. -/
  boxSeal : List Byte → List Byte → List Byte → List Byte
  /-- The call `secretbox.Open(out, box, &nonce, &key)` for an empty `out`, as
  `boxOpen box nonce key`; `none` when `ok` is false. -/
  boxOpen : List Byte → List Byte → List Byte → Option (List Byte)
  /-- The JSON text of a `Key`: its fields `Salt`, `L2N`, `R`, `P`. -/
  jsonEncode : List Byte → Nat → Int → Int → List Byte
  /-- One `Decode` of a `json.Decoder` reading the given bytes. -/
  jsonDecode : List Byte → Decoded
  /-- Capacity the runtime would pick when `append` has to reallocate, from the
  old capacity and the length needed. -/
  growCap : Nat → Nat → Nat

/-- The environment of one call of `GenKey`. -/
structure Env where
  /-- Reading of the clock by `time.Now()` in `deadline := time.Now().Add(timeout)`. -/
  start : Int
  /-- How much later `now := time.Now()` of the loop header reads. -/
  gap : Int
  /-- The duration `now2.Sub(now)` measured for the derivation at an exponent. -/
  elapsed : Nat → Int
  /-- The call `rand.Read` on a slice of the given length. -/
  random : Nat → Except Error (List Byte)

/-- The expression `1<<key.L2N` of type `int` (64 bits). -/
def shl1 (l2n : Nat) : Int :=
  if l2n < 63 then 2 ^ l2n else if l2n = 63 then -(2 ^ 63) else 0

/-- The statement `key.L2N--` on a `uint`: `0` wraps around to `2 ^ 64 - 1`. -/
def uintDec (n : Nat) : Nat := if n = 0 then uintSize - 1 else n - 1

/-- The statement `key.L2N++`. -/
def uintInc (n : Nat) : Nat := (n + 1) % uintSize

/-- The expression `key.L2N - minL2N` of type `uint`: below `minL2N` the
difference wraps around. -/
def tableIndex (l2n : Nat) : Nat :=
  if minL2N ≤ l2n then l2n - minL2N else uintSize - (minL2N - l2n)

/-- The conversion `int(u)` of a `uint`. -/
def toInt (u : Nat) : Int := if u < 2 ^ 63 then (u : Int) else (u : Int) - 2 ^ 64

/-- The loop `for i, d := range durs` of `GenKey`, from index `i` on, with the
current value of `key.L2N`; the result is `key.L2N` after the loop. -/
def scanDurs (timeout : Int) : List Int → Nat → Nat → Nat
  | [], _, l2n => l2n
  | d :: rest, i, l2n =>
    if d < timeout then scanDurs timeout rest (i + 1) ((minL2N + i) % uintSize)
    else if d > timeout then uintDec l2n
    else l2n

/-- The slice expression `durs[:n]` for `n` within the capacity. -/
def Slice.reslice (s : Slice) (n : Nat) : Slice := { arr := s.arr, len := n }

/-- The call `append(durs, make([]time.Duration, n)...)`. -/
def Slice.appendZeros (growCap : Nat → Nat → Nat) (s : Slice) (n : Nat) : Slice :=
  if s.len + n ≤ s.cap then
    { arr := s.arr.take s.len ++ List.replicate n 0 ++ s.arr.drop (s.len + n), len := s.len + n }
  else
    { arr := s.arr.take s.len ++ List.replicate (max (s.len + n) (growCap s.cap (s.len + n)) - s.len) 0,
      len := s.len + n }

/-- Lines 181 to 189 of the source: make room for index `key.L2N - minL2N` and
store `dur` there. `Except.error` is the panic of an index out of range, with
the slice as it stands then. -/
def recordDur (growCap : Nat → Nat → Nat) (durs : Slice) (l2n : Nat) (dur : Int) :
    Except Slice Slice :=
  let i : Int := toInt (tableIndex l2n)
  let durs1 : Slice :=
    if (durs.len : Int) ≤ i then
      if (durs.cap : Int) > i then durs.reslice (i + 1).toNat
      else durs.appendZeros growCap durs.len
    else durs
  if tableIndex l2n < durs1.len then
    .ok { arr := durs1.arr.set (tableIndex l2n) dur, len := durs1.len }
  else .error durs1

/-- One run of `GenKey`: its result, the table `durs` it leaves, and the
exponents at which it called `scrypt.Key`, in order. -/
structure GenRun where
  out : Result (Key × Option Error)
  durs : Slice
  derived : List Nat
deriving DecidableEq

/-- What one pass through the body of the loop of `GenKey` leaves: the function
is left (a `return` or a panic), or the end of the body is reached and the
condition of the loop is tested again. -/
inductive Pass where
  | stop (run : GenRun)
  | again (key : Key) (now : Int) (durs : Slice) (log : List Nat)

/-- The body of the loop of `GenKey`, lines 176 to 195 of the source. -/
def loopBody (P : Prims) (env : Env) (password salt : List Byte) (keyLen : Int)
    (deadline : Int) (key : Key) (now : Int) (durs : Slice) (log : List Nat) : Pass :=
  match P.scrypt password salt (shl1 key.L2N) key.R key.P keyLen with
  | .error e =>
    .stop { out := .ret ({ key with Bytes := [] }, some e), durs := durs,
            derived := log ++ [key.L2N] }
  | .ok b =>
    let dur := env.elapsed key.L2N
    let now2 := now + dur
    match recordDur P.growCap durs key.L2N dur with
    | .error durs1 =>
      .stop { out := .panic "index out of range", durs := durs1, derived := log ++ [key.L2N] }
    | .ok durs2 =>
      if now2 + 2 * dur > deadline then
        .stop { out := .ret ({ key with Bytes := b }, none), durs := durs2,
                derived := log ++ [key.L2N] }
      else
        .again { key with Bytes := b, L2N := uintInc key.L2N } now2 durs2 (log ++ [key.L2N])

/-- The loop `for now := time.Now(); now.Before(deadline); { ... }` of `GenKey`
and the `return key, nil` after it. -/
def liveLoop (P : Prims) (env : Env) (password salt : List Byte) (keyLen : Int)
    (deadline : Int) : Nat → Key → Int → Slice → List Nat → GenRun
  | 0, key, now, durs, log =>
    if now < deadline then { out := .diverge, durs := durs, derived := log }
    else { out := .ret (key, none), durs := durs, derived := log }
  | fuel + 1, key, now, durs, log =>
    if now < deadline then
      match loopBody P env password salt keyLen deadline key now durs log with
      | .stop run => run
      | .again key2 now2 durs2 log2 =>
        liveLoop P env password salt keyLen deadline fuel key2 now2 durs2 log2
    else { out := .ret (key, none), durs := durs, derived := log }

/-- The function `GenKey`, run on the table `durs` with the given fuel. -/
def GenKey (P : Prims) (env : Env) (fuel : Nat) (durs : Slice) (password : List Byte)
    (saltLen keyLen : Int) (timeout : Int) : GenRun :=
  if saltLen < 0 then
    { out := .panic "makeslice: len out of range", durs := durs, derived := [] }
  else
    match env.random saltLen.toNat with
    | .error e => { out := .ret (Key.zero, some e), durs := durs, derived := [] }
    | .ok salt =>
      let key : Key :=
        { Bytes := [], Salt := salt, L2N := scanDurs timeout durs.elems 0 minL2N, R := 8, P := 1 }
      liveLoop P env password salt keyLen (env.start + timeout) fuel key
        (env.start + env.gap) durs []

/-- The effect of `copy(dst[:], src)` on a zeroed array of `n` bytes. -/
def fit (n : Nat) (src : List Byte) : List Byte :=
  src.take n ++ List.replicate (n - src.length) 0

/-- The struct `SecretWriter`, without its sink. -/
structure SecretWriter where
  key : List Byte
  nonce : List Byte
  buf : List Byte

/-- The method `SecretWriter.Write`. -/
def SecretWriter.Write (sw : SecretWriter) (p : List Byte) : SecretWriter :=
  { sw with buf := sw.buf ++ p }

/-- The bytes `SecretWriter.Close` writes to its sink. -/
def SecretWriter.Close (P : Prims) (sw : SecretWriter) : List Byte :=
  P.boxSeal sw.buf (fit 24 sw.nonce) (fit 32 sw.key)

/-- The method `Key.Populate`: the key after the call, and the error. -/
def Key.Populate (P : Prims) (key : Key) (password : List Byte) (keyLen : Int) :
    Key × Option Error :=
  match P.scrypt password key.Salt (shl1 key.L2N) key.R key.P keyLen with
  | .ok b => ({ key with Bytes := b }, none)
  | .error e => ({ key with Bytes := [] }, some e)

/-- The variable `key` of `OpenReader` after `dec.Decode(&key)`: a zero `Key`
with the decoded fields stored; `Bytes`, tagged `json:"-"`, stays nil. -/
def Decoded.toKey (d : Decoded) : Key :=
  { Bytes := [], Salt := d.Salt, L2N := d.L2N, R := d.R, P := d.P }

/-- The JSON text of a `Key` value: the encoder sees the fields `Salt`, `L2N`,
`R` and `P`, and skips `Bytes`, which is tagged `json:"-"`. -/
def Key.jsonEncode (P : Prims) (key : Key) : List Byte :=
  P.jsonEncode key.Salt key.L2N key.R key.P

/-- The function `OpenReader` on a reader that yields the bytes `r`: the key,
the content of the returned reader (`none` for a nil reader) and the error. -/
def OpenReader (P : Prims) (r : List Byte) (passphrase : List Byte) :
    Result (Key × Option (List Byte) × Option Error) :=
  let d := P.jsonDecode r
  let key : Key := d.toKey
  match d.err with
  | some e => .ret (key, none, some e)
  | none =>
    match key.Populate P passphrase 32 with
    | (key, some e) => .ret (key, none, some e)
    | (key, none) =>
      let box := d.rest
      if box.length < 1 then .panic "slice bounds out of range"
      else
        let box := box.drop 1
        if box.length < Overhead then .panic "makeslice: cap out of range"
        else
          match P.boxOpen box (fit 24 key.Salt) (fit 32 key.Bytes) with
          | none => .ret (key, none, some "failed open box")
          | some data => .ret (key, some data, none)

/-- The envelope of the wire format for a key and a plaintext: the JSON text of
the key as `json.Encoder.Encode` writes it (the text, then one newline), then
the bytes `SecretWriter.Close` writes for the buffered plaintext with
`key = K.Bytes` and `nonce = K.Salt`. -/
def sealedEnvelope (P : Prims) (K : Key) (plain : List Byte) : List Byte :=
  K.jsonEncode P ++
    (10 : Byte) :: SecretWriter.Close P { key := K.Bytes, nonce := K.Salt, buf := plain }

/-- Contract of NaCl secretbox: a box sealed under a 24-byte nonce and a 32-byte
key opens under the same nonce and key to the message, and is `Overhead` bytes
longer than the message. -/
def Prims.BoxContract (P : Prims) : Prop :=
  ∀ m n k : List Byte, n.length = 24 → k.length = 32 →
    P.boxOpen (P.boxSeal m n k) n k = some m ∧
      (P.boxSeal m n k).length = m.length + Overhead

/-- Contract of encoding/json: `Decode` reads back the fields of an encoded key
without error, and leaves unread whatever follows the closing brace. -/
def Prims.JsonContract (P : Prims) : Prop :=
  ∀ (salt : List Byte) (l2n : Nat) (r p : Int) (rest : List Byte),
    P.jsonDecode (P.jsonEncode salt l2n r p ++ rest) =
      { Salt := salt, L2N := l2n, R := r, P := p, err := none, rest := rest }

/-! ### AES helpers (`Encrypt`, `Decrypt`) -/

/-- The constant `aes.BlockSize`. -/
def aesBlockSize : Nat := 16

/-- Whether `aes.NewCipher` accepts the key: its length is 16, 24 or 32. -/
def aesKeyOk (key : List Byte) : Bool :=
  key.length = 16 || key.length = 24 || key.length = 32

/-- The primitives `Encrypt` and `Decrypt` take from crypto/cipher and
encoding/base64. A Go string is the list of its bytes. -/
structure AesPrims where
  /-- The stream `cipher.NewCFBEncrypter(block, iv)` of the AES block of a key,
  applied by `XORKeyStream`: `cfbEncrypt key iv src`. -/
  cfbEncrypt : List Byte → List Byte → List Byte → List Byte
  /-- The stream `cipher.NewCFBDecrypter(block, iv)`, likewise. -/
  cfbDecrypt : List Byte → List Byte → List Byte → List Byte
  /-- The call `base64.URLEncoding.EncodeToString`. -/
  b64Encode : List Byte → List Byte
  /-- The call `base64.URLEncoding.DecodeString`. -/
  b64Decode : List Byte → Except Error (List Byte)

/-- Contract of the CFB streams and of base64: decrypting under the key and IV
of the encryption gives the plaintext back, and decoding an encoding gives the
bytes back. -/
def AesPrims.Contract (A : AesPrims) : Prop :=
  (∀ key iv src : List Byte, aesKeyOk key = true → iv.length = aesBlockSize →
      A.cfbDecrypt key iv (A.cfbEncrypt key iv src) = src) ∧
    ∀ bytes : List Byte, A.b64Decode (A.b64Encode bytes) = .ok bytes

/-- The function `Encrypt`; `random` is what `io.ReadFull(rand.Reader, iv)`
yields for the 16 bytes of the IV. -/
def Encrypt (A : AesPrims) (random : Except Error (List Byte)) (keyString data : List Byte) :
    List Byte × Option Error :=
  if aesKeyOk keyString then
    match random with
    | .error e => ([], some e)
    | .ok r =>
      let iv := fit aesBlockSize r
      (A.b64Encode (iv ++ A.cfbEncrypt keyString iv data), none)
  else ([], some "crypto/aes: invalid key size")

/-- The function `Decrypt`. -/
def Decrypt (A : AesPrims) (keyString base64Data : List Byte) : List Byte × Option Error :=
  match A.b64Decode base64Data with
  | .error e => ([], some e)
  | .ok ciphertext =>
    if aesKeyOk keyString then
      if ciphertext.length < aesBlockSize then
        ([], some "Ciphertext provided is smaller than AES block size")
      else
        (A.cfbDecrypt keyString (ciphertext.take aesBlockSize) (ciphertext.drop aesBlockSize),
          none)
    else ([], some "crypto/aes: invalid key size")

/-! ### A small instance of the primitives

Stand-ins for the external primitives, used to run the model on concrete
inputs. They keep the documented contracts that the package relies on: the
stand-in for scrypt rejects `N ≤ 1` and returns `keyLen` bytes, the stand-in
for the box opens what it sealed under the same key and has 16 bytes of
overhead, and the stand-in for the JSON codec reads back what it wrote and
leaves the bytes after the value unread. -/

/-- Stand-in for `scrypt.Key`. -/
def refScrypt (password salt : List Byte) (N _r _p keyLen : Int) : Except Error (List Byte) :=
  if N ≤ 1 then .error "scrypt: N must be > 1 and a power of 2"
  else
    .ok (List.replicate keyLen.toNat
      (Fin.ofNat ((password.map Fin.val).sum + (salt.map Fin.val).sum + N.toNat + 1)))

/-- Stand-in for `secretbox.Seal`: a 16-byte tag taken from the key, then the message. -/
def refSeal (message _nonce key : List Byte) : List Byte := fit 16 key ++ message

/-- Stand-in for `secretbox.Open`. -/
def refOpen (box _nonce key : List Byte) : Option (List Byte) :=
  if box.take 16 = fit 16 key then some (box.drop 16) else none

/-- A number in unary: that many ones, then a zero. -/
def unary (n : Nat) : List Byte := List.replicate n 1 ++ [0]

/-- Reads a number in unary and returns it with the bytes after it. -/
def readUnary : List Byte → Option (Nat × List Byte)
  | [] => none
  | b :: rest =>
    if b = 0 then some (0, rest)
    else if b = 1 then
      match readUnary rest with
      | some (n, r) => some (n + 1, r)
      | none => none
    else none

/-- An integer as a sign byte and its absolute value in unary. -/
def intCode (z : Int) : List Byte := (if z < 0 then 1 else 0) :: unary z.natAbs

/-- Reads an integer written by `intCode`. -/
def readInt : List Byte → Option (Int × List Byte)
  | [] => none
  | s :: rest =>
    match readUnary rest with
    | some (n, r) => some (if s = 0 then (n : Int) else -(n : Int), r)
    | none => none

/-- Stand-in for the JSON text of a `Key`. -/
def refEncode (salt : List Byte) (l2n : Nat) (r p : Int) : List Byte :=
  unary salt.length ++ salt ++ unary l2n ++ intCode r ++ intCode p

/-- The result of a failed `Decode`. -/
def Decoded.failed (rest : List Byte) : Decoded :=
  { Salt := [], L2N := 0, R := 0, P := 0, err := some "unexpected end of JSON input", rest := rest }

/-- Stand-in for `json.Decoder.Decode`. -/
def refDecode (bytes : List Byte) : Decoded :=
  match readUnary bytes with
  | none => Decoded.failed []
  | some (n, r1) =>
    if r1.length < n then Decoded.failed []
    else
      match readUnary (r1.drop n) with
      | none => Decoded.failed []
      | some (l2n, r2) =>
        match readInt r2 with
        | none => Decoded.failed []
        | some (r, r3) =>
          match readInt r3 with
          | none => Decoded.failed []
          | some (p, r4) =>
            { Salt := r1.take n, L2N := l2n, R := r, P := p, err := none, rest := r4 }

/-- The instance of the primitives made of the stand-ins; a reallocating
`append` doubles the capacity. -/
def refPrims : Prims :=
  { scrypt := refScrypt, boxSeal := refSeal, boxOpen := refOpen,
    jsonEncode := refEncode, jsonDecode := refDecode, growCap := fun c _ => 2 * c }

/-- The instance whose key derivation reports an error on every call. -/
def failingKdfPrims : Prims :=
  { refPrims with scrypt := fun _ _ _ _ _ _ => .error "scrypt: parameters are too large" }

/-- Stand-ins for the CFB streams and for base64: the stream adds the first
byte of the IV to every byte, the encoding puts a marker byte in front. -/
def refAesPrims : AesPrims :=
  { cfbEncrypt := fun _ iv src => src.map (fun b => b + iv.headD 0),
    cfbDecrypt := fun _ iv src => src.map (fun b => b - iv.headD 0),
    b64Encode := fun bytes => 61 :: bytes,
    b64Decode := fun text =>
      match text with
      | [] => .error "illegal base64 data"
      | _ :: bytes => .ok bytes }

/-- An environment for concrete runs: the clock reads `0` at the first reading
and `gap` at the second, the derivation at exponent `e` is measured as
`elapsed e`, and the random source yields sevens. -/
def refEnv (gap : Int) (elapsed : Nat → Int) : Env :=
  { start := 0, gap := gap, elapsed := elapsed, random := fun n => .ok (List.replicate n 7) }

/-! ### `encoding/json` on `Key`

The header of an envelope is the JSON text of a `Key`, as `encoding/json` writes
it, and `OpenReader` reads it back with `json.NewDecoder(r).Decode(&key)`. What
the library does with a `Key` follows from the declaration of the struct: the
names, the types and the `json` tags of its fields.

The part of JSON modelled is the one the header lives in: an object whose
members are strings without escapes (characters from `0x20` to `0x7E`, less the
quote and the backslash), whole numbers and `null`, with blanks between the
tokens. In the theorems on `OpenReader` the codec is a field of `Prims`, with
its contract as a hypothesis; here it is written out. -/

/-- The fields of the struct `Key`. -/
inductive Field where
  | Bytes
  | Salt
  | L2N
  | R
  | P
deriving DecidableEq

/-- The fields of `Key` in the order of the declaration. -/
def Key.fields : List Field := [.Bytes, .Salt, .L2N, .R, .P]

/-- The name of a field, in ASCII: `Bytes`, `Salt`, `L2N`, `R`, `P`. -/
def Field.name : Field → List Byte
  | .Bytes => [66, 121, 116, 101, 115]
  | .Salt => [83, 97, 108, 116]
  | .L2N => [76, 50, 78]
  | .R => [82]
  | .P => [80]

/-- The `json` key of the struct tag of a field in the declaration of `Key`:
`Bytes` is tagged `json:"-"`, the other fields have no tag. -/
def Field.tag : Field → Option (List Byte)
  | .Bytes => some [45]
  | _ => none

/-- The fields of `Key` that `encoding/json` works with, for writing and for
reading: a field tagged `json:"-"` is left out. -/
def jsonFields : List Field := Key.fields.filter fun f => decide (f.tag ≠ some [45])

/-- The value of a field of a `Key`. -/
inductive GoValue where
  | bytes (b : List Byte)
  | uint (n : Nat)
  | int (z : Int)
deriving DecidableEq

/-- The selector `key.f`. -/
def Key.get (key : Key) : Field → GoValue
  | .Bytes => .bytes key.Bytes
  | .Salt => .bytes key.Salt
  | .L2N => .uint key.L2N
  | .R => .int key.R
  | .P => .int key.P

/-- A JSON value of the part modelled: `null`, a whole number by its sign and
its digits (`-0` is a number of its own), a string by its characters. -/
inductive JsonValue where
  | null
  | num (neg : Bool) (abs : Nat)
  | str (s : List Byte)
deriving DecidableEq

/-- The character of a digit: the last decimal digit of `k`. -/
def digit (k : Nat) : Byte := ⟨48 + k % 10, by omega⟩

/-- The decimal digits of `n`, the last one first, at most `fuel` of them. -/
def decimalRev : Nat → Nat → List Byte
  | 0, _ => []
  | fuel + 1, n => digit n :: (if n < 10 then [] else decimalRev fuel (n / 10))

/-- The decimal text of a natural number, as `strconv.AppendUint` writes it. -/
def decimal (n : Nat) : List Byte := (decimalRev (n + 1) n).reverse

/-- The character of a 6-bit value in the alphabet of `base64.StdEncoding`:
`A` to `Z`, `a` to `z`, `0` to `9`, `+` and `/`. -/
def b64Char (i : Nat) : Byte :=
  Fin.ofNat (if i < 26 then 65 + i else if i < 52 then 71 + i else if i < 62 then i - 4
    else if i = 62 then 43 else 47)

/-- The 6-bit value of a character of the alphabet of `base64.StdEncoding`. -/
def b64Val (c : Byte) : Option Nat :=
  if 65 ≤ c.val ∧ c.val ≤ 90 then some (c.val - 65)
  else if 97 ≤ c.val ∧ c.val ≤ 122 then some (c.val - 71)
  else if 48 ≤ c.val ∧ c.val ≤ 57 then some (c.val + 4)
  else if c.val = 43 then some 62
  else if c.val = 47 then some 63
  else none

/-- The call `base64.StdEncoding.EncodeToString`: three bytes give four
characters, and a last group of one or two bytes is padded with `=`. -/
def b64Encode : List Byte → List Byte
  | [] => []
  | [x] => [b64Char (x.val / 4), b64Char (x.val % 4 * 16), 61, 61]
  | [x, y] =>
    [b64Char (x.val / 4), b64Char (x.val % 4 * 16 + y.val / 16), b64Char (y.val % 16 * 4), 61]
  | x :: y :: z :: rest =>
    b64Char (x.val / 4) :: b64Char (x.val % 4 * 16 + y.val / 16) ::
      b64Char (y.val % 16 * 4 + z.val / 64) :: b64Char (z.val % 64) :: b64Encode rest

/-- The call `base64.StdEncoding.Decode` on a text without line breaks; `none`
is a `base64.CorruptInputError`. Padding is looked for in the last group of four
characters only, and the bits a padded group leaves over are not checked. -/
def b64Decode : List Byte → Option (List Byte)
  | [] => some []
  | [_] => none
  | [_, _] => none
  | [_, _, _] => none
  | a :: b :: c :: d :: rest =>
    match b64Val a, b64Val b with
    | some x, some y =>
      if rest = [] ∧ c = 61 ∧ d = 61 then some [Fin.ofNat (x * 4 + y / 16)]
      else
        match b64Val c with
        | none => none
        | some z =>
          if rest = [] ∧ d = 61 then
            some [Fin.ofNat (x * 4 + y / 16), Fin.ofNat (y % 16 * 16 + z / 4)]
          else
            match b64Val d, b64Decode rest with
            | some w, some bs =>
              some (Fin.ofNat (x * 4 + y / 16) :: Fin.ofNat (y % 16 * 16 + z / 4) ::
                Fin.ofNat (z % 4 * 64 + w) :: bs)
            | _, _ => none
    | _, _ => none

/-- The JSON value `encoding/json` writes for a value of a field: a `[]byte` is
a string in base64, and `null` when the slice is nil, a `uint` or an `int` is a
number. `nilEmpty` tells whether the empty slices of the value are nil. -/
def GoValue.toJson (nilEmpty : Bool) : GoValue → JsonValue
  | .bytes b => if b = [] ∧ nilEmpty = true then .null else .str (b64Encode b)
  | .uint n => .num false n
  | .int z => .num (decide (z < 0)) z.natAbs

/-- The text of a JSON value; a string is one that needs no escapes. -/
def JsonValue.text : JsonValue → List Byte
  | .null => [110, 117, 108, 108]
  | .num neg abs => (if neg then [45] else []) ++ decimal abs
  | .str s => 34 :: s ++ [34]

/-- The text of a member of an object: the name in quotes, a colon, the value. -/
def memberText (m : List Byte × JsonValue) : List Byte :=
  34 :: m.1 ++ 34 :: 58 :: m.2.text

/-- The texts of the members of an object, with commas between them. -/
def membersText : List (List Byte × JsonValue) → List Byte
  | [] => []
  | [m] => memberText m
  | m :: ms => memberText m ++ 44 :: membersText ms

/-- The text of an object, as `json.Marshal` writes it: no blanks. -/
def objectText (ms : List (List Byte × JsonValue)) : List Byte :=
  123 :: membersText ms ++ [125]

/-- The call `json.Marshal(key)` for a `Key`: an object with one member for each
field `encoding/json` works with, in the order of the declaration, under the
name of the field. `nilEmpty` tells whether an empty `Salt` is nil. -/
def Key.Marshal (nilEmpty : Bool) (key : Key) : List Byte :=
  objectText (jsonFields.map fun f => (f.name, (key.get f).toJson nilEmpty))

/-- The blanks of JSON: space, tab, line feed, carriage return. -/
def isSpace (c : Byte) : Bool := c = 32 || c = 9 || c = 10 || c = 13

/-- Skips the blanks in front of a token. -/
def skipSpace : List Byte → List Byte
  | [] => []
  | c :: rest => if isSpace c then skipSpace rest else c :: rest

/-- Reads a string from behind its opening quote: its characters, and the text
behind the closing quote. A string with an escape or with a character outside
`0x20` to `0x7E` is not of the part modelled. -/
def readString : List Byte → Option (List Byte × List Byte)
  | [] => none
  | c :: rest =>
    if c = 34 then some ([], rest)
    else if c = 92 ∨ c.val < 32 ∨ 127 ≤ c.val then none
    else
      match readString rest with
      | some (s, r) => some (c :: s, r)
      | none => none

/-- Whether a character is a decimal digit. -/
def isDigit (c : Byte) : Bool := decide (48 ≤ c.val) && decide (c.val ≤ 57)

/-- Reads decimal digits as long as there are some, adding them to `acc`. -/
def readDigits : List Byte → Nat → Nat × List Byte
  | [], acc => (acc, [])
  | c :: rest, acc =>
    if isDigit c then readDigits rest (acc * 10 + (c.val - 48)) else (acc, c :: rest)

/-- Reads the digits of a number: `0`, or digits that do not start with `0`. -/
def readNat : List Byte → Option (Nat × List Byte)
  | [] => none
  | c :: rest =>
    if c = 48 then
      match rest with
      | [] => some (0, [])
      | d :: _ => if isDigit d then none else some (0, rest)
    else if isDigit c then some (readDigits (c :: rest) 0)
    else none

/-- Reads a value: a string, `null`, or a whole number. -/
def readValue : List Byte → Option (JsonValue × List Byte)
  | [] => none
  | c :: rest =>
    if c = 34 then
      match readString rest with
      | some (s, r) => some (.str s, r)
      | none => none
    else if c = 110 then
      if rest.take 3 = [117, 108, 108] then some (.null, rest.drop 3) else none
    else if c = 45 then
      match readNat rest with
      | some (n, r) => some (.num true n, r)
      | none => none
    else
      match readNat (c :: rest) with
      | some (n, r) => some (.num false n, r)
      | none => none

/-- Reads the members of an object from the opening quote of a name up to the
closing brace: the members in order, and the text behind the brace. `fuel`
bounds the number of members. -/
def readMembers : Nat → List Byte → Option (List (List Byte × JsonValue) × List Byte)
  | 0, _ => none
  | _ + 1, [] => none
  | fuel + 1, c :: rest =>
    if c ≠ 34 then none
    else
      match readString rest with
      | none => none
      | some (name, r1) =>
        match skipSpace r1 with
        | [] => none
        | c2 :: r2 =>
          if c2 ≠ 58 then none
          else
            match readValue (skipSpace r2) with
            | none => none
            | some (v, r3) =>
              match skipSpace r3 with
              | [] => none
              | c3 :: r4 =>
                if c3 = 125 then some ([(name, v)], r4)
                else if c3 = 44 then
                  match readMembers fuel (skipSpace r4) with
                  | some (ms, r5) => some ((name, v) :: ms, r5)
                  | none => none
                else none

/-- Reads the first JSON value of a stream when it is an object of the part
modelled: its members in order, and the text behind its closing brace, which
stays unread. Every member takes up some bytes, so that the length of the text
bounds their number. -/
def readObject (bytes : List Byte) : Option (List (List Byte × JsonValue) × List Byte) :=
  match skipSpace bytes with
  | [] => none
  | c :: rest =>
    if c ≠ 123 then none
    else
      match skipSpace rest with
      | [] => none
      | c2 :: r2 => if c2 = 125 then some ([], r2) else readMembers bytes.length (c2 :: r2)

/-- A letter of ASCII in lower case. -/
def lower (c : Byte) : Byte := if 65 ≤ c.val ∧ c.val ≤ 90 then c + 32 else c

/-- The field a member of an object is stored into: the field of that name, or
else a field whose name differs in the case of letters only; `none` for any
other name, whose member is skipped. -/
def fieldOf (name : List Byte) : Option Field :=
  match jsonFields.find? fun f => decide (f.name = name) with
  | some f => some f
  | none => jsonFields.find? fun f => decide (f.name.map lower = name.map lower)

/-- The errors of a `Decode` that has read a JSON text: a
`*json.UnmarshalTypeError` for a value that does not fit the field, a
`base64.CorruptInputError` for a string that is not base64. -/
inductive DecodeError where
  | UnmarshalTypeError (field : Field)
  | CorruptInputError
deriving DecidableEq

/-- The error `Decode` keeps: the first one. -/
def saveError (err : Option DecodeError) (e : DecodeError) : Option DecodeError :=
  match err with
  | some e0 => some e0
  | none => some e

/-- Stores a JSON value into a `[]byte`: a string is decoded from base64, `null`
makes the slice nil, a number is an error. -/
def storeBytes (v : JsonValue) (f : Field) : Except DecodeError (List Byte) :=
  match v with
  | .str s =>
    match b64Decode s with
    | some b => .ok b
    | none => .error .CorruptInputError
  | .null => .ok []
  | .num _ _ => .error (.UnmarshalTypeError f)

/-- Stores a JSON value into a `uint` holding `old`: a number is parsed by
`strconv.ParseUint`, which takes no sign, and has to fit 64 bits; `null` has no
effect. -/
def storeUint (old : Nat) (v : JsonValue) (f : Field) : Except DecodeError Nat :=
  match v with
  | .num neg abs => if neg = false ∧ abs < 2 ^ 64 then .ok abs else .error (.UnmarshalTypeError f)
  | .null => .ok old
  | .str _ => .error (.UnmarshalTypeError f)

/-- Stores a JSON value into an `int` holding `old`: a number is parsed by
`strconv.ParseInt` and has to fit 64 bits; `null` has no effect. -/
def storeInt (old : Int) (v : JsonValue) (f : Field) : Except DecodeError Int :=
  match v with
  | .num neg abs =>
    if (if neg then -(abs : Int) else (abs : Int)) < 2 ^ 63 ∧
        -2 ^ 63 ≤ (if neg then -(abs : Int) else (abs : Int)) then
      .ok (if neg then -(abs : Int) else (abs : Int))
    else .error (.UnmarshalTypeError f)
  | .null => .ok old
  | .str _ => .error (.UnmarshalTypeError f)

/-- Stores the value of a member into a field of the key: on an error the field
stays as it was, the first error is kept and the decoding goes on. -/
def Key.store (key : Key) (err : Option DecodeError) (f : Field) (v : JsonValue) :
    Key × Option DecodeError :=
  match f with
  | .Bytes =>
    match storeBytes v f with
    | .ok b => ({ key with Bytes := b }, err)
    | .error e => (key, saveError err e)
  | .Salt =>
    match storeBytes v f with
    | .ok b => ({ key with Salt := b }, err)
    | .error e => (key, saveError err e)
  | .L2N =>
    match storeUint key.L2N v f with
    | .ok n => ({ key with L2N := n }, err)
    | .error e => (key, saveError err e)
  | .R =>
    match storeInt key.R v f with
    | .ok z => ({ key with R := z }, err)
    | .error e => (key, saveError err e)
  | .P =>
    match storeInt key.P v f with
    | .ok z => ({ key with P := z }, err)
    | .error e => (key, saveError err e)

/-- Stores the members of an object into a key, one after the other. -/
def Key.storeMembers (key : Key) (err : Option DecodeError) :
    List (List Byte × JsonValue) → Key × Option DecodeError
  | [] => (key, err)
  | m :: ms =>
    match fieldOf m.1 with
    | some f => Key.storeMembers (key.store err f m.2).1 (key.store err f m.2).2 ms
    | none => Key.storeMembers key err ms

/-- The statement `dec.Decode(&key)` of `OpenReader`, for `var key Key` and a
decoder on a stream of the given bytes: the key, the error, and the bytes of the
stream behind the value read. `none` stands for a text whose first value is not
an object of the part of JSON modelled. -/
def Key.Decode (bytes : List Byte) : Option (Key × Option DecodeError × List Byte) :=
  match readObject bytes with
  | none => none
  | some (ms, rest) =>
    some ((Key.zero.storeMembers none ms).1, (Key.zero.storeMembers none ms).2, rest)

end cryptox

/-! ## Package `netx` (src/netx/netx.go)

A Go string is the list of its characters, `len` counts its bytes in UTF-8.
A `uint32` is a `Nat` below `2 ^ 32`, with the wrap-around of each operation
written out. An `error` is `Option String`. -/

namespace netx

/-- A Go string. -/
abbrev Str := List Char

/-- The function `len` on a string: its length in bytes. -/
def len (s : Str) : Nat := (s.map Char.utf8Size).sum

/-- The call `strconv.FormatUint(n, 10)`. -/
def FormatUint (n : Nat) : Str := Nat.toDigits 10 n

/-- The value of a decimal digit. -/
def digitVal (c : Char) : Option Nat :=
  if '0' ≤ c ∧ c ≤ '9' then some (c.toNat - '0'.toNat) else none

/-- The value of a string of decimal digits, after the digits read so far. -/
def parseDigits : Str → Nat → Option Nat
  | [], acc => some acc
  | c :: cs, acc =>
    match digitVal c with
    | none => none
    | some d => parseDigits cs (acc * 10 + d)

/-- The call `strconv.ParseUint(s, 10, 0)`: `none` for an error (an empty
string, a character that is no digit, a value that does not fit 64 bits). -/
def ParseUint (s : Str) : Option Nat :=
  if s = [] then none
  else
    match parseDigits s 0 with
    | none => none
    | some n => if n < 2 ^ 64 then some n else none

/-- The body of the loop of `Atoi` over the octets from index `i` on. -/
def atoiLoop : List Str → Nat → Nat → Nat × Option String
  | [], _, sum => (sum, none)
  | o :: rest, i, sum =>
    match ParseUint o with
    | none => (sum, some ("bad octect " ++ String.mk o))
    | some oct => atoiLoop rest (i + 1) ((sum + (oct % 2 ^ 32) <<< ((4 - 1 - i) * 8) % 2 ^ 32) % 2 ^ 32)

/-- The function `Atoi`: the sum and the error. -/
def Atoi (addr : Str) : Nat × Option String :=
  if len addr > 15 then (0, some "addr too long")
  else
    let octs := addr.splitOn '.'
    if octs.length ≠ 4 then (0, some "requires 4 octects")
    else atoiLoop octs 0 0

/-- The octet `(addr >> uint32((4-1-i)*8)) & 0xff` of `Itoa`. -/
def octet (addr i : Nat) : Nat := (addr >>> ((4 - 1 - i) * 8)) &&& 0xff

/-- The function `Itoa`. -/
def Itoa (addr : Nat) : Str :=
  FormatUint (octet addr 0) ++ '.' :: FormatUint (octet addr 1) ++ '.' ::
    FormatUint (octet addr 2) ++ '.' :: FormatUint (octet addr 3)

/-- The function `Not`. -/
def Not (addr : Str) : Str × Option String :=
  (Itoa ((Atoi addr).1 ^^^ 0xffffffff), (Atoi addr).2)

/-- The function `Or`. -/
def Or (addra addrb : Str) : Str × Option String :=
  match Atoi addra with
  | (_, some e) => ([], some e)
  | (ia, none) =>
    match Atoi addrb with
    | (_, some e) => ([], some e)
    | (ib, none) => (Itoa (ia ||| ib), none)

/-- The function `Xor`. -/
def Xor (addra addrb : Str) : Str × Option String :=
  match Atoi addra with
  | (_, some e) => ([], some e)
  | (ia, none) =>
    match Atoi addrb with
    | (_, some e) => ([], some e)
    | (ib, none) => (Itoa (ia ^^^ ib), none)

/-- The function `Next`: `i + 1` on a `uint32`. -/
def Next (addr : Str) : Str × Option String :=
  (Itoa (((Atoi addr).1 + 1) % 2 ^ 32), (Atoi addr).2)

/-- The function `Prev`: `i - 1` on a `uint32`, where `0` wraps around. -/
def Prev (addr : Str) : Str × Option String :=
  (Itoa (if (Atoi addr).1 = 0 then 2 ^ 32 - 1 else (Atoi addr).1 - 1), (Atoi addr).2)

/-- The struct `Net`. -/
structure Net where
  Address : Str
  Bitmask : Nat
  Mask : Str
  Hostmask : Str
  Broadcast : Str
  First : Str
  Last : Str
  Size : Nat
deriving DecidableEq

/-- The zero value of `Net`. -/
def Net.zero : Net :=
  { Address := [], Bitmask := 0, Mask := [], Hostmask := [], Broadcast := [], First := [],
    Last := [], Size := 0 }

/-- The expression `i - j + 1` on `uint32` values. -/
def sizeOf32 (i j : Nat) : Nat := ((if j ≤ i then i - j else 2 ^ 32 - (j - i)) + 1) % 2 ^ 32

/-- The mask `0xffffffff >> (32 - bitmask) << (32 - bitmask)` as a `uint32`. -/
def maskOf (bitmask : Nat) : Nat :=
  ((0xffffffff >>> (32 - bitmask)) <<< (32 - bitmask)) % 2 ^ 32

/-- The part of `Network` after the bitmask is stored, lines 423 to 465. -/
def networkFill (net : Net) : Net × Option String :=
  let net := { net with Mask := Itoa (maskOf net.Bitmask) }
  match Not net.Mask with
  | (h, some e) => ({ net with Hostmask := h }, some e)
  | (h, none) =>
    let net := { net with Hostmask := h }
    match Or net.Address net.Hostmask with
    | (b, some e) => ({ net with Broadcast := b }, some e)
    | (b, none) =>
      let net := { net with Broadcast := b }
      match Xor net.Hostmask net.Broadcast with
      | (_, some e) => (net, some e)
      | (addr, none) =>
        match Next addr with
        | (f, some e) => ({ net with First := f }, some e)
        | (f, none) =>
          let net := { net with First := f }
          match Prev net.Broadcast with
          | (l, some e) => ({ net with Last := l }, some e)
          | (l, none) =>
            let net := { net with Last := l }
            match Atoi net.Last with
            | (_, some e) => (net, some e)
            | (i, none) =>
              match Atoi net.First with
              | (_, some e) => (net, some e)
              | (j, none) => ({ net with Size := sizeOf32 i j }, none)

/-- The function `Network`: the `Net` and the error. -/
def Network (block : Str) : Net × Option String :=
  if len block > 18 then (Net.zero, some "block too long")
  else
    match block.splitOn '/' with
    | [address, bits] =>
      let net := { Net.zero with Address := address }
      match ParseUint bits with
      | none => (net, some "strconv.ParseUint: parsing failed")
      | some bitmask =>
        if bitmask &&& 31 ≠ bitmask then (net, some "invalid bitmask")
        else networkFill { net with Bitmask := bitmask % 256 }
    | _ => (Net.zero, some "invalid block")

end netx

/-! ## Package `sortx` (src/sortx/sortx.go)

`QSortT` sorts a slice of `int`, `uint64` or `string` in place. The three cases
of its type switch have the same body, which is modelled once, over a linearly
ordered element type. A slice is a list; an index out of range panics. The
indices `start`, `end`, `low` and `high` are natural numbers: they are never
negative in a call without `start2End`, and `low-1 > start` and `high+1 < end`
read the same on them, since `0 - 1 > start` is false either way. -/

namespace sortx

/-- What a call leaves behind: a returned value, a run-time panic, or no result
within the given number of steps. -/
inductive Result (β : Type) where
  | ret (v : β)
  | panic (msg : String)
  | diverge
deriving DecidableEq

/-- The assignment `_arr[i] = v`: the slice after it, or nothing when the index
is out of range. -/
def store {α : Type} (arr : List α) (i : Nat) (v : α) : Option (List α) :=
  if i < arr.length then some (arr.set i v) else none

/-- The first inner loop, `for low < high { if _arr[high] < key { _arr[low] =
_arr[high]; break }; high-- }`: the slice and `high` after it, or nothing on an
index out of range. -/
def scanDown {α : Type} [LinearOrder α] (key : α) (arr : List α) (low : Nat) :
    Nat → Option (List α × Nat)
  | 0 => some (arr, 0)
  | high + 1 =>
    if low < high + 1 then
      match arr[high + 1]? with
      | none => none
      | some x =>
        if x < key then (store arr low x).map (fun a => (a, high + 1))
        else scanDown key arr low high
    else some (arr, high + 1)

/-- The second inner loop, `for low < high { if _arr[low] > key { _arr[high] =
_arr[low]; break }; low++ }`, with the distance `d = high - low` that `low` may
still go: the slice and `low` after it, or nothing on an index out of range. -/
def scanUp {α : Type} [LinearOrder α] (key : α) (arr : List α) (high : Nat) :
    Nat → Nat → Option (List α × Nat)
  | 0, low => some (arr, low)
  | d + 1, low =>
    if low < high then
      match arr[low]? with
      | none => none
      | some x =>
        if x > key then (store arr high x).map (fun a => (a, low))
        else scanUp key arr high d (low + 1)
    else some (arr, low)

/-- The loop `for { ... }` of `QSortT`, at most `fuel` passes of it: the slice,
`low` and `high` after the loop. -/
def partition {α : Type} [LinearOrder α] (key : α) :
    Nat → List α → Nat → Nat → Result (List α × Nat × Nat)
  | 0, _, _, _ => .diverge
  | fuel + 1, arr, low, high =>
    match scanDown key arr low high with
    | none => .panic "index out of range"
    | some (arr1, high1) =>
      match scanUp key arr1 high1 (high1 - low) low with
      | none => .panic "index out of range"
      | some (arr2, low2) =>
        if low2 ≥ high1 then
          match store arr2 low2 key with
          | none => .panic "index out of range"
          | some arr3 => .ret (arr3, low2, high1)
        else partition key fuel arr2 low2 high1

/-- The call `QSortT(arr, start, end)`, with at most `fuel` nested calls and
`fuel` passes of each loop: the slice after the call. -/
def QSortRange {α : Type} [LinearOrder α] : Nat → List α → Nat → Nat → Result (List α)
  | 0, _, _, _ => .diverge
  | fuel + 1, arr, start, end_ =>
    match arr[start]? with
    | none => .panic "index out of range"
    | some key =>
      match partition key (fuel + 1) arr start end_ with
      | .panic msg => .panic msg
      | .diverge => .diverge
      | .ret (arr1, low, high) =>
        match (if low - 1 > start then QSortRange fuel arr1 start (low - 1) else .ret arr1) with
        | .panic msg => .panic msg
        | .diverge => .diverge
        | .ret arr2 =>
          if high + 1 < end_ then QSortRange fuel arr2 (high + 1) end_ else .ret arr2

/-- The call `QSortT(arr)`: `start = 0` and `end = len(_arr) - 1`. On the empty
slice `end` is `-1` in the source and `0` here, and `_arr[start]` panics in
both. -/
def QSortT {α : Type} [LinearOrder α] (fuel : Nat) (arr : List α) : Result (List α) :=
  QSortRange fuel arr 0 (arr.length - 1)

/-- The relation of a slice `arr` to an earlier state `orig` of it when only the
indices from `s` up to `t`, without `t`, were written, and only with values of
that range: the length is the same, the slice outside the range is the same, and
each value in the range was in the range. -/
structure Frame {α : Type} (orig : List α) (s t : Nat) (arr : List α) : Prop where
  len : arr.length = orig.length
  outside : ∀ i, i < s ∨ t ≤ i → arr[i]? = orig[i]?
  inside : ∀ i y, s ≤ i → i < t → arr[i]? = some y →
    ∃ j, s ≤ j ∧ j < t ∧ orig[j]? = some y

/-- What the loop of `QSortT` keeps between passes, on the indices from `s` up
to `t`, without `t`, with the key `key`: the order of the indices, the elements
left of `low` not above the key and those right of `high` not below it, and the
slice with the key put back at `low`, where the loop has taken an element out,
being a rearrangement of the slice the loop began with. -/
structure Inv {α : Type} [LinearOrder α] (orig : List α) (key : α) (s t : Nat)
    (arr : List α) (low high : Nat) : Prop where
  frame : Frame orig s t arr
  lo : s ≤ low
  mid : low ≤ high
  hi : high < t
  bound : t ≤ orig.length
  left : ∀ i y, s ≤ i → i < low → arr[i]? = some y → y ≤ key
  right : ∀ i y, high < i → i < t → arr[i]? = some y → key ≤ y
  perm : (arr.set low key).Perm orig

/-- The slice is sorted from small to large on the indices from `s` up to `t`,
without `t`: `arr[i] <= arr[i+1]` for each adjacent pair of them. -/
def SortedOn {α : Type} [LinearOrder α] (arr : List α) (s t : Nat) : Prop :=
  ∀ i x y, s ≤ i → i + 1 < t → arr[i]? = some x → arr[i + 1]? = some y → x ≤ y

end sortx

/-! ## Package `slicex` (src/slicex/slicex.go)

A Go string is the list of its characters. `strings.ToLower` comes from outside
the repository and is a parameter. A map is the list of its entries in the
order of their insertion; Go leaves the order in which `range` visits a map
unspecified. -/

namespace slicex

/-- A Go string. -/
abbrev Str := List Char

/-- The loop of `RemoveDuplicates` from index `i` on, with `n` elements still to
visit: the slice, the index `j` and the keys of the map `found`. It returns the
slice and `j` after the loop. -/
def removeLoop (toLower : Str → Str) (caseSensitive : Bool) :
    Nat → Nat → List Str → Nat → List Str → List Str × Nat
  | 0, _, list, j, _ => (list, j)
  | n + 1, i, list, j, found =>
    let x := if caseSensitive then list.getD i [] else toLower (list.getD i [])
    if x ∈ found then removeLoop toLower caseSensitive n (i + 1) list j found
    else
      removeLoop toLower caseSensitive n (i + 1) (list.set j (list.getD i [])) (j + 1)
        (x :: found)

/-- The function `RemoveDuplicates`: the slice `*list` after the call. -/
def RemoveDuplicates (toLower : Str → Str) (list : List Str) (caseSensitive : Bool) :
    List Str :=
  (removeLoop toLower caseSensitive list.length 0 list 0 []).1.take
    (removeLoop toLower caseSensitive list.length 0 list 0 []).2

/-- Lower case of the letters `A` to `Z`, for concrete runs. -/
def asciiLower (s : Str) : Str := s.map Char.toLower

/-- The key under which `RemoveDuplicates` looks a string up in `found`: the
string itself, or its lower case when `caseSensitive` is false. -/
def dupKey (toLower : Str → Str) (caseSensitive : Bool) (x : Str) : Str :=
  if caseSensitive then x else toLower x

/-- In the words of the claim on `RemoveDuplicates`: the first occurrences among
the first `i` elements of a list, that is the elements whose key differs from
the key of every element before them, in their original order and spelling. -/
def firstOccurrences (key : Str → Str) (list : List Str) (i : Nat) : List Str :=
  ((List.range i).filter
      (fun m => decide (∀ p, p < m → key (list.getD p []) ≠ key (list.getD m [])))).map
    (fun m => list.getD m [])

/-- What a call leaves behind: a returned value or a run-time panic. -/
inductive Result (β : Type) where
  | ret (v : β)
  | panic (msg : String)
deriving DecidableEq

/-- The function `Distinct` on a slice: the keys of the map `m`, each value of
the slice once. -/
def Distinct {α : Type} [DecidableEq α] (arr : List α) : List α :=
  arr.foldl (fun m v => if v ∈ m then m else m ++ [v]) []

/-- One pass of the inner loop of `Intersect`: the counter of the key `k` goes
up by one, or is set to 1 when the key is new. -/
def count {α : Type} [DecidableEq α] (tempMap : List (α × Nat)) (k : α) : List (α × Nat) :=
  if tempMap.any (fun p => p.1 = k) then
    tempMap.map (fun p => if p.1 = k then (p.1, p.2 + 1) else p)
  else tempMap ++ [(k, 1)]

/-- The loop `for i, arg := range arrs` of `Intersect` on slices of one element
type: the map `tempMap` after the loop, or the panic of `tempArr.Index(0)` on
an empty `tempArr`. -/
def intersectLoop {α : Type} [DecidableEq α] :
    List (List α) → List (α × Nat) → Except String (List (α × Nat))
  | [], tempMap => .ok tempMap
  | arg :: rest, tempMap =>
    if Distinct arg = [] then .error "reflect: slice index out of range"
    else intersectLoop rest ((Distinct arg).foldl count tempMap)

/-- The function `Intersect` on slices of one element type: the slice it
returns and the flag. -/
def Intersect {α : Type} [DecidableEq α] (arrs : List (List α)) : Result (List α × Bool) :=
  match intersectLoop arrs [] with
  | .error msg => .panic msg
  | .ok tempMap =>
    if arrs = [] then .panic "index out of range"
    else .ret ((tempMap.filter (fun p => p.2 = arrs.length)).map Prod.fst, true)

end slicex

/-! ## Package `mathx` (src/mathx/mathx.go)

A `float64` is a finite value `±m * 2 ^ e`, an infinity or NaN, and the rounding
of the arithmetic is modelled: the conversion of an integer, the division, the
sum and the difference round to the nearest value of 53 bits, ties to even, as
IEEE 754 binary64 does. The range of the exponent is left out. -/

namespace mathx

/-- A value of type `float64`: a finite value `±m * 2 ^ e`, an infinity or
NaN. -/
inductive Float64 where
  | finite (neg : Bool) (m : Nat) (e : Int)
  | inf (neg : Bool)
  | nan
deriving DecidableEq

/-- The whole part of the binary logarithm of `n`, with `fuel` halvings. -/
def ilog2 : Nat → Nat → Nat
  | 0, _ => 0
  | fuel + 1, n => if n < 2 then 0 else ilog2 fuel (n / 2) + 1

/-- The comparison `a / b ≥ 2 ^ e` of a positive fraction with a power of two. -/
def geTwoPow (a b : Nat) (e : Int) : Bool :=
  if 0 ≤ e then decide (b * 2 ^ e.toNat ≤ a) else decide (b ≤ a * 2 ^ (-e).toNat)

/-- The rounding of IEEE 754 binary64, to nearest with ties to even, of the
positive fraction `a / b`: the result is `m * 2 ^ e` for the pair `(m, e)`
returned, with `m` of 53 bits. The range of the exponent is left out: the
values `DivideCeil` meets, from 64-bit integers, are far inside it. -/
def roundNearestEven (a b : Nat) : Nat × Int :=
  let e0 : Int := (ilog2 a a : Int) - (ilog2 b b : Int)
  let e : Int := if geTwoPow a b e0 then e0 else e0 - 1
  let k : Int := 52 - e
  let n : Nat := if 0 ≤ k then a * 2 ^ k.toNat else a
  let d : Nat := if 0 ≤ k then b else b * 2 ^ (-k).toNat
  let m := n / d
  let r := n % d
  (if d < 2 * r ∨ (2 * r = d ∧ m % 2 = 1) then m + 1 else m, e - 52)

/-- The conversion `float64(n)` of an `int64`. -/
def ofInt64 (n : Int) : Float64 :=
  if n = 0 then .finite false 0 0
  else .finite (decide (n < 0)) (roundNearestEven n.natAbs 1).1 (roundNearestEven n.natAbs 1).2

/-- The division `x / y` of `float64`. -/
def Float64.div : Float64 → Float64 → Float64
  | .nan, _ => .nan
  | _, .nan => .nan
  | .inf _, .inf _ => .nan
  | .inf s, .finite t _ _ => .inf (xor s t)
  | .finite s _ _, .inf t => .finite (xor s t) 0 0
  | .finite s m e, .finite t n f =>
    if n = 0 then (if m = 0 then .nan else .inf (xor s t))
    else if m = 0 then .finite (xor s t) 0 0
    else .finite (xor s t) (roundNearestEven m n).1 ((roundNearestEven m n).2 + e - f)

/-- The function `math.Ceil`. -/
def Ceil : Float64 → Float64
  | .finite s m e =>
    if 0 ≤ e then .finite s m e
    else if s then .finite s (m / 2 ^ (-e).toNat) 0
    else .finite s ((m + 2 ^ (-e).toNat - 1) / 2 ^ (-e).toNat) 0
  | x => x

/-- The conversion `int64(x)` of a `float64`: the value cut towards zero, and
`none` where the language leaves the result to the implementation (a value
outside the range of `int64`, an infinity, NaN). -/
def toInt64 : Float64 → Option Int
  | .finite s m e =>
    let v : Int := if 0 ≤ e then (m * 2 ^ e.toNat : Nat) else (m / 2 ^ (-e).toNat : Nat)
    let v : Int := if s then -v else v
    if -2 ^ 63 ≤ v ∧ v < 2 ^ 63 then some v else none
  | _ => none

/-- The function `DivideCeil`. -/
def DivideCeil (count pageSize : Int) : Option Int :=
  toInt64 (Ceil ((ofInt64 count).div (ofInt64 pageSize)))

/-- The sum `x + y` of `float64`: the exact sum of two finite values, rounded;
an exact sum of zero is `+0`, and `-0` when both operands are negative. -/
def Float64.add : Float64 → Float64 → Float64
  | .nan, _ => .nan
  | _, .nan => .nan
  | .inf s, .inf t => if s = t then .inf s else .nan
  | .inf s, .finite _ _ _ => .inf s
  | .finite _ _ _, .inf t => .inf t
  | .finite s m e, .finite t n f =>
    let g : Int := min e f
    let a : Int := (m * 2 ^ (e - g).toNat : Nat)
    let b : Int := (n * 2 ^ (f - g).toNat : Nat)
    let sum : Int := (if s then -a else a) + (if t then -b else b)
    if sum = 0 then .finite (s && t) 0 0
    else .finite (decide (sum < 0)) (roundNearestEven sum.natAbs 1).1
      ((roundNearestEven sum.natAbs 1).2 + g)

/-- The negation `-x` of `float64`. -/
def Float64.neg : Float64 → Float64
  | .finite s m e => .finite (!s) m e
  | .inf s => .inf (!s)
  | .nan => .nan

/-- The difference `x - y` of `float64`. -/
def Float64.sub (x y : Float64) : Float64 := x.add y.neg

/-- The comparison `x < 0` of `float64`. -/
def Float64.ltZero : Float64 → Bool
  | .finite s m _ => s && decide (m ≠ 0)
  | .inf s => s
  | .nan => false

/-- The constant `0.5`. -/
def half : Float64 := .finite false 1 (-1)

/-- The function `math.Floor`. -/
def Floor : Float64 → Float64
  | .finite s m e =>
    if 0 ≤ e then .finite s m e
    else if s then .finite s ((m + 2 ^ (-e).toNat - 1) / 2 ^ (-e).toNat) 0
    else .finite s (m / 2 ^ (-e).toNat) 0
  | x => x

/-- The function `Round`. -/
def Round (f : Float64) : Float64 :=
  if f.ltZero then Ceil (f.sub half) else Floor (f.add half)

/-- The number a `float64` stands for, when it is finite. -/
def Float64.toRat : Float64 → Option ℚ
  | .finite s m e => some ((if s then -1 else 1) * (m : ℚ) * (2 : ℚ) ^ e)
  | _ => none

/-- In the words of the claim on `Round`, as amended: the nearest whole number
of an exact value, a half going away from zero. -/
def roundHalfAway (q : ℚ) : ℤ :=
  if q < 0 then ⌈q - 1 / 2⌉ else ⌊q + 1 / 2⌋

/-- The `float64` that stands for `k + 0.5`, for a whole number `k` with
`-2 ^ 52 ≤ k < 2 ^ 52`: the odd number `2 * k + 1` over 2, which has at most 53
bits. -/
def halfOf (k : Int) : Float64 := .finite (decide (k < 0)) (2 * k + 1).natAbs (-1)

end mathx

/-! ## Packages `unicode` and `unicode/utf8` of the standard library

The packages `bytex` and `strx` decode and encode UTF-8 with `unicode/utf8` and
classify runes with `unicode`. The coding is modelled from the documentation of
`unicode/utf8`; the tables of `unicode` are taken from outside, as the fields of
`Unicode`. A byte and a rune are natural numbers: the runes met here come from
`DecodeRune` and are not negative. -/

namespace utf8

/-- The constant `utf8.RuneError`, U+FFFD. -/
def RuneError : Nat := 0xFFFD

/-- The constant `utf8.RuneSelf`. -/
def RuneSelf : Nat := 0x80

/-- A continuation byte, `10xxxxxx`. -/
def isCont (b : Nat) : Bool := decide (0x80 ≤ b ∧ b ≤ 0xBF)

/-- The function `utf8.DecodeRune`: the first rune of `p` and its width in
bytes; `(RuneError, 0)` on the empty slice and `(RuneError, 1)` on an encoding
that is not valid (too short, overlong, a surrogate, above U+10FFFF). -/
def DecodeRune (p : List Nat) : Nat × Nat :=
  match p with
  | [] => (RuneError, 0)
  | b0 :: rest =>
    if b0 < 0x80 then (b0, 1)
    else if 0xC2 ≤ b0 ∧ b0 ≤ 0xDF then
      match rest with
      | b1 :: _ =>
        if isCont b1 then (((b0 &&& 0x1F) <<< 6) ||| (b1 &&& 0x3F), 2) else (RuneError, 1)
      | [] => (RuneError, 1)
    else if 0xE0 ≤ b0 ∧ b0 ≤ 0xEF then
      match rest with
      | b1 :: b2 :: _ =>
        if (if b0 = 0xE0 then 0xA0 else 0x80) ≤ b1 ∧ b1 ≤ (if b0 = 0xED then 0x9F else 0xBF) ∧
            isCont b2 then
          (((b0 &&& 0x0F) <<< 12) ||| ((b1 &&& 0x3F) <<< 6) ||| (b2 &&& 0x3F), 3)
        else (RuneError, 1)
      | _ => (RuneError, 1)
    else if 0xF0 ≤ b0 ∧ b0 ≤ 0xF4 then
      match rest with
      | b1 :: b2 :: b3 :: _ =>
        if (if b0 = 0xF0 then 0x90 else 0x80) ≤ b1 ∧ b1 ≤ (if b0 = 0xF4 then 0x8F else 0xBF) ∧
            isCont b2 ∧ isCont b3 then
          (((b0 &&& 0x07) <<< 18) ||| ((b1 &&& 0x3F) <<< 12) ||| ((b2 &&& 0x3F) <<< 6) |||
            (b3 &&& 0x3F), 4)
        else (RuneError, 1)
      | _ => (RuneError, 1)
    else (RuneError, 1)

/-- The runes of a string as `for _, r := range str` yields them, at most `fuel`
of them: each step takes one rune off with `DecodeRune`. -/
def runes : Nat → List Nat → List Nat
  | 0, _ => []
  | fuel + 1, p =>
    if p = [] then [] else (DecodeRune p).1 :: runes fuel (p.drop (DecodeRune p).2)

/-- The loop of `utf8.Valid`, on at most `fuel` runes: no step meets an encoding
that is not valid. -/
def validLoop : Nat → List Nat → Bool
  | 0, p => decide (p = [])
  | fuel + 1, p =>
    if p = [] then true
    else if (DecodeRune p).1 = RuneError ∧ (DecodeRune p).2 = 1 then false
    else validLoop fuel (p.drop (DecodeRune p).2)

/-- The functions `utf8.Valid` and `utf8.ValidString`. -/
def Valid (p : List Nat) : Bool := validLoop p.length p

/-- No rune of the string decodes to `RuneError`, within `fuel` runes: the
string is valid UTF-8 and does not hold U+FFFD. -/
def noRuneError : Nat → List Nat → Bool
  | 0, p => decide (p = [])
  | fuel + 1, p =>
    if p = [] then true
    else if (DecodeRune p).1 = RuneError then false
    else noRuneError fuel (p.drop (DecodeRune p).2)

/-- The bytes that `utf8.EncodeRune` writes, which are those of `string(r)`: a
surrogate or a rune above U+10FFFF is written as U+FFFD. -/
def EncodeRune (r : Nat) : List Nat :=
  if r < 0x80 then [r]
  else if r < 0x800 then [0xC0 ||| (r >>> 6), 0x80 ||| (r &&& 0x3F)]
  else if (0xD800 ≤ r ∧ r ≤ 0xDFFF) ∨ 0x10FFFF < r then [0xEF, 0xBF, 0xBD]
  else if r < 0x10000 then
    [0xE0 ||| (r >>> 12), 0x80 ||| ((r >>> 6) &&& 0x3F), 0x80 ||| (r &&& 0x3F)]
  else
    [0xF0 ||| (r >>> 18), 0x80 ||| ((r >>> 12) &&& 0x3F), 0x80 ||| ((r >>> 6) &&& 0x3F),
      0x80 ||| (r &&& 0x3F)]

/-- The tables of the package `unicode` that the repository reads. -/
structure Unicode where
  /-- The function `unicode.IsLower`. -/
  IsLower : Nat → Bool
  /-- The function `unicode.IsUpper`. -/
  IsUpper : Nat → Bool
  /-- The function `unicode.IsDigit`. -/
  IsDigit : Nat → Bool
  /-- The function `unicode.SimpleFold`. -/
  SimpleFold : Nat → Nat

/-- The tables of `unicode` cut down to ASCII, for concrete runs. -/
def asciiUnicode : Unicode where
  IsLower := fun r => decide (97 ≤ r ∧ r ≤ 122)
  IsUpper := fun r => decide (65 ≤ r ∧ r ≤ 90)
  IsDigit := fun r => decide (48 ≤ r ∧ r ≤ 57)
  SimpleFold := fun r =>
    if 65 ≤ r ∧ r ≤ 90 then r + 32 else if 97 ≤ r ∧ r ≤ 122 then r - 32 else r

/-- The bytes of an ASCII string literal. -/
def bytes (s : String) : List Nat := s.toList.map Char.toNat

end utf8

/-! ## Package `bytex` (src/bytex/bytex.go) -/

namespace bytex

open utf8

/-- What a call leaves behind: a returned value, or no result within the given
number of steps. -/
inductive Result (β : Type) where
  | ret (v : β)
  | diverge
deriving DecidableEq

/-- The loop `for r != sr && r < tr { r = unicode.SimpleFold(r) }` of
`EqualFoldRune`, at most `fuel` passes of it: `r` after the loop. -/
def foldLoop (U : Unicode) (sr tr : Nat) : Nat → Nat → Result Nat
  | 0, _ => .diverge
  | fuel + 1, r => if r ≠ sr ∧ r < tr then foldLoop U sr tr fuel (U.SimpleFold r) else .ret r

/-- The function `EqualFoldRune`. -/
def EqualFoldRune (U : Unicode) (fuel : Nat) (sr tr : Nat) : Result Bool :=
  if sr = tr then .ret true
  else
    let lo := if tr < sr then tr else sr
    let hi := if tr < sr then sr else tr
    if hi < RuneSelf ∧ 65 ≤ lo ∧ lo ≤ 90 then .ret (decide (hi = lo + 97 - 65))
    else
      match foldLoop U lo hi fuel (U.SimpleFold lo) with
      | .diverge => .diverge
      | .ret r => .ret (decide (r = hi))

/-- The loop of `ByteHasPrefixFold`, for a prefix that is not empty, at most
`fuel` passes of it. -/
def hasPrefixLoop (U : Unicode) (fuel : Nat) : Nat → List Nat → List Nat → Result Bool
  | 0, _, _ => .diverge
  | n + 1, s, pre =>
    let pr := (DecodeRune pre).1
    let pre1 := pre.drop (DecodeRune pre).2
    if s.length = 0 then .ret false
    else
      let sr := (DecodeRune s).1
      if sr = RuneError then .ret false
      else
        let s1 := s.drop (DecodeRune s).2
        match EqualFoldRune U fuel sr pr with
        | .diverge => .diverge
        | .ret false => .ret false
        | .ret true => if pre1.length = 0 then .ret true else hasPrefixLoop U fuel n s1 pre1

/-- The function `ByteHasPrefixFold`. -/
def ByteHasPrefixFold (U : Unicode) (fuel : Nat) (s pre : List Nat) : Result Bool :=
  if pre.length = 0 then .ret true else hasPrefixLoop U fuel fuel s pre

/-- The loop of `ByteIndexFold`, at most `fuel` passes of it. -/
def indexLoop (U : Unicode) (fuel : Nat) (substr : List Nat) (firstRune : Nat) :
    Nat → List Nat → Int → Result Int
  | 0, _, _ => .diverge
  | n + 1, s, pos =>
    match EqualFoldRune U fuel (DecodeRune s).1 firstRune with
    | .diverge => .diverge
    | .ret eq =>
      match (if eq then ByteHasPrefixFold U fuel s substr else .ret false) with
      | .diverge => .diverge
      | .ret true => .ret pos
      | .ret false =>
        if (s.drop (DecodeRune s).2).length = 0 then .ret (-1)
        else indexLoop U fuel substr firstRune n (s.drop (DecodeRune s).2) (pos + (DecodeRune s).2)

/-- The function `ByteIndexFold`. -/
def ByteIndexFold (U : Unicode) (fuel : Nat) (s substr : List Nat) : Result Int :=
  if substr.length = 0 then .ret 0
  else if s.length = 0 then .ret (-1)
  else
    let firstRune := if substr.headD 0 ≥ RuneSelf then (DecodeRune substr).1 else substr.headD 0
    indexLoop U fuel substr firstRune fuel s 0

end bytex

/-! ## Package `strx` (src/strx/strx.go)

A string is the list of its bytes. -/

namespace strx

open utf8

/-- What a call leaves behind: a returned value or a run-time panic. -/
inductive Result (β : Type) where
  | ret (v : β)
  | panic (msg : String)
deriving DecidableEq

/-- The `switch` of `camelCaseSplit` on a rune: 1 for a lower case letter, 2 for
an upper case letter, 3 for a digit, 4 for the rest. -/
def classOf (U : Unicode) (r : Nat) : Nat :=
  if U.IsLower r then 1 else if U.IsUpper r then 2 else if U.IsDigit r then 3 else 4

/-- The first loop of `camelCaseSplit`, over the runes still to come: `runes`
after it, from `lastClass` and `runes` before it. -/
def classLoop (U : Unicode) : List Nat → Nat → List (List Nat) → Result (List (List Nat))
  | [], _, runes => .ret runes
  | r :: rest, lastClass, runes =>
    if classOf U r = lastClass then
      match runes.getLast? with
      | none => .panic "index out of range"
      | some last => classLoop U rest (classOf U r) (runes.dropLast ++ [last ++ [r]])
    else classLoop U rest (classOf U r) (runes ++ [[r]])

/-- The second loop of `camelCaseSplit`, `for i := 0; i < len(runes)-1; i++`,
from `i` on with `n` passes to go: the last letter of a field of upper case
letters goes over to the field of lower case letters after it. -/
def moveLoop (U : Unicode) : Nat → Nat → List (List Nat) → Result (List (List Nat))
  | 0, _, runes => .ret runes
  | n + 1, i, runes =>
    match runes[i]?, runes[i + 1]? with
    | some a, some b =>
      match a.head? with
      | none => .panic "index out of range"
      | some a0 =>
        if U.IsUpper a0 then
          match b.head? with
          | none => .panic "index out of range"
          | some b0 =>
            if U.IsLower b0 then
              match a.getLast? with
              | none => .panic "index out of range"
              | some l => moveLoop U n (i + 1) ((runes.set (i + 1) (l :: b)).set i a.dropLast)
            else moveLoop U n (i + 1) runes
        else moveLoop U n (i + 1) runes
    | _, _ => .panic "index out of range"

/-- The function `camelCaseSplit`, which `CamelCaseSplit` returns the result
of. -/
def camelCaseSplit (U : Unicode) (str : List Nat) : Result (List (List Nat)) :=
  if !Valid str then .ret [str]
  else
    match classLoop U (runes str.length str) 0 [] with
    | .panic msg => .panic msg
    | .ret runes =>
      match moveLoop U (runes.length - 1) 0 runes with
      | .panic msg => .panic msg
      | .ret runes =>
        .ret ((runes.filter (fun s => decide (s.length > 0))).map (fun s => s.flatMap EncodeRune))

/-- The function `CamelCaseSplit`. -/
def CamelCaseSplit (U : Unicode) (str : List Nat) : Result (List (List Nat)) :=
  camelCaseSplit U str

/-- The loop of `SnakeStr` from index `i` on, over the bytes `s[i:]`: `data`
after it, from `j` and `data` before it. -/
def snakeLoop : Nat → List Nat → Bool → List Nat → List Nat
  | _, [], _, data => data
  | i, d :: rest, j, data =>
    snakeLoop (i + 1) rest (if d ≠ 95 then true else j)
      ((if i > 0 ∧ d ≥ 65 ∧ d ≤ 90 ∧ j = true then data ++ [95] else data) ++ [d])

/-- The function `SnakeStr`, with `strings.ToLower` taken from outside. -/
def SnakeStr (toLower : List Nat → List Nat) (s : List Nat) : List Nat :=
  toLower (snakeLoop 0 s false [])

/-- The loop of `CamelStr` over the bytes `s[i:]`, where `num > i` reads as the
rest after `s[i]` not being empty and `s[i+1]` as its head: `data` after the
loop, from `j`, `k` and `data` before it. In `d - 32` the byte `d` is a lower
case letter, so the difference does not wrap. -/
def camelLoop : List Nat → Bool → Bool → List Nat → List Nat
  | [], _, _, data => data
  | d :: rest, j, k, data =>
    let k1 : Bool := if k = false ∧ d ≥ 65 ∧ d ≤ 90 then true else k
    let up : Bool := decide (d ≥ 97 ∧ d ≤ 122 ∧ (j = true ∨ k1 = false))
    let d1 : Nat := if up then d - 32 else d
    let j1 : Bool := if up then false else j
    let k2 : Bool := if up then true else k1
    if k2 = true ∧ d1 = 95 ∧ rest ≠ [] ∧ rest.headD 0 ≥ 97 ∧ rest.headD 0 ≤ 122 then
      camelLoop rest true k2 data
    else camelLoop rest j1 k2 (data ++ [d1])

/-- The function `CamelStr`. -/
def CamelStr (s : List Nat) : List Nat :=
  camelLoop s false false []

/-- What `SnakeStr` writes for a byte after the first of a string without
underscores, before the lower-casing: the byte, after an underscore when it is
an upper case letter. -/
def snakePiece (d : Nat) : List Nat := if 65 ≤ d ∧ d ≤ 90 then [95, d] else [d]

/-- The lower case of an ASCII byte. -/
def lowerByte (b : Nat) : Nat := if 65 ≤ b ∧ b ≤ 90 then b + 32 else b

/-- What is taken of `strings.ToLower`: on a string of ASCII bytes it maps the
letters `A` to `Z` to `a` to `z` and keeps the other bytes. -/
def ToLowerContract (toLower : List Nat → List Nat) : Prop :=
  ∀ s : List Nat, (∀ b ∈ s, b < 128) → toLower s = s.map lowerByte

/-- A byte that is an ASCII letter or digit. -/
def isAlnum (b : Nat) : Prop :=
  (65 ≤ b ∧ b ≤ 90) ∨ (97 ≤ b ∧ b ≤ 122) ∨ (48 ≤ b ∧ b ≤ 57)

/-- The function `strings.ToLower` cut down to ASCII, for concrete runs. -/
def asciiToLower (s : List Nat) : List Nat := s.map lowerByte

end strx

/-! ## Package `time` of the standard library

The package `monthx` builds its dates with `time.Date`. A `Time` is taken as the
reading of the calendar and the clock that it shows in its location, with the
location. The function `time.Date` is modelled from its documentation: values
outside their usual ranges are normalized, the months into the year and the
clock into the day, and the day into the months of the Gregorian calendar; and
where a zone transition of the location skips the reading asked for, the time
returned is in one of the two zones of the transition and shows another
reading, which the location tells. -/

namespace time

/-- A reading of the calendar and the clock. -/
structure Clock where
  year : Int
  month : Int
  day : Int
  hour : Int
  min : Int
  sec : Int
  nsec : Int
deriving DecidableEq

/-- A `*time.Location`, as much of it as `time.Date` reads: for a reading that a
zone transition of the location skips (the clocks are put forward over it), the
reading that the time returned by `time.Date` shows instead, and `none` for a
reading that the location has. -/
structure Location where
  skipped : Clock → Option Clock

/-- The location `time.UTC`, without zone transitions. -/
def UTC : Location := { skipped := fun _ => none }

/-- The location "Asia/Beirut" on 31 March 2019, for a concrete run: daylight
saving time began at midnight, the clocks went from 00:00 to 01:00, and for a
reading in the hour skipped `time.Date` returns the time an hour later. The
other days are taken as they are. -/
def beirut2019 : Location :=
  { skipped := fun c =>
      if c.year = 2019 ∧ c.month = 3 ∧ c.day = 31 ∧ c.hour = 0 then some { c with hour := 1 }
      else none }

/-- A `time.Time`: the reading it shows in its location, and the location. -/
structure Time where
  clock : Clock
  loc : Location

/-- The method `Time.Year`. -/
def Time.Year (t : Time) : Int := t.clock.year

/-- The method `Time.Month`. -/
def Time.Month (t : Time) : Int := t.clock.month

/-- The method `Time.Location`. -/
def Time.Location (t : Time) : Location := t.loc

/-- The helper `norm(hi, lo, base)`: `lo` brought into `0 ≤ lo < base`, the
whole multiples of `base` carried to `hi`. -/
def norm (hi lo base : Int) : Int × Int := (hi + lo / base, lo % base)

/-- The helper `isLeap` of the package. -/
def isLeap (year : Int) : Bool :=
  year % 4 == 0 && (year % 100 != 0 || year % 400 == 0)

/-- The number of days of a month, 1 to 12, of a year. -/
def daysIn (year month : Int) : Int :=
  if month = 2 then (if isLeap year then 29 else 28)
  else if month = 4 ∨ month = 6 ∨ month = 9 ∨ month = 11 then 30
  else 31

/-- The day brought into the month, at most `fuel` months away: a day before
the first goes to the month before, a day after the last to the month after. -/
def normDay : Nat → Int → Int → Int → Int × Int × Int
  | 0, year, month, day => (year, month, day)
  | fuel + 1, year, month, day =>
    if day < 1 then
      let y1 := if month = 1 then year - 1 else year
      let m1 := if month = 1 then 12 else month - 1
      normDay fuel y1 m1 (day + daysIn y1 m1)
    else if daysIn year month < day then
      let y1 := if month = 12 then year + 1 else year
      let m1 := if month = 12 then 1 else month + 1
      normDay fuel y1 m1 (day - daysIn year month)
    else (year, month, day)

/-- The normalization of `time.Date`: the reading that the arguments stand
for. -/
def normalize (year month day hour min sec nsec : Int) : Clock :=
  let ym := norm year (month - 1) 12
  let sn := norm sec nsec 1000000000
  let ms := norm min sn.1 60
  let hm := norm hour ms.1 60
  let dh := norm day hm.1 24
  let ymd := normDay (dh.1.natAbs + 1) ym.1 (ym.2 + 1) dh.1
  { year := ymd.1, month := ymd.2.1, day := ymd.2.2, hour := dh.2, min := hm.2, sec := ms.2,
    nsec := sn.2 }

/-- The function `time.Date`: the time that shows the normalized reading in the
location, or, where the location skips that reading, the reading it tells. -/
def Date (year month day hour min sec nsec : Int) (loc : Location) : Time :=
  match loc.skipped (normalize year month day hour min sec nsec) with
  | none => { clock := normalize year month day hour min sec nsec, loc := loc }
  | some c => { clock := c, loc := loc }

end time

/-! ## Package `timex` (src/timex/timex.go) and `monthx` (src/timex/monthx/monthx.go)

An `int` is an integer; `%` of Go is the remainder of the division that cuts
towards zero. A `time.Month` is the number of the month. -/

namespace timex

/-- The function `isLeap`. -/
def isLeap (year : Int) : Bool :=
  year.tmod 4 == 0 && (year.tmod 100 != 0 || year.tmod 400 == 0)

/-- The function `lastDayOfMonth`. -/
def lastDayOfMonth (year month : Int) : Int :=
  if month = 2 then (if isLeap year then 29 else 28)
  else if Int.land (if month ≤ 7 then month + 1 else month) 0x0001 = 0 then 31
  else 30

/-- The function `LastDayOfMonth`. -/
def LastDayOfMonth (year month : Int) : Int := lastDayOfMonth year month

/-- In the words of the claim on `LastDayOfMonth`: the number of days of a month
in the Gregorian calendar. -/
def gregorianDays (year month : Int) : Int :=
  if month = 1 ∨ month = 3 ∨ month = 5 ∨ month = 7 ∨ month = 8 ∨ month = 10 ∨ month = 12 then 31
  else if month = 4 ∨ month = 6 ∨ month = 9 ∨ month = 11 then 30
  else if 4 ∣ year ∧ (¬ 100 ∣ year ∨ 400 ∣ year) then 29
  else 28

end timex

namespace monthx

/-- The method `Month.LastDay`. -/
def Month.LastDay (m : Int) (year : Int) : Int := timex.LastDayOfMonth year m

/-- The function `EndOfMonth`. -/
def EndOfMonth (date : time.Time) : time.Time :=
  time.Date date.Year (date.Month + 1) 0 0 0 0 0 date.Location

end monthx

/-! ## Package `httpx` (src/httpx/httpx.go)

A response writer is what was written to it, a handler is a function on it, and
a run of the handler that `EnsureHTTPS` returns also tells the requests the
wrapped handler was called with. -/

namespace httpx

/-- The parts of an `http.Request` that `EnsureHTTPS` reads: `r.URL.Scheme` and
`r.Header`, with its keys in canonical form. -/
structure Request where
  Scheme : String
  Header : List (String × List String)
deriving DecidableEq

/-- The method `Header.Get` for a key in canonical form: the first value under
the key, or the empty string. -/
def Get (h : List (String × List String)) (key : String) : String :=
  match h.lookup key with
  | some (v :: _) => v
  | _ => ""

/-- An `http.ResponseWriter`: the status code written, if any. -/
structure ResponseWriter where
  status : Option Nat
deriving DecidableEq

/-- The method `WriteHeader`: the first call sets the status code. -/
def ResponseWriter.WriteHeader (w : ResponseWriter) (code : Nat) : ResponseWriter :=
  match w.status with
  | none => { status := some code }
  | some _ => w

/-- The constant `http.StatusForbidden`. -/
def StatusForbidden : Nat := 403

/-- An `http.HandlerFunc`. -/
abbrev HandlerFunc := ResponseWriter → Request → ResponseWriter

/-- A run of the handler returned by `EnsureHTTPS`: the response writer after
it, and the requests the wrapped handler was called with. -/
structure Served where
  w : ResponseWriter
  calls : List Request
deriving DecidableEq

/-- The function `EnsureHTTPS`, with `os.Getenv` taken from outside: the closure
it returns. -/
def EnsureHTTPS (getenv : String → String) (handler : HandlerFunc) :
    ResponseWriter → Request → Served :=
  let v := getenv "DISABLE_ENSURE_HTTPS"
  let disabled : Bool := v == "1" || v == "true"
  fun w r =>
    if !disabled && (r.Scheme != "https" && Get r.Header "X-Forwarded-Proto" != "https") then
      { w := w.WriteHeader StatusForbidden, calls := [] }
    else { w := handler w r, calls := [r] }

end httpx

/-! ## Package `utilsx` (src/utilsx/utilsx.go)

A map from strings to `int` is the list of its keys with their values, each key
once. -/

namespace utilsx

/-- A Go string. -/
abbrev Str := List Char

/-- The value `counts[word]` and whether the key is there. -/
def lookup (counts : List (Str × Int)) (word : Str) : Option Int :=
  (counts.find? (fun p => p.1 = word)).map Prod.snd

/-- One pass of the loop of `wordCount`: `counts[word]++` when the key is
there, `counts[word] = 1` when it is not. -/
def addWord (counts : List (Str × Int)) (word : Str) : List (Str × Int) :=
  match lookup counts word with
  | some _ => counts.map (fun p => if p.1 = word then (p.1, p.2 + 1) else p)
  | none => counts ++ [(word, 1)]

/-- The function `wordCount`, with `strings.Fields` taken from outside. -/
def wordCount (Fields : Str → List Str) (str : Str) : List (Str × Int) :=
  (Fields str).foldl addWord []

/-- The function `WordCount`. -/
def WordCount (Fields : Str → List Str) (str : Str) : List (Str × Int) :=
  wordCount Fields str

/-- The function `strings.Fields` for the white space of ASCII, for concrete
runs. -/
def asciiFields (s : Str) : List Str :=
  (s.splitOnP (fun c => c = ' ' || c = '\t' || c = '\n' || c = '\r')).filter
    (fun f => decide (f ≠ []))

end utilsx

/-! ## Theorems about `cryptox` -/

namespace cryptox

/-! ### The shift `1<<key.L2N` and the `uint` steps -/

theorem shl1_of_lt {l : Nat} (h : l < 63) : shl1 l = 2 ^ l := by
  simp [shl1, h]

theorem lt_of_one_lt_shl1 {l : Nat} (h : 1 < shl1 l) : l < 63 := by
  by_contra hl
  unfold shl1 at h
  rw [if_neg hl] at h
  split at h <;> omega

theorem uintInc_of_lt {l : Nat} (h : l < 63) : uintInc l = l + 1 := by
  unfold uintInc uintSize
  omega

theorem uintDec_of_pos {l : Nat} (h0 : 0 < l) : uintDec l = l - 1 := by
  unfold uintDec
  rw [if_neg (by omega)]

/-! ### The loop of `GenKey` -/

/-- When the clock is not before the deadline the loop body never runs. -/
theorem liveLoop_skip (P : Prims) (env : Env) (pw salt : List Byte) (keyLen D : Int)
    (fuel : Nat) (key : Key) (now : Int) (durs : Slice) (log : List Nat) (h : ¬ now < D) :
    liveLoop P env pw salt keyLen D fuel key now durs log =
      { out := .ret (key, none), durs := durs, derived := log } := by
  cases fuel <;> (unfold liveLoop; rw [if_neg h])

/-- What a pass through the body did when it reached the end of the body. -/
theorem loopBody_again (P : Prims) (env : Env) (pw salt : List Byte) (keyLen D : Int)
    (key : Key) (now : Int) (durs : Slice) (log : List Nat)
    (key2 : Key) (now2 : Int) (durs2 : Slice) (log2 : List Nat)
    (h : loopBody P env pw salt keyLen D key now durs log = .again key2 now2 durs2 log2) :
    ∃ b, P.scrypt pw salt (shl1 key.L2N) key.R key.P keyLen = .ok b ∧
      recordDur P.growCap durs key.L2N (env.elapsed key.L2N) = .ok durs2 ∧
      key2 = { key with Bytes := b, L2N := uintInc key.L2N } ∧
      now2 = now + env.elapsed key.L2N ∧
      now + env.elapsed key.L2N + 2 * env.elapsed key.L2N ≤ D ∧
      log2 = log ++ [key.L2N] := by
  unfold loopBody at h
  split at h
  · simp at h
  · rename_i b hb
    dsimp only at h
    split at h
    · simp at h
    · rename_i d2 hd2
      split at h
      · simp at h
      · rename_i hle
        simp only [Pass.again.injEq] at h
        obtain ⟨h1, h2, h3, h4⟩ := h
        exact ⟨b, hb, by rw [hd2, h3], h1.symm, h2.symm, by omega, h4.symm⟩

/-- What a pass through the body did when it left the function with a key and
no error. -/
theorem loopBody_stop (P : Prims) (env : Env) (pw salt : List Byte) (keyLen D : Int)
    (key : Key) (now : Int) (durs : Slice) (log : List Nat) (run : GenRun) (k : Key)
    (h : loopBody P env pw salt keyLen D key now durs log = .stop run)
    (hk : run.out = .ret (k, none)) :
    ∃ b, P.scrypt pw salt (shl1 key.L2N) key.R key.P keyLen = .ok b ∧
      k = { key with Bytes := b } ∧
      D < now + env.elapsed key.L2N + 2 * env.elapsed key.L2N ∧
      run.derived = log ++ [key.L2N] := by
  unfold loopBody at h
  split at h
  · simp only [Pass.stop.injEq] at h
    subst h
    simp at hk
  · rename_i b hb
    dsimp only at h
    split at h
    · simp only [Pass.stop.injEq] at h
      subst h
      simp at hk
    · split at h
      · rename_i hgt
        simp only [Pass.stop.injEq] at h
        subst h
        simp only [Result.ret.injEq, Prod.mk.injEq, and_true] at hk
        exact ⟨b, hb, hk.symm, by omega, rfl⟩
      · simp at h

/-- The log of derivations only grows. -/
theorem loopBody_stop_log (P : Prims) (env : Env) (pw salt : List Byte) (keyLen D : Int)
    (key : Key) (now : Int) (durs : Slice) (log : List Nat) (run : GenRun)
    (h : loopBody P env pw salt keyLen D key now durs log = .stop run) :
    run.derived = log ++ [key.L2N] := by
  unfold loopBody at h
  split at h
  · simp only [Pass.stop.injEq] at h
    subst h
    rfl
  · dsimp only at h
    split at h
    · simp only [Pass.stop.injEq] at h
      subst h
      rfl
    · split at h
      · simp only [Pass.stop.injEq] at h
        subst h
        rfl
      · simp at h

/-- A loop that is entered derives at least once, unless the fuel is used up. -/
theorem liveLoop_log_ne_nil (P : Prims) (env : Env) (pw salt : List Byte) (keyLen D : Int) :
    ∀ (fuel : Nat) (key : Key) (now : Int) (durs : Slice) (log : List Nat),
      log ≠ [] → (liveLoop P env pw salt keyLen D fuel key now durs log).derived ≠ [] := by
  intro fuel
  induction fuel with
  | zero =>
    intro key now durs log hlog
    unfold liveLoop
    split <;> exact hlog
  | succ n ih =>
    intro key now durs log hlog
    unfold liveLoop
    split
    · split
      · rename_i run hrun
        rw [loopBody_stop_log P env pw salt keyLen D key now durs log run hrun]
        simp
      · rename_i key2 now2 durs2 log2 hag
        obtain ⟨b, -, -, -, -, -, hl⟩ := loopBody_again P env pw salt keyLen D _ _ _ _ _ _ _ _ hag
        exact ih _ _ _ _ (by rw [hl]; simp)
    · exact hlog

/-- A loop entered before the deadline that returns without error returns the
bytes derived at the exponent it returns, which is the last exponent derived. -/
theorem liveLoop_consistent (P : Prims) (env : Env) (pw salt : List Byte) (keyLen D : Int)
    (hel : ∀ e, 0 ≤ env.elapsed e) :
    ∀ (fuel : Nat) (key : Key) (now : Int) (durs : Slice) (log : List Nat) (k : Key),
      now < D →
      (liveLoop P env pw salt keyLen D fuel key now durs log).out = .ret (k, none) →
      P.scrypt pw salt (shl1 k.L2N) k.R k.P keyLen = .ok k.Bytes ∧
        (liveLoop P env pw salt keyLen D fuel key now durs log).derived.getLast? = some k.L2N ∧
        k.Salt = key.Salt ∧ k.R = key.R ∧ k.P = key.P := by
  intro fuel
  induction fuel with
  | zero =>
    intro key now durs log k hnow h
    unfold liveLoop at h
    rw [if_pos hnow] at h
    simp at h
  | succ n ih =>
    intro key now durs log k hnow h
    unfold liveLoop at h ⊢
    rw [if_pos hnow] at h ⊢
    split at h
    · rename_i run hrun
      obtain ⟨b, hb, hk, -, hlog⟩ := loopBody_stop P env pw salt keyLen D _ _ _ _ run k hrun h
      subst hk
      simp [hb, hlog]
    · rename_i key2 now2 durs2 log2 hag
      obtain ⟨b, hb, -, hk2, hn2, hle, hl⟩ :=
        loopBody_again P env pw salt keyLen D _ _ _ _ _ _ _ _ hag
      have hd := hel key.L2N
      have hnow2 : now2 < D := by omega
      subst hk2
      simpa using ih _ now2 durs2 log2 k hnow2 h

/-! ### `GenKey` -/

/-- Past the salt, `GenKey` is the scan of the table followed by the loop. -/
theorem GenKey_eq_loop (P : Prims) (env : Env) (fuel : Nat) (durs : Slice) (pw : List Byte)
    (saltLen keyLen timeout : Int) (salt : List Byte)
    (hlen : 0 ≤ saltLen) (hrand : env.random saltLen.toNat = .ok salt) :
    GenKey P env fuel durs pw saltLen keyLen timeout =
      liveLoop P env pw salt keyLen (env.start + timeout) fuel
        { Bytes := [], Salt := salt, L2N := scanDurs timeout durs.elems 0 minL2N, R := 8, P := 1 }
        (env.start + env.gap) durs [] := by
  unfold GenKey
  rw [if_neg (by omega), hrand]

/-- A run of `GenKey` that derived something got its salt and went into the loop. -/
theorem GenKey_derived_inv (P : Prims) (env : Env) (fuel : Nat) (durs : Slice) (pw : List Byte)
    (saltLen keyLen timeout : Int)
    (h : (GenKey P env fuel durs pw saltLen keyLen timeout).derived ≠ []) :
    ∃ salt, 0 ≤ saltLen ∧ env.random saltLen.toNat = .ok salt ∧
      env.start + env.gap < env.start + timeout := by
  by_cases hlen : saltLen < 0
  · simp [GenKey, hlen] at h
  · cases hrand : env.random saltLen.toNat with
    | error e => simp [GenKey, hlen, hrand] at h
    | ok salt =>
      refine ⟨salt, by omega, rfl, ?_⟩
      by_contra hnot
      rw [GenKey_eq_loop P env fuel durs pw saltLen keyLen timeout salt (by omega) hrand,
        liveLoop_skip _ _ _ _ _ _ _ _ _ _ _ hnot] at h
      simp at h

/-- The key and the exponent agree where `GenKey` derived a key. When `GenKey`
returns without error after at least one derivation, the returned `Bytes` is the output of scrypt for `N = 2 ^ L2N` with
the returned exponent, salt and constants, and the returned exponent is the
exponent of the last derivation performed. The assumptions on the environment
are that measured durations are not negative and that scrypt accepts no
`N ≤ 1`. -/
theorem GenKey_bytes_match_exponent (P : Prims) (env : Env) (fuel : Nat) (durs : Slice)
    (pw : List Byte) (saltLen keyLen timeout : Int) (K : Key)
    (hN : ∀ pw s N r p k b, P.scrypt pw s N r p k = .ok b → 1 < N)
    (hel : ∀ e, 0 ≤ env.elapsed e)
    (htimeout : 0 < timeout)
    (hret : (GenKey P env fuel durs pw saltLen keyLen timeout).out = .ret (K, none))
    (hder : (GenKey P env fuel durs pw saltLen keyLen timeout).derived ≠ []) :
    P.scrypt pw K.Salt (2 ^ K.L2N) K.R K.P keyLen = .ok K.Bytes ∧
      (GenKey P env fuel durs pw saltLen keyLen timeout).derived.getLast? = some K.L2N ∧
      K.R = 8 ∧ K.P = 1 := by
  obtain ⟨salt, hlen, hrand, hnow⟩ := GenKey_derived_inv P env fuel durs pw saltLen keyLen timeout hder
  rw [GenKey_eq_loop P env fuel durs pw saltLen keyLen timeout salt hlen hrand] at hret ⊢
  obtain ⟨h1, h2, h3, h4, h5⟩ :=
    liveLoop_consistent P env pw salt keyLen _ hel fuel _ _ durs [] K hnow hret
  simp only at h3 h4 h5
  rw [← h3] at h1
  have hlt := lt_of_one_lt_shl1 (hN _ _ _ _ _ _ _ h1)
  rw [shl1_of_lt hlt] at h1
  exact ⟨h1, h2, h4, h5⟩

/-- The stand-in for scrypt accepts no `N ≤ 1`. -/
theorem refPrims_scrypt_gt_one (pw s : List Byte) (N r p k : Int) (b : List Byte)
    (h : refPrims.scrypt pw s N r p k = .ok b) : 1 < N := by
  by_contra hN
  have hle : N ≤ 1 := by omega
  simp [refPrims, refScrypt, hle] at h

/-- Witness of `GenKey_bytes_match_exponent`: a run from the initial table with a
timeout of 3 in which the one derivation, at exponent 14, takes 5. -/
theorem GenKey_bytes_match_exponent_witness :
    refPrims.scrypt [1] (List.replicate 16 7) (2 ^ 14) 8 1 32 = .ok (List.replicate 32 114) ∧
      (GenKey refPrims (refEnv 0 fun _ => 5) 3 Slice.initial [1] 16 32 3).derived.getLast?
        = some 14 ∧ (8 : Int) = 8 ∧ (1 : Int) = 1 :=
  GenKey_bytes_match_exponent refPrims (refEnv 0 fun _ => 5) 3 Slice.initial [1] 16 32 3
    { Bytes := List.replicate 32 114, Salt := List.replicate 16 7, L2N := 14, R := 8, P := 1 }
    refPrims_scrypt_gt_one (fun _ => (by decide : (0 : Int) ≤ 5)) (by decide) (by decide)
    (by decide)

/-- Claim C7 fails on the code. With a timeout of one nanosecond and a clock that
reads one nanosecond later at the head of the loop, `GenKey` returns without
error and without any derivation, against its doc comment "GenKey derives a key
from the password": `Bytes` is empty, which is not what scrypt yields for the
returned exponent. -/
theorem GenKey_positive_timeout_no_derivation :
    GenKey refPrims (refEnv 1 fun _ => 5) 3 Slice.initial [1] 16 32 1 =
        { out := .ret ({ Bytes := [], Salt := List.replicate 16 7, L2N := 14, R := 8, P := 1 }, none),
          durs := Slice.initial, derived := [] } ∧
      refPrims.scrypt [1] (List.replicate 16 7) (2 ^ 14) 8 1 32 ≠ .ok [] := by
  decide

/-- Claim C8. From an empty table, when the loop is entered and the first
derivation, at exponent 14, succeeds and is measured longer than the timeout,
`GenKey` derives once only and returns the key derived at exponent 14 without
error. -/
theorem GenKey_first_derivation_overrun (P : Prims) (env : Env) (fuel : Nat) (durs : Slice)
    (pw : List Byte) (saltLen keyLen timeout : Int) (salt b : List Byte)
    (hempty : durs.len = 0) (hcap : 0 < durs.cap)
    (hlen : 0 ≤ saltLen) (hrand : env.random saltLen.toNat = .ok salt)
    (htimeout : 0 < timeout) (hgap : 0 ≤ env.gap) (hentered : env.gap < timeout)
    (hkdf : P.scrypt pw salt (2 ^ 14) 8 1 keyLen = .ok b)
    (hover : timeout < env.elapsed 14) :
    GenKey P env (fuel + 1) durs pw saltLen keyLen timeout =
      { out := .ret ({ Bytes := b, Salt := salt, L2N := 14, R := 8, P := 1 }, none),
        durs := { arr := durs.arr.set 0 (env.elapsed 14), len := 1 },
        derived := [14] } := by
  have hscan : scanDurs timeout durs.elems 0 minL2N = 14 := by
    simp [Slice.elems, hempty, scanDurs, minL2N]
  have hrec : recordDur P.growCap durs 14 (env.elapsed 14) =
      .ok { arr := durs.arr.set 0 (env.elapsed 14), len := 1 } := by
    have hidx : tableIndex 14 = 0 := by decide
    have hcap2 : (0 : Int) < (durs.cap : Int) := by exact_mod_cast hcap
    simp [recordDur, hidx, toInt, hempty, hcap2, Slice.reslice]
  have hsh : shl1 14 = 2 ^ 14 := shl1_of_lt (by norm_num)
  rw [GenKey_eq_loop P env (fuel + 1) durs pw saltLen keyLen timeout salt hlen hrand, hscan]
  unfold liveLoop
  rw [if_pos (by omega)]
  unfold loopBody
  simp only [hsh, hkdf, hrec]
  rw [if_pos (by omega)]
  simp

/-- Witness of `GenKey_first_derivation_overrun`: the initial table, a timeout of
3 and a first derivation measured as 5. -/
theorem GenKey_first_derivation_overrun_witness :
    GenKey refPrims (refEnv 0 fun _ => 5) 1 Slice.initial [1] 16 32 3 =
      { out := .ret ({ Bytes := List.replicate 32 114, Salt := List.replicate 16 7,
                       L2N := 14, R := 8, P := 1 }, none),
        durs := { arr := [5, 0, 0, 0, 0, 0, 0, 0], len := 1 },
        derived := [14] } :=
  GenKey_first_derivation_overrun refPrims (refEnv 0 fun _ => 5) 0 Slice.initial [1] 16 32 3
    (List.replicate 16 7) (List.replicate 32 114)
    (by decide) (by decide) (by decide) (by decide) (by decide) (by decide) (by decide)
    (by decide) (by decide)

/-- Claim C5 fails on the code. With a timeout that is not positive (and a clock
that does not run backwards) the loop of `GenKey` is never entered: no
derivation is performed at all, and whatever key is returned has empty `Bytes`
and the exponent left by the scan of the table. -/
theorem GenKey_nonpositive_timeout_derives_nothing (P : Prims) (env : Env) (fuel : Nat)
    (durs : Slice) (pw : List Byte) (saltLen keyLen timeout : Int)
    (htimeout : timeout ≤ 0) (hgap : 0 ≤ env.gap) :
    (GenKey P env fuel durs pw saltLen keyLen timeout).derived = [] ∧
      ∀ K e, (GenKey P env fuel durs pw saltLen keyLen timeout).out = .ret (K, e) →
        K.Bytes = [] ∧ (e = none → K.L2N = scanDurs timeout durs.elems 0 minL2N) := by
  by_cases hlen : saltLen < 0
  · simp [GenKey, hlen]
  · cases hrand : env.random saltLen.toNat with
    | error e =>
      simp only [GenKey, hlen, hrand, if_false, true_and]
      intro K e2 h
      simp only [Result.ret.injEq, Prod.mk.injEq] at h
      obtain ⟨h1, h2⟩ := h
      subst h1
      subst h2
      simp [Key.zero]
    | ok salt =>
      rw [GenKey_eq_loop P env fuel durs pw saltLen keyLen timeout salt (by omega) hrand,
        liveLoop_skip _ _ _ _ _ _ _ _ _ _ _ (by omega)]
      refine ⟨rfl, ?_⟩
      intro K e h
      simp only [Result.ret.injEq, Prod.mk.injEq] at h
      obtain ⟨h1, h2⟩ := h
      subst h1
      exact ⟨rfl, fun _ => rfl⟩

/-- Witness of `GenKey_nonpositive_timeout_derives_nothing`: a timeout of 0 on
the initial table. -/
theorem GenKey_nonpositive_timeout_derives_nothing_witness :
    (GenKey refPrims (refEnv 0 fun _ => 5) 3 Slice.initial [1] 16 32 0).derived = [] ∧
      ∀ K e, (GenKey refPrims (refEnv 0 fun _ => 5) 3 Slice.initial [1] 16 32 0).out
          = .ret (K, e) →
        K.Bytes = [] ∧ (e = none → K.L2N = scanDurs 0 Slice.initial.elems 0 minL2N) :=
  GenKey_nonpositive_timeout_derives_nothing refPrims (refEnv 0 fun _ => 5) 3 Slice.initial
    [1] 16 32 0 (by decide) (by decide)

/-- Claim C4 fails on the code. A first call with a timeout of 3 whose
derivation at exponent 14 is measured as 5 leaves the table `[5]`. On that
table the scan with the same timeout lowers the exponent to 13: a second call
derives at exponent 13 and then panics on the index `13 - 14` of the table, and
a call with timeout 0 returns a key whose exponent is 13. -/
theorem GenKey_exponent_below_floor :
    (GenKey refPrims (refEnv 0 fun _ => 5) 3 Slice.initial [1] 16 32 3).durs
        = { arr := [5, 0, 0, 0, 0, 0, 0, 0], len := 1 } ∧
      scanDurs 3 [5] 0 minL2N = 13 ∧
      GenKey refPrims (refEnv 0 fun _ => 5) 3 { arr := [5, 0, 0, 0, 0, 0, 0, 0], len := 1 }
          [1] 16 32 3 =
        { out := .panic "index out of range",
          durs := { arr := [5, 0, 0, 0, 0, 0, 0, 0], len := 1 }, derived := [13] } ∧
      GenKey refPrims (refEnv 0 fun _ => 5) 3 { arr := [5, 0, 0, 0, 0, 0, 0, 0], len := 1 }
          [1] 16 32 0 =
        { out := .ret ({ Bytes := [], Salt := List.replicate 16 7, L2N := 13, R := 8, P := 1 },
            none),
          durs := { arr := [5, 0, 0, 0, 0, 0, 0, 0], len := 1 }, derived := [] } := by
  decide

/-- Claim C6 fails on the code as stated. With a key derivation that reports an
error, `GenKey` returns the error together with a key that is not the zero
value: it holds the salt, the exponent 14 and the constants 8 and 1. -/
theorem GenKey_kdf_error_returns_partial_key :
    GenKey failingKdfPrims (refEnv 0 fun _ => 5) 3 Slice.initial [1] 16 32 3 =
        { out := .ret ({ Bytes := [], Salt := List.replicate 16 7, L2N := 14, R := 8, P := 1 },
            some "scrypt: parameters are too large"),
          durs := Slice.initial, derived := [14] } ∧
      ({ Bytes := [], Salt := List.replicate 16 7, L2N := 14, R := 8, P := 1 } : Key) ≠ Key.zero := by
  decide

/-- What a pass through the body did when it left the function with an error. -/
theorem loopBody_stop_error (P : Prims) (env : Env) (pw salt : List Byte) (keyLen D : Int)
    (key : Key) (now : Int) (durs : Slice) (log : List Nat) (run : GenRun) (k : Key) (e : Error)
    (h : loopBody P env pw salt keyLen D key now durs log = .stop run)
    (hk : run.out = .ret (k, some e)) :
    P.scrypt pw salt (shl1 key.L2N) key.R key.P keyLen = .error e ∧
      k = { key with Bytes := [] } ∧ run.derived = log ++ [key.L2N] := by
  unfold loopBody at h
  split at h
  · rename_i e2 he2
    simp only [Pass.stop.injEq] at h
    subst h
    simp only [Result.ret.injEq, Prod.mk.injEq, Option.some.injEq] at hk
    obtain ⟨h1, h2⟩ := hk
    subst h2
    exact ⟨he2, h1.symm, rfl⟩
  · dsimp only at h
    split at h
    · simp only [Pass.stop.injEq] at h
      subst h
      simp at hk
    · split at h
      · simp only [Pass.stop.injEq] at h
        subst h
        simp at hk
      · simp at h

/-- A loop that returns an error returns the error of the derivation at the
exponent it returns, with the salt and constants it started with and no bytes. -/
theorem liveLoop_error (P : Prims) (env : Env) (pw salt : List Byte) (keyLen D : Int) :
    ∀ (fuel : Nat) (key : Key) (now : Int) (durs : Slice) (log : List Nat) (k : Key) (e : Error),
      (liveLoop P env pw salt keyLen D fuel key now durs log).out = .ret (k, some e) →
      P.scrypt pw salt (shl1 k.L2N) k.R k.P keyLen = .error e ∧ k.Bytes = [] ∧
        (liveLoop P env pw salt keyLen D fuel key now durs log).derived.getLast? = some k.L2N ∧
        k.Salt = key.Salt ∧ k.R = key.R ∧ k.P = key.P := by
  intro fuel
  induction fuel with
  | zero =>
    intro key now durs log k e h
    unfold liveLoop at h
    split at h <;> simp at h
  | succ n ih =>
    intro key now durs log k e h
    unfold liveLoop at h ⊢
    split at h
    · rename_i hnow
      rw [if_pos hnow]
      split at h
      · rename_i run hrun
        obtain ⟨hs, hk, hlog⟩ := loopBody_stop_error P env pw salt keyLen D _ _ _ _ run k e hrun h
        subst hk
        simp [hs, hlog]
      · rename_i key2 now2 durs2 log2 hag
        obtain ⟨b, -, -, hk2, -, -, -⟩ := loopBody_again P env pw salt keyLen D _ _ _ _ _ _ _ _ hag
        subst hk2
        simpa using ih _ now2 durs2 log2 k e h
    · simp at h

/-- A loop that derives at an exponent at which scrypt fails returns at once,
with the error and the key as it stands. -/
theorem liveLoop_fails (P : Prims) (env : Env) (pw salt : List Byte) (keyLen D : Int)
    (l : Nat) (e : Error) :
    ∀ (fuel : Nat) (key : Key) (now : Int) (durs : Slice) (log : List Nat),
      l ∈ (liveLoop P env pw salt keyLen D fuel key now durs log).derived → l ∉ log →
      P.scrypt pw salt (shl1 l) key.R key.P keyLen = .error e →
      (liveLoop P env pw salt keyLen D fuel key now durs log).out =
          .ret ({ key with Bytes := [], L2N := l }, some e) ∧
        (liveLoop P env pw salt keyLen D fuel key now durs log).derived.getLast? = some l := by
  intro fuel
  induction fuel with
  | zero =>
    intro key now durs log hl hlog _
    unfold liveLoop at hl
    split at hl <;> exact absurd hl hlog
  | succ n ih =>
    intro key now durs log hl hlog hfail
    unfold liveLoop at hl ⊢
    by_cases hnow : now < D
    · rw [if_pos hnow] at hl ⊢
      have hmem : ∀ x : Nat, x ∈ log ++ [key.L2N] → x ∉ log → x = key.L2N := by
        intro x hx hx2
        rcases List.mem_append.1 hx with h | h
        · exact absurd h hx2
        · exact List.mem_singleton.1 h
      unfold loopBody at hl ⊢
      cases hs : P.scrypt pw salt (shl1 key.L2N) key.R key.P keyLen with
      | error e2 =>
        rw [hs] at hl
        simp only at hl ⊢
        have hlk := hmem l hl hlog
        subst hlk
        rw [hs] at hfail
        cases hfail
        exact ⟨rfl, by simp⟩
      | ok b =>
        rw [hs] at hl
        simp only at hl ⊢
        have hne : l ≠ key.L2N := by
          intro h
          rw [h, hs] at hfail
          cases hfail
        cases hrec : recordDur P.growCap durs key.L2N (env.elapsed key.L2N) with
        | error durs1 =>
          rw [hrec] at hl
          exact absurd (hmem l hl hlog) hne
        | ok durs2 =>
          rw [hrec] at hl
          simp only at hl ⊢
          by_cases hc : now + env.elapsed key.L2N + 2 * env.elapsed key.L2N > D
          · rw [if_pos hc] at hl
            exact absurd (hmem l hl hlog) hne
          · rw [if_neg hc] at hl ⊢
            have hlog2 : l ∉ log ++ [key.L2N] := by
              intro h
              rcases List.mem_append.1 h with h | h
              · exact hlog h
              · exact hne (List.mem_singleton.1 h)
            exact ih _ _ _ _ hl hlog2 hfail
    · rw [if_neg hnow] at hl
      exact absurd hl hlog

/-- Claim C6, as amended. When a derivation that `GenKey` performs fails, at an
exponent `l` of its run, `GenKey` returns the error of scrypt together with the
key as it stands, not the zero value: the salt drawn for the call, `R = 8`,
`P = 1`, the exponent `l` of the failed derivation, which is the last one
tried, and empty `Bytes`. -/
theorem GenKey_kdf_error (P : Prims) (env : Env) (fuel : Nat) (durs : Slice)
    (pw : List Byte) (saltLen keyLen timeout : Int) (salt : List Byte) (l : Nat) (e : Error)
    (hrand : env.random saltLen.toNat = .ok salt)
    (hl : l ∈ (GenKey P env fuel durs pw saltLen keyLen timeout).derived)
    (hfail : P.scrypt pw salt (shl1 l) 8 1 keyLen = .error e) :
    (GenKey P env fuel durs pw saltLen keyLen timeout).out =
        .ret ({ Bytes := [], Salt := salt, L2N := l, R := 8, P := 1 }, some e) ∧
      (GenKey P env fuel durs pw saltLen keyLen timeout).derived.getLast? = some l := by
  have hder : (GenKey P env fuel durs pw saltLen keyLen timeout).derived ≠ [] :=
    List.ne_nil_of_mem hl
  obtain ⟨salt2, hlen, hrand2, -⟩ :=
    GenKey_derived_inv P env fuel durs pw saltLen keyLen timeout hder
  rw [hrand] at hrand2
  cases hrand2
  rw [GenKey_eq_loop P env fuel durs pw saltLen keyLen timeout salt hlen hrand] at hl ⊢
  exact liveLoop_fails P env pw salt keyLen _ l e fuel _ _ durs [] hl (List.not_mem_nil l) hfail

/-- Witness of `GenKey_kdf_error`: a run in which the key derivation reports an
error at exponent 14. -/
theorem GenKey_kdf_error_witness :
    (GenKey failingKdfPrims (refEnv 0 fun _ => 5) 3 Slice.initial [1] 16 32 3).out =
        .ret ({ Bytes := [], Salt := List.replicate 16 7, L2N := 14, R := 8, P := 1 },
          some "scrypt: parameters are too large") ∧
      (GenKey failingKdfPrims (refEnv 0 fun _ => 5) 3 Slice.initial [1] 16 32 3).derived.getLast?
        = some 14 :=
  GenKey_kdf_error failingKdfPrims (refEnv 0 fun _ => 5) 3 Slice.initial [1] 16 32 3
    (List.replicate 16 7) 14 "scrypt: parameters are too large" (by decide) (by decide)
    (by decide)

/-- Claim C10 fails on the code. Starting from the initial table, one call with
a timeout of 1000 derives at the exponents 14 to 22 (each measured as 1, the
last as 1000). Storing the duration for exponent 22, index 8, finds length and
capacity both 8 and appends eight zeros: the table ends with length 16, and its
entries for the exponents 23 to 29 are zeros although none of them was ever
derived. A following call with a timeout of 2000 takes them for observations
and derives first at exponent 29. -/
theorem GenKey_table_gets_unobserved_entries :
    GenKey refPrims (refEnv 0 fun e => if e = 22 then 1000 else 1) 20 Slice.initial [1] 16 32 1000 =
        { out := .ret ({ Bytes := List.replicate 32 114, Salt := List.replicate 16 7,
                         L2N := 22, R := 8, P := 1 }, none),
          durs := { arr := [1, 1, 1, 1, 1, 1, 1, 1, 1000, 0, 0, 0, 0, 0, 0, 0], len := 16 },
          derived := [14, 15, 16, 17, 18, 19, 20, 21, 22] } ∧
      (GenKey refPrims (refEnv 0 fun _ => 5000) 20
          { arr := [1, 1, 1, 1, 1, 1, 1, 1, 1000, 0, 0, 0, 0, 0, 0, 0], len := 16 }
          [1] 16 32 2000).derived = [29] := by
  decide

/-! ### `OpenReader` -/

theorem fit_length (n : Nat) (src : List Byte) : (fit n src).length = n := by
  simp [fit]
  omega

/-- Claim C3 fails on the code. When the header parses, the key derivation
succeeds and fewer than `1 + Overhead` bytes follow the header, `OpenReader`
does not return: with no byte after the header the slice expression `box[1:]`
panics, and otherwise `make` is called with a negative capacity. -/
theorem OpenReader_truncated_panics (P : Prims) (r pw b : List Byte)
    (hdec : (P.jsonDecode r).err = none)
    (hkdf : P.scrypt pw (P.jsonDecode r).Salt (shl1 (P.jsonDecode r).L2N) (P.jsonDecode r).R
      (P.jsonDecode r).P 32 = .ok b)
    (hshort : (P.jsonDecode r).rest.length < 1 + Overhead) :
    OpenReader P r pw =
      if (P.jsonDecode r).rest.length = 0 then .panic "slice bounds out of range"
      else .panic "makeslice: cap out of range" := by
  unfold OpenReader
  simp only [hdec, Decoded.toKey, Key.Populate, hkdf]
  by_cases h0 : (P.jsonDecode r).rest.length = 0
  · rw [if_pos (by omega), if_pos h0]
  · have h2 : ((P.jsonDecode r).rest.drop 1).length < Overhead := by
      rw [List.length_drop]
      omega
    rw [if_neg (by omega), if_pos h2, if_neg h0]

/-- Witness of `OpenReader_truncated_panics`: a header followed by a newline and
five bytes. -/
theorem OpenReader_truncated_panics_witness :
    OpenReader refPrims (refEncode (List.replicate 16 7) 14 8 1 ++ [10, 1, 2, 3, 4, 5]) [1] =
      if (refPrims.jsonDecode
          (refEncode (List.replicate 16 7) 14 8 1 ++ [10, 1, 2, 3, 4, 5])).rest.length = 0
      then .panic "slice bounds out of range"
      else .panic "makeslice: cap out of range" :=
  OpenReader_truncated_panics refPrims
    (refEncode (List.replicate 16 7) 14 8 1 ++ [10, 1, 2, 3, 4, 5]) [1] (List.replicate 32 114)
    (by decide) (by decide) (by decide)

/-- `OpenReader` on a sealed envelope, given the key the passphrase derives. -/
theorem OpenReader_envelope (P : Prims) (K : Key) (plain W b : List Byte)
    (hjson : P.JsonContract) (hbox : P.BoxContract)
    (hkdf : P.scrypt W K.Salt (shl1 K.L2N) K.R K.P 32 = .ok b) :
    OpenReader P (sealedEnvelope P K plain) W =
      match P.boxOpen (P.boxSeal plain (fit 24 K.Salt) (fit 32 K.Bytes))
          (fit 24 K.Salt) (fit 32 b) with
      | none => .ret ({ K with Bytes := b }, none, some "failed open box")
      | some data => .ret ({ K with Bytes := b }, some data, none) := by
  have hlen := (hbox plain (fit 24 K.Salt) (fit 32 K.Bytes) (fit_length _ _) (fit_length _ _)).2
  unfold OpenReader sealedEnvelope Key.jsonEncode
  rw [hjson]
  simp only [Decoded.toKey, Key.Populate, hkdf, SecretWriter.Close, List.length_cons, List.drop_succ_cons,
    List.drop_zero]
  rw [if_neg (by omega), if_neg (by rw [hlen]; omega)]

/-! ### The stand-ins keep the contracts -/

theorem readUnary_unary (n : Nat) (rest : List Byte) :
    readUnary (unary n ++ rest) = some (n, rest) := by
  induction n with
  | zero => simp [unary, readUnary]
  | succ k ih =>
    have h : unary (k + 1) ++ rest = (1 : Byte) :: (unary k ++ rest) := by
      simp [unary, List.replicate_succ]
    rw [h, readUnary, if_neg (by decide), if_pos rfl, ih]

theorem readInt_intCode (z : Int) (rest : List Byte) :
    readInt (intCode z ++ rest) = some (z, rest) := by
  unfold intCode
  rw [List.cons_append, readInt, readUnary_unary]
  by_cases hz : z < 0
  · simp only [hz, if_true]
    rw [if_neg (by decide)]
    congr 2
    omega
  · simp only [hz, if_false, if_true]
    congr 2
    omega

theorem refPrims_jsonContract : refPrims.JsonContract := by
  intro salt l2n r p rest
  show refDecode (refEncode salt l2n r p ++ rest) = _
  unfold refDecode refEncode
  simp only [List.append_assoc]
  rw [readUnary_unary]
  simp only [List.length_append, List.drop_left, List.take_left]
  rw [if_neg (by omega), readUnary_unary]
  simp only [readInt_intCode]

theorem refPrims_boxContract : refPrims.BoxContract := by
  intro m n k _ _
  show refOpen (refSeal m n k) n k = some m ∧ (refSeal m n k).length = m.length + Overhead
  unfold refOpen refSeal
  have h16 : (fit 16 k).length = 16 := fit_length 16 k
  constructor
  · rw [if_pos (by rw [List.take_left' h16]), List.drop_left' h16]
  · rw [List.length_append, h16, Overhead]
    omega

/-! ### Sealing and opening -/

/-- The round trip, where `GenKey` derived a key. Let `K` be a key that `GenKey`
returns without error for the passphrase `W`, key length 32 and a positive
timeout, after at least one derivation. Then `OpenReader` on the envelope sealed with `K` (the JSON text of
`K`, a newline, the bytes `SecretWriter.Close` writes for the plaintext with
`key = K.Bytes` and `nonce = K.Salt`) returns no error and a reader that yields
the plaintext. The assumptions on the environment are the contracts of the box
and of the JSON codec and that measured durations are not negative. -/
theorem seal_open_roundtrip (P : Prims) (env : Env) (fuel : Nat) (durs : Slice)
    (W plain : List Byte) (saltLen timeout : Int) (K : Key)
    (hjson : P.JsonContract) (hbox : P.BoxContract)
    (hel : ∀ e, 0 ≤ env.elapsed e)
    (htimeout : 0 < timeout)
    (hret : (GenKey P env fuel durs W saltLen 32 timeout).out = .ret (K, none))
    (hder : (GenKey P env fuel durs W saltLen 32 timeout).derived ≠ []) :
    OpenReader P (sealedEnvelope P K plain) W = .ret (K, some plain, none) := by
  obtain ⟨salt, hlen, hrand, hnow⟩ := GenKey_derived_inv P env fuel durs W saltLen 32 timeout hder
  rw [GenKey_eq_loop P env fuel durs W saltLen 32 timeout salt hlen hrand] at hret
  obtain ⟨h1, -, h3, -, -⟩ :=
    liveLoop_consistent P env W salt 32 _ hel fuel _ _ durs [] K hnow hret
  simp only at h3
  rw [← h3] at h1
  rw [OpenReader_envelope P K plain W K.Bytes hjson hbox h1,
    (hbox plain (fit 24 K.Salt) (fit 32 K.Bytes) (fit_length _ _) (fit_length _ _)).1]

/-- Witness of `seal_open_roundtrip`: the key of a run from the initial table
with a timeout of 3, and the plaintext `[9, 8, 7]`. -/
theorem seal_open_roundtrip_witness :
    OpenReader refPrims
        (sealedEnvelope refPrims
          { Bytes := List.replicate 32 114, Salt := List.replicate 16 7, L2N := 14, R := 8, P := 1 }
          [9, 8, 7]) [1] =
      .ret ({ Bytes := List.replicate 32 114, Salt := List.replicate 16 7, L2N := 14, R := 8,
              P := 1 }, some [9, 8, 7], none) :=
  seal_open_roundtrip refPrims (refEnv 0 fun _ => 5) 3 Slice.initial [1] [9, 8, 7] 16 3
    { Bytes := List.replicate 32 114, Salt := List.replicate 16 7, L2N := 14, R := 8, P := 1 }
    refPrims_jsonContract refPrims_boxContract (fun _ => (by decide : (0 : Int) ≤ 5)) (by decide)
    (by decide)
    (by decide)

/-- Claim C1 fails on the code. With a timeout of one nanosecond and a clock that
reads one nanosecond later at the head of the loop, `GenKey` returns without
error a key with no `Bytes`, having derived nothing, against its doc comment
"GenKey derives a key from the password"; the envelope is then sealed under the
all-zero key, and `OpenReader` with the same passphrase derives another key and
fails to open the box. -/
theorem seal_open_fails_without_derivation :
    (GenKey refPrims (refEnv 1 fun _ => 5) 3 Slice.initial [1] 16 32 1).out =
        .ret ({ Bytes := [], Salt := List.replicate 16 7, L2N := 14, R := 8, P := 1 }, none) ∧
      OpenReader refPrims
          (sealedEnvelope refPrims
            { Bytes := [], Salt := List.replicate 16 7, L2N := 14, R := 8, P := 1 } [9, 8, 7])
          [1] =
        .ret ({ Bytes := List.replicate 32 114, Salt := List.replicate 16 7, L2N := 14, R := 8,
                P := 1 }, none, some "failed open box") := by
  decide

/-! ### A wrong passphrase -/

/-- Two distinct passphrases with the same 32-byte key: passphrases are without
number and keys are not. -/
theorem exists_passphrase_collision (f : List Byte → List Byte) :
    ∃ W1 W2 : List Byte, W1 ≠ W2 ∧ fit 32 (f W1) = fit 32 (f W2) := by
  let g : List Byte → Mathlib.Vector Byte 32 := fun W => ⟨fit 32 (f W), fit_length 32 (f W)⟩
  obtain ⟨W1, W2, hne, heq⟩ := Finite.exists_ne_map_eq_of_infinite g
  exact ⟨W1, W2, hne, congrArg Subtype.val heq⟩

/-- Claim C2 as stated fails, whatever the primitives are. No box, JSON codec
and key derivation that keep their contracts, with a key derivation that
accepts every passphrase for some parameters, make `OpenReader` reject every
passphrase other than the sealing one: two passphrases that derive the same key
open each other's envelopes. -/
theorem wrong_passphrase_not_always_rejected :
    ¬ ∃ P : Prims, P.BoxContract ∧ P.JsonContract ∧
      (∃ (salt : List Byte) (l2n : Nat) (r p : Int),
        ∀ W, ∃ b, P.scrypt W salt (shl1 l2n) r p 32 = .ok b) ∧
      ∀ (K : Key) (plain W1 W2 : List Byte), W1 ≠ W2 →
        P.scrypt W1 K.Salt (shl1 K.L2N) K.R K.P 32 = .ok K.Bytes →
        ∃ key e, OpenReader P (sealedEnvelope P K plain) W2 = .ret (key, none, some e) := by
  rintro ⟨P, hbox, hjson, ⟨salt, l2n, r, p, htotal⟩, hreject⟩
  choose f hf using htotal
  obtain ⟨W1, W2, hne, heq⟩ := exists_passphrase_collision f
  obtain ⟨key, e, hopen⟩ :=
    hreject { Bytes := f W1, Salt := salt, L2N := l2n, R := r, P := p } [] W1 W2 hne (hf W1)
  rw [OpenReader_envelope P _ [] W2 (f W2) hjson hbox (hf W2)] at hopen
  simp only at hopen
  rw [← heq, (hbox [] (fit 24 salt) (fit 32 (f W1)) (fit_length _ _) (fit_length _ _)).1] at hopen
  simp at hopen

/-- Claim C2, as amended. Let the envelope be sealed with a key `K` that scrypt
derives from `W1`, and let `W2` be another passphrase. If the sealed block does
not authenticate under the key that scrypt derives from `W2` with the
parameters of the header, then `OpenReader` with `W2` returns an error and a
nil reader; it returns a reader only with what the box yields under that key. -/
theorem OpenReader_wrong_passphrase (P : Prims) (K : Key) (plain W1 W2 : List Byte)
    (hjson : P.JsonContract) (hbox : P.BoxContract)
    (hne : W1 ≠ W2)
    (hK : P.scrypt W1 K.Salt (shl1 K.L2N) K.R K.P 32 = .ok K.Bytes) :
    ((∀ b2, P.scrypt W2 K.Salt (shl1 K.L2N) K.R K.P 32 = .ok b2 →
        P.boxOpen (SecretWriter.Close P { key := K.Bytes, nonce := K.Salt, buf := plain })
          (fit 24 K.Salt) (fit 32 b2) = none) →
      ∃ key e, OpenReader P (sealedEnvelope P K plain) W2 = .ret (key, none, some e)) ∧
    (∀ key data e, OpenReader P (sealedEnvelope P K plain) W2 = .ret (key, some data, e) →
      ∃ b2, P.scrypt W2 K.Salt (shl1 K.L2N) K.R K.P 32 = .ok b2 ∧
        P.boxOpen (SecretWriter.Close P { key := K.Bytes, nonce := K.Salt, buf := plain })
          (fit 24 K.Salt) (fit 32 b2) = some data) := by
  cases hkdf : P.scrypt W2 K.Salt (shl1 K.L2N) K.R K.P 32 with
  | error e =>
    have hopen : OpenReader P (sealedEnvelope P K plain) W2 =
        .ret ({ K with Bytes := [] }, none, some e) := by
      unfold OpenReader sealedEnvelope Key.jsonEncode
      rw [hjson]
      simp only [Decoded.toKey, Key.Populate, hkdf]
    rw [hopen]
    exact ⟨fun _ => ⟨_, _, rfl⟩, by simp⟩
  | ok b2 =>
    rw [OpenReader_envelope P K plain W2 b2 hjson hbox hkdf]
    simp only [SecretWriter.Close]
    constructor
    · intro hauth
      rw [hauth b2 rfl]
      exact ⟨_, _, rfl⟩
    · intro key data e h
      refine ⟨b2, rfl, ?_⟩
      split at h
      · simp at h
      · rename_i d hd
        simp only [Result.ret.injEq, Prod.mk.injEq, Option.some.injEq] at h
        rw [hd, h.2.1]

/-- Witness of `OpenReader_wrong_passphrase`: an envelope sealed under the
passphrase `[1]` and opened with `[2]`. -/
theorem OpenReader_wrong_passphrase_witness :
    ∃ key e, OpenReader refPrims
        (sealedEnvelope refPrims
          { Bytes := List.replicate 32 114, Salt := List.replicate 16 7, L2N := 14, R := 8, P := 1 }
          [9, 8, 7]) [2] = .ret (key, none, some e) :=
  (OpenReader_wrong_passphrase refPrims
    { Bytes := List.replicate 32 114, Salt := List.replicate 16 7, L2N := 14, R := 8, P := 1 }
    [9, 8, 7] [1] [2] refPrims_jsonContract refPrims_boxContract (by decide) (by decide)).1
    (fun b2 h => by
      have hb : b2 = List.replicate 32 115 := by
        have h2 : refPrims.scrypt [2] (List.replicate 16 7) (shl1 14) 8 1 32
            = .ok (List.replicate 32 115) := by decide
        rw [h2] at h
        exact (Except.ok.inj h).symm
      subst hb
      decide)

/-! ### Monotonicity in the timeout -/

/-- The scan never ends more than one below the exponent it holds. -/
theorem scanDurs_lower (T : Int) :
    ∀ (ds : List Int) (i l : Nat), l ≤ minL2N + i → 0 < l → ds.length + i < 2 ^ 63 →
      l - 1 ≤ scanDurs T ds i l := by
  intro ds
  induction ds with
  | nil =>
    intro i l _ _ _
    simp [scanDurs]
  | cons d rest ih =>
    intro i l hl h0 hlen
    simp only [List.length_cons] at hlen
    unfold scanDurs
    have hmod : (minL2N + i) % uintSize = minL2N + i := by
      unfold minL2N uintSize at *
      omega
    split
    · rw [hmod]
      have := ih (i + 1) (minL2N + i) (by omega) (by unfold minL2N; omega) (by omega)
      omega
    · split
      · rw [uintDec_of_pos h0]
      · omega

/-- With a larger timeout the scan ends at an exponent that is not lower,
provided it does not end below `minL2N`. -/
theorem scanDurs_mono (T1 T2 : Int) (hT : T1 < T2) :
    ∀ (ds : List Int) (i : Nat), ds.length + i < 2 ^ 63 →
      minL2N ≤ scanDurs T2 ds i (minL2N + (i - 1)) →
      scanDurs T1 ds i (minL2N + (i - 1)) ≤ scanDurs T2 ds i (minL2N + (i - 1)) := by
  intro ds
  induction ds with
  | nil =>
    intro i _ _
    simp [scanDurs]
  | cons d rest ih =>
    intro i hlen hfloor
    simp only [List.length_cons] at hlen
    have hmod : (minL2N + i) % uintSize = minL2N + i := by
      unfold minL2N uintSize at *
      omega
    have hdec : uintDec (minL2N + (i - 1)) = minL2N + (i - 1) - 1 :=
      uintDec_of_pos (by unfold minL2N; omega)
    have hnext : minL2N + i = minL2N + (i + 1 - 1) := by omega
    have hlow := scanDurs_lower T2 rest (i + 1) (minL2N + i) (by omega)
      (by unfold minL2N; omega) (by omega)
    unfold scanDurs at hfloor ⊢
    rw [hmod] at hfloor ⊢
    by_cases h1 : d < T1
    · have h2 : d < T2 := by omega
      rw [if_pos h1, if_pos h2]
      rw [if_pos h2] at hfloor
      rw [hnext] at hfloor ⊢
      exact ih (i + 1) (by omega) hfloor
    · rw [if_neg h1]
      by_cases h2 : d < T2
      · rw [if_pos h2] at hfloor ⊢
        split
        · rw [hdec]
          omega
        · omega
      · have h3 : T1 < d := by omega
        rw [if_neg h2, if_pos h3]
        split
        · exact le_refl _
        · rw [hdec]
          omega

/-- A pass through the body that leaves the function keeps the exponent. -/
theorem loopBody_stop_L2N (P : Prims) (env : Env) (pw salt : List Byte) (keyLen D : Int)
    (key : Key) (now : Int) (durs : Slice) (log : List Nat) (run : GenRun) (k : Key)
    (e : Option Error)
    (h : loopBody P env pw salt keyLen D key now durs log = .stop run)
    (hk : run.out = .ret (k, e)) : k.L2N = key.L2N := by
  cases e with
  | none =>
    obtain ⟨b, -, hk2, -, -⟩ := loopBody_stop P env pw salt keyLen D _ _ _ _ run k h hk
    rw [hk2]
  | some e =>
    obtain ⟨-, hk2, -⟩ := loopBody_stop_error P env pw salt keyLen D _ _ _ _ run k e h hk
    rw [hk2]

/-- The loop never returns an exponent below the one it starts with. -/
theorem liveLoop_L2N_le (P : Prims) (env : Env) (pw salt : List Byte) (keyLen D : Int)
    (hN : ∀ pw s N r p k b, P.scrypt pw s N r p k = .ok b → 1 < N) :
    ∀ (fuel : Nat) (key : Key) (now : Int) (durs : Slice) (log : List Nat) (k : Key)
      (e : Option Error),
      (liveLoop P env pw salt keyLen D fuel key now durs log).out = .ret (k, e) →
      key.L2N ≤ k.L2N := by
  intro fuel
  induction fuel with
  | zero =>
    intro key now durs log k e h
    unfold liveLoop at h
    split at h
    · simp at h
    · simp only [Result.ret.injEq, Prod.mk.injEq] at h
      rw [h.1]
  | succ n ih =>
    intro key now durs log k e h
    unfold liveLoop at h
    split at h
    · split at h
      · rename_i run hrun
        rw [loopBody_stop_L2N P env pw salt keyLen D _ _ _ _ run k e hrun h]
      · rename_i key2 now2 durs2 log2 hag
        obtain ⟨b, hb, -, hk2, -, -, -⟩ := loopBody_again P env pw salt keyLen D _ _ _ _ _ _ _ _ hag
        have hlt := lt_of_one_lt_shl1 (hN _ _ _ _ _ _ _ hb)
        have := ih key2 now2 durs2 log2 k e h
        rw [hk2] at this
        simp only [uintInc_of_lt hlt] at this
        omega
    · simp only [Result.ret.injEq, Prod.mk.injEq] at h
      rw [h.1]

/-- Two runs of the loop in the same environment: the one with the later
deadline, the higher starting exponent and the earlier clock returns an
exponent that is not lower. -/
theorem liveLoop_mono (P : Prims) (env : Env) (pw salt : List Byte) (keyLen D1 D2 : Int)
    (hN : ∀ pw s N r p k b, P.scrypt pw s N r p k = .ok b → 1 < N)
    (hel : ∀ e, 0 ≤ env.elapsed e) (hD : D1 ≤ D2) :
    ∀ (fuel1 fuel2 : Nat) (key1 key2 : Key) (now1 now2 : Int) (durs1 durs2 : Slice)
      (log1 log2 : List Nat) (k1 k2 : Key),
      key1.L2N ≤ key2.L2N → now2 ≤ now1 → key1.R = key2.R → key1.P = key2.P →
      (liveLoop P env pw salt keyLen D1 fuel1 key1 now1 durs1 log1).out = .ret (k1, none) →
      (liveLoop P env pw salt keyLen D2 fuel2 key2 now2 durs2 log2).out = .ret (k2, none) →
      k1.L2N ≤ k2.L2N := by
  intro fuel1
  induction fuel1 with
  | zero =>
    intro fuel2 key1 key2 now1 now2 durs1 durs2 log1 log2 k1 k2 hle _ _ _ h1 h2
    have h2le := liveLoop_L2N_le P env pw salt keyLen D2 hN fuel2 key2 now2 durs2 log2 k2 none h2
    unfold liveLoop at h1
    split at h1
    · simp at h1
    · simp only [Result.ret.injEq, Prod.mk.injEq, and_true] at h1
      rw [← h1]
      omega
  | succ n ih =>
    intro fuel2 key1 key2 now1 now2 durs1 durs2 log1 log2 k1 k2 hle hnow hR hP h1 h2
    have h2le := liveLoop_L2N_le P env pw salt keyLen D2 hN fuel2 key2 now2 durs2 log2 k2 none h2
    unfold liveLoop at h1
    split at h1
    · rename_i hnow1
      split at h1
      · rename_i run hrun
        rw [loopBody_stop_L2N P env pw salt keyLen D1 _ _ _ _ run k1 none hrun h1]
        omega
      · rename_i key1b now1b durs1b log1b hag
        obtain ⟨b, hb, -, hk1, hn1, hcont, -⟩ :=
          loopBody_again P env pw salt keyLen D1 _ _ _ _ _ _ _ _ hag
        have hlt := lt_of_one_lt_shl1 (hN _ _ _ _ _ _ _ hb)
        have hd := hel key1.L2N
        have hL1 : key1b.L2N = key1.L2N + 1 := by rw [hk1]; exact uintInc_of_lt hlt
        have hR1 : key1b.R = key1.R := by rw [hk1]
        have hP1 : key1b.P = key1.P := by rw [hk1]
        by_cases hstrict : key1.L2N < key2.L2N
        · exact ih fuel2 key1b key2 now1b now2 durs1b durs2 log1b log2 k1 k2 (by omega)
            (by omega) (by rw [hR1, hR]) (by rw [hP1, hP]) h1 h2
        · have heq : key1.L2N = key2.L2N := by omega
          have hnow2 : now2 < D2 := by omega
          cases fuel2 with
          | zero =>
            unfold liveLoop at h2
            rw [if_pos hnow2] at h2
            simp at h2
          | succ m =>
            unfold liveLoop at h2
            rw [if_pos hnow2] at h2
            split at h2
            · rename_i run2 hrun2
              obtain ⟨b2, -, -, hover, -⟩ :=
                loopBody_stop P env pw salt keyLen D2 _ _ _ _ run2 k2 hrun2 h2
              rw [← heq] at hover
              omega
            · rename_i key2b now2b durs2b log2b hag2
              obtain ⟨b2, hb2, -, hk2, hn2, -, -⟩ :=
                loopBody_again P env pw salt keyLen D2 _ _ _ _ _ _ _ _ hag2
              have hL2 : key2b.L2N = key2.L2N + 1 := by
                rw [hk2]
                exact uintInc_of_lt (by omega)
              have hR2 : key2b.R = key2.R := by rw [hk2]
              have hP2 : key2b.P = key2.P := by rw [hk2]
              rw [← heq] at hn2
              exact ih m key1b key2b now1b now2b durs1b durs2b log1b log2b k1 k2 (by omega)
                (by omega) (by rw [hR1, hR2, hR]) (by rw [hP1, hP2, hP]) h1 h2
    · simp only [Result.ret.injEq, Prod.mk.injEq, and_true] at h1
      rw [← h1]
      omega

/-- A run of `GenKey` that returns a key without error got its salt. -/
theorem GenKey_ret_inv (P : Prims) (env : Env) (fuel : Nat) (durs : Slice) (pw : List Byte)
    (saltLen keyLen timeout : Int) (K : Key)
    (h : (GenKey P env fuel durs pw saltLen keyLen timeout).out = .ret (K, none)) :
    ∃ salt, 0 ≤ saltLen ∧ env.random saltLen.toNat = .ok salt := by
  by_cases hlen : saltLen < 0
  · simp [GenKey, hlen] at h
  · cases hrand : env.random saltLen.toNat with
    | error e => simp [GenKey, hlen, hrand] at h
    | ok salt => exact ⟨salt, by omega, rfl⟩

/-- The exponent grows with the timeout where the scan stays at the floor or
above. For the same table, the same environment (clock, measured durations per
exponent, random source) and timeouts `T1 < T2`: when
the scan of the table with `T2` does not end below `minL2N`, the exponent it
picks with `T2` is not lower than the one it picks with `T1`, and when both
calls return without error the exponent returned with `T2` is not lower than
the one returned with `T1`. The assumptions on the environment are that measured
durations are not negative, that scrypt accepts no `N ≤ 1` and that the length
of the table fits an `int`. -/
theorem GenKey_timeout_monotone (P : Prims) (env : Env) (fuel1 fuel2 : Nat) (durs : Slice)
    (pw : List Byte) (saltLen keyLen T1 T2 : Int) (K1 K2 : Key)
    (hN : ∀ pw s N r p k b, P.scrypt pw s N r p k = .ok b → 1 < N)
    (hel : ∀ e, 0 ≤ env.elapsed e)
    (hlen : durs.len < 2 ^ 63)
    (hT : T1 < T2)
    (hfloor : minL2N ≤ scanDurs T2 durs.elems 0 minL2N)
    (h1 : (GenKey P env fuel1 durs pw saltLen keyLen T1).out = .ret (K1, none))
    (h2 : (GenKey P env fuel2 durs pw saltLen keyLen T2).out = .ret (K2, none)) :
    scanDurs T1 durs.elems 0 minL2N ≤ scanDurs T2 durs.elems 0 minL2N ∧ K1.L2N ≤ K2.L2N := by
  have hscan : scanDurs T1 durs.elems 0 minL2N ≤ scanDurs T2 durs.elems 0 minL2N := by
    have hl : durs.elems.length + 0 < 2 ^ 63 := by
      simp only [Slice.elems, List.length_take, Nat.add_zero]
      omega
    exact scanDurs_mono T1 T2 hT durs.elems 0 hl hfloor
  refine ⟨hscan, ?_⟩
  obtain ⟨salt, hs, hrand⟩ := GenKey_ret_inv P env fuel1 durs pw saltLen keyLen T1 K1 h1
  rw [GenKey_eq_loop P env fuel1 durs pw saltLen keyLen T1 salt hs hrand] at h1
  rw [GenKey_eq_loop P env fuel2 durs pw saltLen keyLen T2 salt hs hrand] at h2
  exact liveLoop_mono P env pw salt keyLen (env.start + T1) (env.start + T2) hN hel (by omega)
    fuel1 fuel2
    { Bytes := [], Salt := salt, L2N := scanDurs T1 durs.elems 0 minL2N, R := 8, P := 1 }
    { Bytes := [], Salt := salt, L2N := scanDurs T2 durs.elems 0 minL2N, R := 8, P := 1 }
    (env.start + env.gap) (env.start + env.gap) durs durs [] [] K1 K2 hscan (le_refl _) rfl rfl
    h1 h2

/-- Witness of `GenKey_timeout_monotone`: the table `[5, 10]` with the timeouts 5
and 20, every derivation measured as 100. -/
theorem GenKey_timeout_monotone_witness :
    scanDurs 5 (Slice.elems { arr := [5, 10, 0, 0, 0, 0, 0, 0], len := 2 }) 0 minL2N ≤
        scanDurs 20 (Slice.elems { arr := [5, 10, 0, 0, 0, 0, 0, 0], len := 2 }) 0 minL2N ∧
      14 ≤ 15 :=
  GenKey_timeout_monotone refPrims (refEnv 0 fun _ => 100) 3 3
    { arr := [5, 10, 0, 0, 0, 0, 0, 0], len := 2 } [1] 16 32 5 20
    { Bytes := List.replicate 32 114, Salt := List.replicate 16 7, L2N := 14, R := 8, P := 1 }
    { Bytes := List.replicate 32 114, Salt := List.replicate 16 7, L2N := 15, R := 8, P := 1 }
    refPrims_scrypt_gt_one (fun _ => (by decide : (0 : Int) ≤ 100)) (by decide) (by decide)
    (by decide) (by decide) (by decide)

/-- Claim C9 fails on the code. On the table `[5, 10]` the scan with the timeout
5 stops at the first entry and keeps the exponent 14, while with the timeout 6
it passes the first entry and steps back from the second to 13, below `minL2N`:
the call with the larger timeout starts, and derives, at a lower exponent, and
then panics on the index `13 - 14` of the table. -/
theorem GenKey_timeout_not_monotone :
    scanDurs 5 [5, 10] 0 minL2N = 14 ∧ scanDurs 6 [5, 10] 0 minL2N = 13 ∧
      GenKey refPrims (refEnv 0 fun _ => 100) 3 { arr := [5, 10, 0, 0, 0, 0, 0, 0], len := 2 }
          [1] 16 32 5 =
        { out := .ret ({ Bytes := List.replicate 32 114, Salt := List.replicate 16 7,
                         L2N := 14, R := 8, P := 1 }, none),
          durs := { arr := [100, 10, 0, 0, 0, 0, 0, 0], len := 2 }, derived := [14] } ∧
      GenKey refPrims (refEnv 0 fun _ => 100) 3 { arr := [5, 10, 0, 0, 0, 0, 0, 0], len := 2 }
          [1] 16 32 6 =
        { out := .panic "index out of range",
          durs := { arr := [5, 10, 0, 0, 0, 0, 0, 0], len := 2 }, derived := [13] } := by
  decide

/-! ### The header of the envelope -/

theorem b64Val_b64Char : ∀ i : Fin 64, b64Val (b64Char i.val) = some i.val := by
  decide

theorem b64Char_plain : ∀ i : Fin 64,
    b64Char i.val ≠ 34 ∧ b64Char i.val ≠ 61 ∧
      ¬ (b64Char i.val = 92 ∨ (b64Char i.val).val < 32 ∨ 127 ≤ (b64Char i.val).val) := by
  decide

theorem b64Val_char (i : Nat) (h : i < 64) : b64Val (b64Char i) = some i :=
  b64Val_b64Char ⟨i, h⟩

theorem b64Char_ne_pad (i : Nat) (h : i < 64) : b64Char i ≠ 61 :=
  (b64Char_plain ⟨i, h⟩).2.1

/-- Decoding the base64 text of a byte slice gives the bytes back. -/
theorem b64Decode_b64Encode : ∀ bs : List Byte, b64Decode (b64Encode bs) = some bs := by
  intro bs
  induction bs using b64Encode.induct with
  | case1 => rfl
  | case2 x =>
    have hx := x.isLt
    simp only [b64Encode, b64Decode, b64Val_char _ (by omega : x.val / 4 < 64),
      b64Val_char _ (by omega : x.val % 4 * 16 < 64), true_and, if_true, Option.some.injEq,
      List.cons.injEq, and_true]
    apply Fin.ext
    simp only [Fin.ofNat, Fin.val_mk]
    omega
  | case3 x y =>
    have hx := x.isLt
    have hy := y.isLt
    simp only [b64Encode, b64Decode, b64Val_char _ (by omega : x.val / 4 < 64),
      b64Val_char _ (by omega : x.val % 4 * 16 + y.val / 16 < 64),
      b64Val_char _ (by omega : y.val % 16 * 4 < 64),
      b64Char_ne_pad _ (by omega : y.val % 16 * 4 < 64), true_and, false_and, if_true, if_false,
      Option.some.injEq, List.cons.injEq, and_true]
    constructor <;> apply Fin.ext <;> simp only [Fin.ofNat, Fin.val_mk] <;> omega
  | case4 x y z rest ih =>
    have hx := x.isLt
    have hy := y.isLt
    have hz := z.isLt
    simp only [b64Encode, b64Decode, b64Val_char _ (by omega : x.val / 4 < 64),
      b64Val_char _ (by omega : x.val % 4 * 16 + y.val / 16 < 64),
      b64Val_char _ (by omega : y.val % 16 * 4 + z.val / 64 < 64),
      b64Val_char _ (by omega : z.val % 64 < 64),
      b64Char_ne_pad _ (by omega : y.val % 16 * 4 + z.val / 64 < 64),
      b64Char_ne_pad _ (by omega : z.val % 64 < 64), ih, and_false, false_and, if_false,
      Option.some.injEq, List.cons.injEq, and_true]
    refine ⟨?_, ?_, ?_⟩ <;> apply Fin.ext <;> simp only [Fin.ofNat, Fin.val_mk] <;> omega

/-- The characters of a base64 text are characters of a plain string. -/
theorem b64Encode_plain : ∀ (bs : List Byte) (c : Byte), c ∈ b64Encode bs →
    c ≠ 34 ∧ ¬ (c = 92 ∨ c.val < 32 ∨ 127 ≤ c.val) := by
  have hpad : (61 : Byte) ≠ 34 ∧ ¬ ((61 : Byte) = 92 ∨ (61 : Byte).val < 32 ∨ 127 ≤ (61 : Byte).val) := by
    decide
  have hch : ∀ i, i < 64 → b64Char i ≠ 34 ∧
      ¬ (b64Char i = 92 ∨ (b64Char i).val < 32 ∨ 127 ≤ (b64Char i).val) :=
    fun i h => ⟨(b64Char_plain ⟨i, h⟩).1, (b64Char_plain ⟨i, h⟩).2.2⟩
  intro bs
  induction bs using b64Encode.induct with
  | case1 =>
    intro c hc
    simp [b64Encode] at hc
  | case2 x =>
    intro c hc
    have hx := x.isLt
    simp only [b64Encode, List.mem_cons, List.mem_singleton, List.not_mem_nil, or_false] at hc
    rcases hc with h | h | h | h
    · rw [h]; exact hch _ (by omega)
    · rw [h]; exact hch _ (by omega)
    · rw [h]; exact hpad
    · rw [h]; exact hpad
  | case3 x y =>
    intro c hc
    have hx := x.isLt
    have hy := y.isLt
    simp only [b64Encode, List.mem_cons, List.mem_singleton, List.not_mem_nil, or_false] at hc
    rcases hc with h | h | h | h
    · rw [h]; exact hch _ (by omega)
    · rw [h]; exact hch _ (by omega)
    · rw [h]; exact hch _ (by omega)
    · rw [h]; exact hpad
  | case4 x y z rest ih =>
    intro c hc
    have hx := x.isLt
    have hy := y.isLt
    have hz := z.isLt
    simp only [b64Encode, List.mem_cons] at hc
    rcases hc with h | h | h | h | h
    · rw [h]; exact hch _ (by omega)
    · rw [h]; exact hch _ (by omega)
    · rw [h]; exact hch _ (by omega)
    · rw [h]; exact hch _ (by omega)
    · exact ih c h

/-- A plain string is read back up to its closing quote. -/
theorem readString_plain : ∀ (s r : List Byte),
    (∀ c ∈ s, c ≠ 34 ∧ ¬ (c = 92 ∨ c.val < 32 ∨ 127 ≤ c.val)) →
    readString (s ++ 34 :: r) = some (s, r) := by
  intro s
  induction s with
  | nil =>
    intro r _
    simp [readString]
  | cons c s ih =>
    intro r h
    have hc := h c (List.mem_cons_self _ _)
    have hs := ih r (fun d hd => h d (List.mem_cons_of_mem _ hd))
    rw [List.cons_append, readString, if_neg hc.1, if_neg hc.2, hs]

theorem digit_val (k : Nat) : (digit k).val = 48 + k % 10 := rfl

theorem isDigit_digit (k : Nat) : isDigit (digit k) = true := by
  simp only [isDigit, digit_val, Bool.and_eq_true, decide_eq_true_eq]
  omega

theorem decimalRev_digits : ∀ (fuel n : Nat) (c : Byte), c ∈ decimalRev fuel n → isDigit c = true := by
  intro fuel
  induction fuel with
  | zero =>
    intro n c hc
    simp [decimalRev] at hc
  | succ fuel ih =>
    intro n c hc
    simp only [decimalRev, List.mem_cons] at hc
    rcases hc with h | h
    · rw [h]; exact isDigit_digit n
    · by_cases hn : n < 10
      · simp [hn] at h
      · rw [if_neg hn] at h
        exact ih _ c h

/-- The value of the digits of `n`, read from the first one on. -/
theorem decimalRev_value : ∀ (fuel n : Nat), n < fuel →
    (decimalRev fuel n).foldr (fun c a => a * 10 + (c.val - 48)) 0 = n := by
  intro fuel
  induction fuel with
  | zero =>
    intro n h
    omega
  | succ fuel ih =>
    intro n h
    simp only [decimalRev, List.foldr_cons, digit_val]
    by_cases hn : n < 10
    · simp only [hn, if_true, List.foldr_nil]
      omega
    · rw [if_neg hn, ih (n / 10) (by omega)]
      omega

/-- The decimal text of a number starts with a digit, which is not `0` unless
the number is zero. -/
theorem decimal_head : ∀ (fuel n : Nat), n < fuel →
    ∃ c cs, (decimalRev fuel n).reverse = c :: cs ∧ isDigit c = true ∧ (0 < n → c ≠ 48) := by
  intro fuel
  induction fuel with
  | zero =>
    intro n h
    omega
  | succ fuel ih =>
    intro n h
    simp only [decimalRev, List.reverse_cons]
    by_cases hn : n < 10
    · refine ⟨digit n, [], by simp [hn], isDigit_digit n, ?_⟩
      intro h0 hc
      have h48 : (digit n).val = 48 := congrArg Fin.val hc
      rw [digit_val] at h48
      omega
    · rw [if_neg hn]
      obtain ⟨c, cs, h1, h2, h3⟩ := ih (n / 10) (by omega)
      exact ⟨c, cs ++ [digit n], by rw [h1]; rfl, h2, fun _ => h3 (by omega)⟩

theorem readDigits_append : ∀ (xs r : List Byte) (acc : Nat), (∀ c ∈ xs, isDigit c = true) →
    readDigits (xs ++ r) acc = readDigits r (xs.foldl (fun a c => a * 10 + (c.val - 48)) acc) := by
  intro xs
  induction xs with
  | nil =>
    intro r acc _
    rfl
  | cons x xs ih =>
    intro r acc h
    simp only [List.cons_append, readDigits, h x (List.mem_cons_self _ _), if_true, List.foldl_cons]
    exact ih r _ (fun c hc => h c (List.mem_cons_of_mem _ hc))

theorem readDigits_end (r : List Byte) (acc : Nat) (hr : ∀ c ∈ r.head?, isDigit c = false) :
    readDigits r acc = (acc, r) := by
  cases r with
  | nil => rfl
  | cons c r =>
    have := hr c (by simp)
    simp [readDigits, this]

/-- The decimal text of a number is read back to the number. -/
theorem readNat_decimal (n : Nat) (r : List Byte) (hr : ∀ c ∈ r.head?, isDigit c = false) :
    readNat (decimal n ++ r) = some (n, r) := by
  obtain ⟨c, cs, h1, h2, h3⟩ := decimal_head (n + 1) n (by omega)
  have hval : (decimal n).foldl (fun a c => a * 10 + (c.val - 48)) 0 = n := by
    unfold decimal
    rw [List.foldl_reverse]
    exact decimalRev_value (n + 1) n (by omega)
  have hdig : ∀ c ∈ decimal n, isDigit c = true := by
    intro c hc
    unfold decimal at hc
    exact decimalRev_digits _ _ c (List.mem_reverse.1 hc)
  have hrd : readDigits (decimal n ++ r) 0 = (n, r) := by
    rw [readDigits_append _ _ _ hdig, hval, readDigits_end r n hr]
  by_cases h0 : n = 0
  · subst h0
    have hd : decimal 0 = [48] := by decide
    rw [hd]
    cases r with
    | nil => simp [readNat]
    | cons d r =>
      have := hr d (by simp)
      simp [readNat, this]
  · have hc : c ≠ 48 := h3 (by omega)
    have hdec : decimal n = c :: cs := h1
    rw [hdec] at hrd ⊢
    simp only [List.cons_append, readNat, if_neg hc, h2, if_true]
    rw [← List.cons_append, hrd]

theorem skipSpace_of_head (c : Byte) (r : List Byte) (hc : isSpace c = false) :
    skipSpace (c :: r) = c :: r := by
  simp [skipSpace, hc]

/-- The text of a value of `json.Marshal`, followed by a comma or a closing
brace, is read back to the value, and no blank is in front of it. -/
theorem readValue_text (v : JsonValue) (d : Byte) (r : List Byte)
    (hv : ∀ s, v = .str s → ∀ c ∈ s, c ≠ 34 ∧ ¬ (c = 92 ∨ c.val < 32 ∨ 127 ≤ c.val))
    (hd : d = 44 ∨ d = 125) :
    skipSpace (v.text ++ d :: r) = v.text ++ d :: r ∧
      readValue (v.text ++ d :: r) = some (v, d :: r) := by
  have hend : ∀ c ∈ (d :: r).head?, isDigit c = false := by
    intro c hc
    simp only [List.head?_cons, Option.mem_def, Option.some.injEq] at hc
    subst hc
    rcases hd with h | h <;> subst h <;> decide
  cases v with
  | null =>
    refine ⟨?_, ?_⟩
    · exact skipSpace_of_head _ _ (by decide)
    · simp [JsonValue.text, readValue]
  | str s =>
    refine ⟨?_, ?_⟩
    · exact skipSpace_of_head _ _ (by decide)
    · have hs := readString_plain s (d :: r) (hv s rfl)
      simp only [JsonValue.text, List.cons_append, List.append_assoc, List.singleton_append,
        List.nil_append, readValue, if_true, hs]
  | num neg abs =>
    have hnat := readNat_decimal abs (d :: r) hend
    cases neg with
    | true =>
      refine ⟨?_, ?_⟩
      · exact skipSpace_of_head _ _ (by decide)
      · have h1 : (45 : Byte) ≠ 34 := by decide
        have h2 : (45 : Byte) ≠ 110 := by decide
        simp only [JsonValue.text, if_true, List.cons_append, List.nil_append, List.append_assoc,
          readValue, if_neg h1, if_neg h2, hnat]
    | false =>
      obtain ⟨c, cs, h1, h2, _⟩ := decimal_head (abs + 1) abs (by omega)
      have hdec : decimal abs = c :: cs := h1
      have hcv : 48 ≤ c.val ∧ c.val ≤ 57 := by
        simpa [isDigit] using h2
      have hval : ∀ k : Nat, k < 48 ∨ 57 < k → c ≠ (Fin.ofNat k : Byte) ∨ 256 ≤ k := by
        intro k hk
        by_cases h256 : 256 ≤ k
        · exact Or.inr h256
        · left
          intro hc
          have := congrArg Fin.val hc
          simp only [Fin.ofNat, Fin.val_mk] at this
          omega
      have hsp : isSpace c = false := by
        have a1 : c ≠ 32 := fun h => by rw [h] at hcv; revert hcv; decide
        have a2 : c ≠ 9 := fun h => by rw [h] at hcv; revert hcv; decide
        have a3 : c ≠ 10 := fun h => by rw [h] at hcv; revert hcv; decide
        have a4 : c ≠ 13 := fun h => by rw [h] at hcv; revert hcv; decide
        simp [isSpace, a1, a2, a3, a4]
      have b1 : c ≠ 34 := fun h => by rw [h] at hcv; revert hcv; decide
      have b2 : c ≠ 110 := fun h => by rw [h] at hcv; revert hcv; decide
      have b3 : c ≠ 45 := fun h => by rw [h] at hcv; revert hcv; decide
      simp only [JsonValue.text, Bool.false_eq_true, if_false, List.nil_append] at hnat ⊢
      rw [hdec] at hnat ⊢
      refine ⟨skipSpace_of_head _ _ hsp, ?_⟩
      simp only [List.cons_append] at hnat ⊢
      simp only [readValue, if_neg b1, if_neg b2, if_neg b3, hnat]

/-- What the text of a member has to be made of: a name and, for a string, a
value of plain characters. -/
def plainMember (m : List Byte × JsonValue) : Prop :=
  (∀ c ∈ m.1, c ≠ 34 ∧ ¬ (c = 92 ∨ c.val < 32 ∨ 127 ≤ c.val)) ∧
    ∀ s, m.2 = .str s → ∀ c ∈ s, c ≠ 34 ∧ ¬ (c = 92 ∨ c.val < 32 ∨ 127 ≤ c.val)

theorem membersText_cons (m : List Byte × JsonValue) (ms : List (List Byte × JsonValue))
    (h : ms ≠ []) : membersText (m :: ms) = memberText m ++ 44 :: membersText ms := by
  cases ms with
  | nil => exact absurd rfl h
  | cons m2 ms => rfl

theorem membersText_head (m : List Byte × JsonValue) (ms : List (List Byte × JsonValue)) :
    ∃ tl, membersText (m :: ms) = 34 :: tl := by
  cases ms with
  | nil => exact ⟨_, rfl⟩
  | cons m2 ms => exact ⟨_, rfl⟩

/-- The members written by `json.Marshal` are read back, up to the closing
brace. -/
theorem readMembers_text : ∀ (ms : List (List Byte × JsonValue)) (fuel : Nat) (rest : List Byte),
    ms ≠ [] → ms.length ≤ fuel → (∀ m ∈ ms, plainMember m) →
    readMembers fuel (membersText ms ++ 125 :: rest) = some (ms, rest) := by
  intro ms
  induction ms with
  | nil =>
    intro fuel rest h
    exact absurd rfl h
  | cons m ms ih =>
    intro fuel rest _ hfuel hplain
    cases fuel with
    | zero => simp at hfuel
    | succ fuel =>
      have hm := hplain m (List.mem_cons_self _ _)
      have h34 : ¬ (34 : Byte) ≠ 34 := by decide
      have h58 : ¬ (58 : Byte) ≠ 58 := by decide
      have hsp58 : ∀ r, skipSpace ((58 : Byte) :: r) = 58 :: r :=
        fun r => skipSpace_of_head _ _ (by decide)
      by_cases hms : ms = []
      · subst hms
        have hname := readString_plain m.1 (58 :: (m.2.text ++ 125 :: rest)) hm.1
        have hval := readValue_text m.2 125 rest hm.2 (Or.inr rfl)
        have hsp : skipSpace ((125 : Byte) :: rest) = 125 :: rest :=
          skipSpace_of_head _ _ (by decide)
        simp only [membersText, memberText, List.cons_append, List.append_assoc]
        rw [readMembers]
        simp only [h34, if_false, hname, hsp58, h58, hval.1, hval.2, hsp, if_true]
      · have hname := readString_plain m.1
          (58 :: (m.2.text ++ 44 :: (membersText ms ++ 125 :: rest))) hm.1
        have hval := readValue_text m.2 44 (membersText ms ++ 125 :: rest) hm.2 (Or.inl rfl)
        have hsp : skipSpace ((44 : Byte) :: (membersText ms ++ 125 :: rest)) =
            44 :: (membersText ms ++ 125 :: rest) := skipSpace_of_head _ _ (by decide)
        have hnext : skipSpace (membersText ms ++ 125 :: rest) = membersText ms ++ 125 :: rest := by
          cases ms with
          | nil => exact absurd rfl hms
          | cons m2 ms2 =>
            obtain ⟨tl, htl⟩ := membersText_head m2 ms2
            rw [htl]
            exact skipSpace_of_head _ _ (by decide)
        have hrec := ih fuel rest hms (by simpa using hfuel)
          (fun x hx => hplain x (List.mem_cons_of_mem _ hx))
        have h44 : (44 : Byte) ≠ 125 := by decide
        rw [membersText_cons m ms hms]
        simp only [memberText, List.cons_append, List.append_assoc]
        rw [readMembers]
        simp only [h34, if_false, hname, hsp58, h58, hval.1, hval.2, hsp, if_neg h44, if_true,
          hnext, hrec]

theorem length_membersText : ∀ ms : List (List Byte × JsonValue),
    ms.length ≤ (membersText ms).length := by
  intro ms
  induction ms with
  | nil => simp
  | cons m ms ih =>
    by_cases hms : ms = []
    · subst hms
      simp [membersText, memberText]
    · rw [membersText_cons m ms hms]
      simp only [List.length_append, List.length_cons]
      omega

/-- An object written by `json.Marshal` is read back, and what follows it in
the stream stays unread. -/
theorem readObject_text (ms : List (List Byte × JsonValue)) (rest : List Byte)
    (hne : ms ≠ []) (hplain : ∀ m ∈ ms, plainMember m) :
    readObject (objectText ms ++ rest) = some (ms, rest) := by
  have h1 : skipSpace (objectText ms ++ rest) = 123 :: (membersText ms ++ 125 :: rest) := by
    simp only [objectText, List.cons_append, List.append_assoc, List.singleton_append]
    exact skipSpace_of_head _ _ (by decide)
  obtain ⟨m, ms2, rfl⟩ := List.exists_cons_of_ne_nil hne
  obtain ⟨tl, htl⟩ := membersText_head m ms2
  have h2 : skipSpace (membersText (m :: ms2) ++ 125 :: rest) = 34 :: (tl ++ 125 :: rest) := by
    rw [htl]
    exact skipSpace_of_head _ _ (by decide)
  have hlen : (m :: ms2).length ≤ (objectText (m :: ms2) ++ rest).length := by
    have := length_membersText (m :: ms2)
    simp only [objectText, List.length_append, List.length_cons] at this ⊢
    omega
  have hrd := readMembers_text (m :: ms2) _ rest hne hlen hplain
  rw [htl] at hrd
  have h123 : ¬ (123 : Byte) ≠ 123 := by decide
  have h34 : (34 : Byte) ≠ 125 := by decide
  unfold readObject
  rw [h1]
  simp only [h123, if_false, h2, if_neg h34]
  exact hrd

theorem jsonFields_eq : jsonFields = [.Salt, .L2N, .R, .P] := by
  decide

theorem name_plain (f : Field) :
    ∀ c ∈ f.name, c ≠ 34 ∧ ¬ (c = 92 ∨ c.val < 32 ∨ 127 ≤ c.val) := by
  intro c hc
  cases f <;>
    simp only [Field.name, List.mem_cons, List.mem_singleton, List.not_mem_nil, or_false] at hc
  · rcases hc with h | h | h | h | h <;> subst h <;> decide
  · rcases hc with h | h | h | h <;> subst h <;> decide
  · rcases hc with h | h | h <;> subst h <;> decide
  · subst hc; decide
  · subst hc; decide

theorem toJson_plain (nilEmpty : Bool) (g : GoValue) :
    ∀ s, g.toJson nilEmpty = .str s → ∀ c ∈ s, c ≠ 34 ∧ ¬ (c = 92 ∨ c.val < 32 ∨ 127 ≤ c.val) := by
  intro s hs
  cases g with
  | bytes b =>
    simp only [GoValue.toJson] at hs
    by_cases hb : b = [] ∧ nilEmpty = true
    · rw [if_pos hb] at hs
      cases hs
    · rw [if_neg hb] at hs
      cases hs
      exact b64Encode_plain b
  | uint n => cases hs
  | int z => cases hs

/-- Storing the JSON value of a byte slice gives the slice. -/
theorem storeBytes_toJson (nilEmpty : Bool) (b : List Byte) (f : Field) :
    storeBytes ((GoValue.bytes b).toJson nilEmpty) f = .ok b := by
  simp only [GoValue.toJson]
  by_cases hb : b = [] ∧ nilEmpty = true
  · rw [if_pos hb, hb.1]
    rfl
  · rw [if_neg hb]
    simp only [storeBytes, b64Decode_b64Encode]

/-- Storing the JSON value of a `uint` gives the number. -/
theorem storeUint_toJson (nilEmpty : Bool) (old n : Nat) (f : Field) (hn : n < 2 ^ 64) :
    storeUint old ((GoValue.uint n).toJson nilEmpty) f = .ok n := by
  simp only [GoValue.toJson, storeUint]
  rw [if_pos ⟨trivial, hn⟩]

/-- Storing the JSON value of an `int` gives the number. -/
theorem storeInt_toJson (nilEmpty : Bool) (old z : Int) (f : Field)
    (hz : -2 ^ 63 ≤ z ∧ z < 2 ^ 63) :
    storeInt old ((GoValue.int z).toJson nilEmpty) f = .ok z := by
  have hv : (if decide (z < 0) = true then -(z.natAbs : Int) else (z.natAbs : Int)) = z := by
    by_cases h : z < 0
    · simp only [h, decide_True, if_true]
      omega
    · simp only [h, decide_False, Bool.false_eq_true, if_false]
      omega
  simp only [GoValue.toJson, storeInt, hv]
  rw [if_pos ⟨hz.2, hz.1⟩]

/-- Claim C11. The JSON text of a `Key`, as `encoding/json` writes it from the
declaration of the struct, is an object with the members `Salt`, `L2N`, `R` and
`P`; it has no member for `Bytes` and does not depend on `Key.Bytes`; and
`Decode` into a zero `Key`, whatever follows the text in the stream, gives no
error and the key with the same `Salt`, `L2N`, `R` and `P` and empty `Bytes`,
and leaves what follows unread. The key is any value of the struct: `L2N` a
`uint`, `R` and `P` an `int`, of 64 bits. -/
theorem Key_header_omits_bytes (key : Key) (nilEmpty : Bool) (b rest : List Byte)
    (hL : key.L2N < 2 ^ 64) (hR : -2 ^ 63 ≤ key.R ∧ key.R < 2 ^ 63)
    (hP : -2 ^ 63 ≤ key.P ∧ key.P < 2 ^ 63) :
    Key.Marshal nilEmpty key =
        objectText [(Field.Salt.name, (GoValue.bytes key.Salt).toJson nilEmpty),
          (Field.L2N.name, .num false key.L2N),
          (Field.R.name, .num (decide (key.R < 0)) key.R.natAbs),
          (Field.P.name, .num (decide (key.P < 0)) key.P.natAbs)] ∧
      Key.Marshal nilEmpty { key with Bytes := b } = Key.Marshal nilEmpty key ∧
      Key.Decode (Key.Marshal nilEmpty key ++ rest) = some ({ key with Bytes := [] }, none, rest) := by
  have hM : Key.Marshal nilEmpty key =
      objectText [(Field.Salt.name, (GoValue.bytes key.Salt).toJson nilEmpty),
        (Field.L2N.name, (GoValue.uint key.L2N).toJson nilEmpty),
        (Field.R.name, (GoValue.int key.R).toJson nilEmpty),
        (Field.P.name, (GoValue.int key.P).toJson nilEmpty)] := by
    unfold Key.Marshal
    rw [jsonFields_eq]
    rfl
  refine ⟨hM, ?_, ?_⟩
  · unfold Key.Marshal
    rw [jsonFields_eq]
    rfl
  · have hplain : ∀ m ∈ [(Field.Salt.name, (GoValue.bytes key.Salt).toJson nilEmpty),
        (Field.L2N.name, (GoValue.uint key.L2N).toJson nilEmpty),
        (Field.R.name, (GoValue.int key.R).toJson nilEmpty),
        (Field.P.name, (GoValue.int key.P).toJson nilEmpty)], plainMember m := by
      intro m hm
      simp only [List.mem_cons, List.mem_singleton, List.not_mem_nil, or_false] at hm
      rcases hm with h | h | h | h <;> subst h
      · exact ⟨name_plain .Salt, toJson_plain nilEmpty (.bytes key.Salt)⟩
      · exact ⟨name_plain .L2N, toJson_plain nilEmpty (.uint key.L2N)⟩
      · exact ⟨name_plain .R, toJson_plain nilEmpty (.int key.R)⟩
      · exact ⟨name_plain .P, toJson_plain nilEmpty (.int key.P)⟩
    have hS : fieldOf Field.Salt.name = some .Salt := by decide
    have hL2 : fieldOf Field.L2N.name = some .L2N := by decide
    have hR2 : fieldOf Field.R.name = some .R := by decide
    have hP2 : fieldOf Field.P.name = some .P := by decide
    unfold Key.Decode
    rw [hM, readObject_text _ rest (by simp) hplain]
    simp only [Key.storeMembers, hS, hL2, hR2, hP2, Key.store, storeBytes_toJson,
      storeUint_toJson nilEmpty _ _ _ hL, storeInt_toJson nilEmpty _ _ _ hR,
      storeInt_toJson nilEmpty _ _ _ hP]
    rfl

/-- Witness of `Key_header_omits_bytes`: a key of 32 bytes with a salt of three
bytes, whose header is `{"Salt":"BwcH","L2N":14,"R":8,"P":1}`, followed in the
stream by a line feed and two bytes. -/
theorem Key_header_omits_bytes_witness :
    Key.Marshal false
        { Bytes := List.replicate 32 114, Salt := [7, 7, 7], L2N := 14, R := 8, P := 1 } =
        objectText [(Field.Salt.name, (GoValue.bytes [7, 7, 7]).toJson false),
          (Field.L2N.name, .num false 14), (Field.R.name, .num false 8),
          (Field.P.name, .num false 1)] ∧
      Key.Marshal false { Bytes := [1, 2, 3], Salt := [7, 7, 7], L2N := 14, R := 8, P := 1 } =
        Key.Marshal false
          { Bytes := List.replicate 32 114, Salt := [7, 7, 7], L2N := 14, R := 8, P := 1 } ∧
      Key.Decode (Key.Marshal false
          { Bytes := List.replicate 32 114, Salt := [7, 7, 7], L2N := 14, R := 8, P := 1 } ++
          [10, 1, 2]) =
        some ({ Bytes := [], Salt := [7, 7, 7], L2N := 14, R := 8, P := 1 }, none, [10, 1, 2]) :=
  Key_header_omits_bytes
    { Bytes := List.replicate 32 114, Salt := [7, 7, 7], L2N := 14, R := 8, P := 1 } false
    [1, 2, 3] [10, 1, 2] (by decide) (by decide) (by decide)

/-- The header of a key on a run of the model: the text
`{"Salt":"BwcH","L2N":14,"R":8,"P":1}`, whatever the bytes of the key. -/
theorem Marshal_evaluated :
    Key.Marshal false { Bytes := [1, 2, 3], Salt := [7, 7, 7], L2N := 14, R := 8, P := 1 } =
      [123, 34, 83, 97, 108, 116, 34, 58, 34, 66, 119, 99, 72, 34, 44, 34, 76, 50, 78, 34, 58,
        49, 52, 44, 34, 82, 34, 58, 56, 44, 34, 80, 34, 58, 49, 125] ∧
      Key.Marshal true Key.zero =
        [123, 34, 83, 97, 108, 116, 34, 58, 110, 117, 108, 108, 44, 34, 76, 50, 78, 34, 58, 48,
          44, 34, 82, 34, 58, 48, 44, 34, 80, 34, 58, 48, 125] := by
  decide

/-- Runs of `Decode` on texts that `json.Marshal` does not write. A member
`Bytes` is skipped, as is any member of another name, and the names are matched
without regard to case: `{"Bytes":"AQID", "salt":"BwcH", "l2n":14, "x":null}`
gives the salt and the exponent and leaves `Bytes` empty. A value that does not
fit its field is an error and the other members are stored:
`{"L2N":-1,"R":8}` gives `R` and the error on `L2N`. -/
theorem Decode_evaluated :
    Key.Decode [123, 34, 66, 121, 116, 101, 115, 34, 58, 34, 65, 81, 73, 68, 34, 44, 32, 34, 115,
        97, 108, 116, 34, 58, 34, 66, 119, 99, 72, 34, 44, 32, 34, 108, 50, 110, 34, 58, 49, 52,
        44, 32, 34, 120, 34, 58, 110, 117, 108, 108, 125, 10] =
      some ({ Bytes := [], Salt := [7, 7, 7], L2N := 14, R := 0, P := 0 }, none, [10]) ∧
    Key.Decode [123, 34, 76, 50, 78, 34, 58, 45, 49, 44, 34, 82, 34, 58, 56, 125] =
      some ({ Bytes := [], Salt := [], L2N := 0, R := 8, P := 0 },
        some (.UnmarshalTypeError .L2N), []) := by
  decide

/-! ### `Encrypt` and `Decrypt` -/

theorem refAesPrims_contract : refAesPrims.Contract := by
  constructor
  · intro key iv src _ _
    show (src.map (fun b => b + iv.headD 0)).map (fun b => b - iv.headD 0) = src
    rw [List.map_map]
    have h : ((fun b : Byte => b - iv.headD 0) ∘ fun b => b + iv.headD 0) = id := by
      funext b
      simp
    rw [h, List.map_id]
  · intro bytes
    rfl

/-- Claim C12. For a key of 16, 24 or 32 bytes, any data and any IV drawn by
`Encrypt`, `Encrypt` returns no error and `Decrypt` of the string it returns
gives the data back with no error. The assumption on the environment is the
contract of the CFB streams and of base64. -/
theorem Decrypt_Encrypt (A : AesPrims) (hA : A.Contract) (key data r : List Byte)
    (hkey : key.length = 16 ∨ key.length = 24 ∨ key.length = 32) :
    (Encrypt A (.ok r) key data).2 = none ∧
      Decrypt A key (Encrypt A (.ok r) key data).1 = (data, none) := by
  have hok : aesKeyOk key = true := by
    unfold aesKeyOk
    rcases hkey with h | h | h <;> simp [h]
  have hiv : (fit aesBlockSize r).length = aesBlockSize := fit_length _ _
  unfold Encrypt Decrypt
  simp only [hok, if_true]
  refine ⟨trivial, ?_⟩
  rw [hA.2]
  simp only
  rw [if_neg (by rw [List.length_append, hiv]; omega), List.take_left' hiv,
    List.drop_left' hiv, hA.1 key _ data hok hiv]

/-- Witness of `Decrypt_Encrypt`: a key of 16 bytes and the data `[1, 2, 3]`. -/
theorem Decrypt_Encrypt_witness :
    (Encrypt refAesPrims (.ok (List.replicate 16 9)) (List.replicate 16 5) [1, 2, 3]).2 = none ∧
      Decrypt refAesPrims (List.replicate 16 5)
          (Encrypt refAesPrims (.ok (List.replicate 16 9)) (List.replicate 16 5) [1, 2, 3]).1 =
        ([1, 2, 3], none) :=
  Decrypt_Encrypt refAesPrims refAesPrims_contract (List.replicate 16 5) [1, 2, 3]
    (List.replicate 16 9) (Or.inl (by decide))

end cryptox

/-! ## Theorems about `netx` -/

namespace netx

/-! ### Decimal octets -/

set_option maxRecDepth 1000000 in
/-- What is used of the decimal form of a number below 256: it parses back, has
at most three characters, each one byte long, and holds no dot and no slash. -/
theorem FormatUint_octet :
    ∀ o, o < 256 → ParseUint (FormatUint o) = some o ∧ (FormatUint o).length ≤ 3 ∧
      ∀ c ∈ FormatUint o, c ≠ '.' ∧ c ≠ '/' ∧ c.utf8Size = 1 := by
  decide

/-- The decimal form of a number below 32 has at most two characters. -/
theorem FormatUint_bits : ∀ n, n < 32 → (FormatUint n).length ≤ 2 ∧ n &&& 31 = n := by
  decide

theorem octet_lt (addr i : Nat) : octet addr i < 256 := by
  unfold octet
  have h : (255 : Nat) = 2 ^ 8 - 1 := by norm_num
  rw [h, Nat.and_pow_two_sub_one_eq_mod]
  exact Nat.mod_lt _ (by norm_num)

theorem len_eq_length (s : Str) (h : ∀ c ∈ s, c.utf8Size = 1) : len s = s.length := by
  induction s with
  | nil => rfl
  | cons c cs ih =>
    have hc := h c (List.mem_cons_self c cs)
    have := ih (fun d hd => h d (List.mem_cons_of_mem c hd))
    unfold len at this ⊢
    simp only [List.map_cons, List.sum_cons, List.length_cons, hc, this]
    omega

/-- The characters of `Itoa addr` are the dot and the characters of its octets. -/
theorem mem_Itoa (addr : Nat) (c : Char) (h : c ∈ Itoa addr) :
    c = '.' ∨ ∃ i, c ∈ FormatUint (octet addr i) := by
  unfold Itoa at h
  simp only [List.mem_append, List.mem_cons] at h
  rcases h with ((h | h | h) | h | h) | h | h
  · exact Or.inr ⟨0, h⟩
  · exact Or.inl h
  · exact Or.inr ⟨1, h⟩
  · exact Or.inl h
  · exact Or.inr ⟨2, h⟩
  · exact Or.inl h
  · exact Or.inr ⟨3, h⟩

theorem Itoa_ascii (addr : Nat) : ∀ c ∈ Itoa addr, c ≠ '/' ∧ c.utf8Size = 1 := by
  intro c hc
  rcases mem_Itoa addr c hc with h | ⟨i, h⟩
  · subst h
    decide
  · have := (FormatUint_octet _ (octet_lt addr i)).2.2 c h
    exact ⟨this.2.1, this.2.2⟩

theorem length_Itoa_le (addr : Nat) : (Itoa addr).length ≤ 15 := by
  have h0 := (FormatUint_octet _ (octet_lt addr 0)).2.1
  have h1 := (FormatUint_octet _ (octet_lt addr 1)).2.1
  have h2 := (FormatUint_octet _ (octet_lt addr 2)).2.1
  have h3 := (FormatUint_octet _ (octet_lt addr 3)).2.1
  unfold Itoa
  simp only [List.length_append, List.length_cons]
  omega

theorem len_Itoa_le (addr : Nat) : len (Itoa addr) ≤ 15 := by
  rw [len_eq_length _ (fun c hc => (Itoa_ascii addr c hc).2)]
  exact length_Itoa_le addr

theorem splitOn_Itoa (addr : Nat) :
    (Itoa addr).splitOn '.' =
      [FormatUint (octet addr 0), FormatUint (octet addr 1), FormatUint (octet addr 2),
        FormatUint (octet addr 3)] := by
  have h : Itoa addr = ['.'].intercalate
      [FormatUint (octet addr 0), FormatUint (octet addr 1), FormatUint (octet addr 2),
        FormatUint (octet addr 3)] := by
    simp [Itoa, List.intercalate, List.intersperse]
  rw [h]
  apply List.splitOn_intercalate
  · intro l hl hmem
    simp only [List.mem_cons, List.mem_singleton, List.not_mem_nil, or_false] at hl
    rcases hl with hl | hl | hl | hl <;> subst hl <;>
      exact ((FormatUint_octet _ (octet_lt addr _)).2.2 _ hmem).1 rfl
  · simp

/-- The octets of a `uint32` put it together again. -/
theorem octets_sum (addr : Nat) (h : addr < 2 ^ 32) :
    ((((0 + (octet addr 0 % 2 ^ 32) <<< ((4 - 1 - 0) * 8) % 2 ^ 32) % 2 ^ 32 +
        (octet addr 1 % 2 ^ 32) <<< ((4 - 1 - 1) * 8) % 2 ^ 32) % 2 ^ 32 +
        (octet addr 2 % 2 ^ 32) <<< ((4 - 1 - 2) * 8) % 2 ^ 32) % 2 ^ 32 +
        (octet addr 3 % 2 ^ 32) <<< ((4 - 1 - 3) * 8) % 2 ^ 32) % 2 ^ 32 = addr := by
  have hff : ∀ x : Nat, x &&& 255 = x % 256 := fun x => Nat.and_pow_two_sub_one_eq_mod x 8
  simp only [octet, Nat.shiftLeft_eq, Nat.shiftRight_eq_div_pow, hff]
  norm_num at h ⊢
  omega

/-- The call `Atoi` on the `Itoa` form of a `uint32` value gives the value back. -/
theorem Atoi_of_Itoa (addr : Nat) (h : addr < 2 ^ 32) : Atoi (Itoa addr) = (addr, none) := by
  have hp := fun i => (FormatUint_octet _ (octet_lt addr i)).1
  unfold Atoi
  rw [if_neg (by have := len_Itoa_le addr; omega)]
  simp only [splitOn_Itoa, List.length_cons, List.length_nil]
  rw [if_neg (by decide)]
  simp only [atoiLoop, hp]
  rw [octets_sum addr h]

/-- Claim C13. For every `uint32` value, `Atoi` of its `Itoa` form is the value,
with no error; `Itoa(3232235521)` is "192.168.0.1" and `Atoi("192.168.0.1")` is
3232235521. -/
theorem Atoi_Itoa (addr : Nat) (h : addr < 2 ^ 32) :
    Atoi (Itoa addr) = (addr, none) ∧ Itoa 3232235521 = "192.168.0.1".toList ∧
      Atoi "192.168.0.1".toList = (3232235521, none) :=
  ⟨Atoi_of_Itoa addr h, by decide, by decide⟩

/-- Witness of `Atoi_Itoa`: the address of the documented example. -/
theorem Atoi_Itoa_witness :
    Atoi (Itoa 3232235521) = (3232235521, none) ∧ Itoa 3232235521 = "192.168.0.1".toList ∧
      Atoi "192.168.0.1".toList = (3232235521, none) :=
  Atoi_Itoa 3232235521 (by norm_num)

/-- Claim C14 fails on the code. `Atoi` checks that each octet is a decimal
number that fits 64 bits, not that it is at most 255: "256.0.0.0" gives the sum
0 with no error (the octet shifted out of the 32 bits), and "1.2.3.256" gives
the value of "1.2.4.0". -/
theorem Atoi_accepts_octet_above_255 :
    Atoi "256.0.0.0".toList = (0, none) ∧
      Atoi "1.2.3.256".toList = (16909312, none) ∧
      Atoi "1.2.4.0".toList = (16909312, none) := by
  decide

end netx

namespace netx

/-! ### The bit masks of `Network` -/

/-- The mask of a bitmask below 32 has exactly the top bits set, and its
complement in 32 bits is the host mask. -/
theorem maskOf_eq : ∀ n, n < 32 →
    maskOf n = 2 ^ 32 - 2 ^ (32 - n) ∧ maskOf n ^^^ 0xffffffff = 2 ^ (32 - n) - 1 := by
  decide

theorem testBit_of_lt {a i : Nat} (h : a < 2 ^ 32) (hi : 32 ≤ i) : a.testBit i = false :=
  Nat.testBit_lt_two_pow (Nat.lt_of_lt_of_le h (Nat.pow_le_pow_right (by norm_num) hi))

theorem testBit_mask (k i : Nat) (hk : k ≤ 32) :
    (2 ^ 32 - 2 ^ k).testBit i = (decide (i < 32) && !decide (i < k)) := by
  have hpos : 0 < 2 ^ k := Nat.two_pow_pos k
  have h1 : 2 ^ k - 1 < 2 ^ 32 :=
    Nat.lt_of_lt_of_le (by omega) (Nat.pow_le_pow_right (by norm_num) hk)
  have h2 : 2 ^ 32 - 2 ^ k = 2 ^ 32 - (2 ^ k - 1 + 1) := by omega
  rw [h2, Nat.testBit_two_pow_sub_succ h1, Nat.testBit_two_pow_sub_one]

/-- The host mask crossed with the broadcast address is the network address. -/
theorem xor_hostmask_broadcast (a k : Nat) (ha : a < 2 ^ 32) (hk : k ≤ 32) :
    (2 ^ k - 1) ^^^ (a ||| (2 ^ k - 1)) = a &&& (2 ^ 32 - 2 ^ k) := by
  apply Nat.eq_of_testBit_eq
  intro i
  rw [Nat.testBit_xor, Nat.testBit_or, Nat.testBit_and, testBit_mask k i hk,
    Nat.testBit_two_pow_sub_one]
  by_cases h1 : i < k
  · have h2 : i < 32 := by omega
    simp [h1, h2]
  · by_cases h2 : i < 32
    · simp [h1, h2]
    · simp [h1, h2, testBit_of_lt ha (by omega : 32 ≤ i)]

/-- The network address has the low bits clear. -/
theorem and_mask_eq (a k : Nat) (ha : a < 2 ^ 32) (hk : k ≤ 32) :
    a &&& (2 ^ 32 - 2 ^ k) = 2 ^ k * (a / 2 ^ k) := by
  apply Nat.eq_of_testBit_eq
  intro i
  rw [Nat.testBit_and, testBit_mask k i hk, Nat.testBit_mul_pow_two, ← Nat.shiftRight_eq_div_pow,
    Nat.testBit_shiftRight]
  by_cases h1 : i < k
  · simp [h1, Nat.not_le.mpr h1]
  · have h3 : k + (i - k) = i := by omega
    by_cases h2 : i < 32
    · simp [h1, h2, h3, Nat.not_lt.mp h1]
    · simp [h1, h2, h3, testBit_of_lt ha (by omega : 32 ≤ i)]

/-- The broadcast address is the network address with the host mask added. -/
theorem or_hostmask_eq (a k : Nat) :
    a ||| (2 ^ k - 1) = 2 ^ k * (a / 2 ^ k) + (2 ^ k - 1) := by
  have hpos : 0 < 2 ^ k := Nat.two_pow_pos k
  rw [Nat.mul_add_lt_is_or (by omega : 2 ^ k - 1 < 2 ^ k)]
  apply Nat.eq_of_testBit_eq
  intro i
  rw [Nat.testBit_or, Nat.testBit_or, Nat.testBit_mul_pow_two, ← Nat.shiftRight_eq_div_pow,
    Nat.testBit_shiftRight, Nat.testBit_two_pow_sub_one]
  by_cases h1 : i < k
  · simp [h1]
  · have h3 : k + (i - k) = i := by omega
    simp [h1, h3, Nat.not_lt.mp h1]

end netx

namespace netx

/-! ### `Network` -/

/-- The slash splits a block into the address and the bitmask. -/
theorem splitOn_block (a n : Nat) (hn : n < 32) :
    (Itoa a ++ '/' :: FormatUint n).splitOn '/' = [Itoa a, FormatUint n] := by
  have h : Itoa a ++ '/' :: FormatUint n = ['/'].intercalate [Itoa a, FormatUint n] := by
    simp [List.intercalate, List.intersperse]
  rw [h]
  apply List.splitOn_intercalate
  · intro l hl hmem
    simp only [List.mem_cons, List.mem_singleton, List.not_mem_nil, or_false] at hl
    rcases hl with hl | hl <;> subst hl
    · exact (Itoa_ascii a _ hmem).1 rfl
    · exact ((FormatUint_octet n (by omega)).2.2 _ hmem).2.1 rfl
  · simp

theorem len_block_le (a n : Nat) (hn : n < 32) : len (Itoa a ++ '/' :: FormatUint n) ≤ 18 := by
  have hascii : ∀ c ∈ Itoa a ++ '/' :: FormatUint n, c.utf8Size = 1 := by
    intro c hc
    simp only [List.mem_append, List.mem_cons] at hc
    rcases hc with hc | hc | hc
    · exact (Itoa_ascii a c hc).2
    · subst hc
      decide
    · exact ((FormatUint_octet n (by omega)).2.2 c hc).2.2
  rw [len_eq_length _ hascii]
  have h1 := length_Itoa_le a
  have h2 := (FormatUint_bits n hn).1
  simp only [List.length_append, List.length_cons]
  omega

/-- What `Network` returns for the block of an address and a bitmask below 32. -/
theorem Network_block (a n : Nat) (ha : a < 2 ^ 32) (hn : n < 32) :
    Network (Itoa a ++ '/' :: FormatUint n) =
      ({ Address := Itoa a, Bitmask := n,
         Mask := Itoa (2 ^ 32 - 2 ^ (32 - n)),
         Hostmask := Itoa (2 ^ (32 - n) - 1),
         Broadcast := Itoa (a ||| (2 ^ (32 - n) - 1)),
         First := Itoa ((a &&& (2 ^ 32 - 2 ^ (32 - n))) + 1),
         Last := Itoa ((a ||| (2 ^ (32 - n) - 1)) - 1),
         Size := 2 ^ (32 - n) - 2 }, none) := by
  obtain ⟨hM, hH⟩ := maskOf_eq n hn
  rw [hM] at hH
  have hk : 32 - n ≤ 32 := by omega
  have h2k : 2 ≤ 2 ^ (32 - n) := by
    calc 2 = 2 ^ 1 := by norm_num
      _ ≤ 2 ^ (32 - n) := Nat.pow_le_pow_right (by norm_num) (by omega)
  have hk32 : 2 ^ (32 - n) ≤ 2 ^ 32 := Nat.pow_le_pow_right (by norm_num) hk
  have hHlt : 2 ^ (32 - n) - 1 < 2 ^ 32 := by omega
  have hB : a ||| (2 ^ (32 - n) - 1) < 2 ^ 32 := Nat.or_lt_two_pow ha hHlt
  have hX := xor_hostmask_broadcast a (32 - n) ha hk
  have hQ := and_mask_eq a (32 - n) ha hk
  have hO := or_hostmask_eq a (32 - n)
  have hXlt : a &&& (2 ^ 32 - 2 ^ (32 - n)) < 2 ^ 32 := Nat.lt_of_le_of_lt Nat.and_le_left ha
  have hF : ((a &&& (2 ^ 32 - 2 ^ (32 - n))) + 1) % 2 ^ 32 =
      (a &&& (2 ^ 32 - 2 ^ (32 - n))) + 1 := by
    apply Nat.mod_eq_of_lt
    rw [hO] at hB
    rw [hQ]
    omega
  have hFlt : (a &&& (2 ^ 32 - 2 ^ (32 - n))) + 1 < 2 ^ 32 := by
    rw [← hF]
    exact Nat.mod_lt _ (by norm_num)
  have hB0 : a ||| (2 ^ (32 - n) - 1) ≠ 0 := by
    rw [hO]
    omega
  have hSize : sizeOf32 ((a ||| (2 ^ (32 - n) - 1)) - 1) ((a &&& (2 ^ 32 - 2 ^ (32 - n))) + 1) =
      2 ^ (32 - n) - 2 := by
    unfold sizeOf32
    rw [hO] at hB ⊢
    rw [hQ]
    generalize 2 ^ (32 - n) * (a / 2 ^ (32 - n)) = q at *
    generalize 2 ^ (32 - n) = h at *
    norm_num at hB ⊢
    split <;> omega
  have e1 := Atoi_of_Itoa (2 ^ 32 - 2 ^ (32 - n)) (by omega)
  have e2 := Atoi_of_Itoa a ha
  have e3 := Atoi_of_Itoa (2 ^ (32 - n) - 1) hHlt
  have e4 := Atoi_of_Itoa _ hB
  have e5 := Atoi_of_Itoa _ hXlt
  have e6 := Atoi_of_Itoa ((a ||| (2 ^ (32 - n) - 1)) - 1) (by omega)
  have e7 := Atoi_of_Itoa _ hFlt
  unfold Network
  rw [if_neg (by have := len_block_le a n hn; omega), splitOn_block a n hn]
  simp only [(FormatUint_octet n (by omega)).1, (FormatUint_bits n hn).2, ne_eq, not_true_eq_false,
    if_false, Nat.mod_eq_of_lt (by omega : n < 256)]
  unfold networkFill
  simp only [Net.zero, Not, Or, Xor, Next, Prev, hM, e1, hH, e2, e3, e4, hX, e5, hF, hB0, if_false,
    e6, e7, hSize]

/-- Claim C15. For a valid address and a bitmask `n` from 0 to 31, `Network`
succeeds with `Bitmask = n` and `Size = 2 ^ (32 - n) - 2`. -/
theorem Network_bitmask_size (a n : Nat) (ha : a < 2 ^ 32) (hn : n < 32) :
    (Network (Itoa a ++ '/' :: FormatUint n)).2 = none ∧
      (Network (Itoa a ++ '/' :: FormatUint n)).1.Bitmask = n ∧
      (Network (Itoa a ++ '/' :: FormatUint n)).1.Size = 2 ^ (32 - n) - 2 ∧
      2 ^ (32 - n) - 2 < 2 ^ 32 := by
  rw [Network_block a n ha hn]
  refine ⟨rfl, rfl, rfl, ?_⟩
  have : 2 ^ (32 - n) ≤ 2 ^ 32 := Nat.pow_le_pow_right (by norm_num) (by omega)
  omega

/-- Witness of `Network_bitmask_size`: the block "192.168.0.0/24" of the
documented example, of size 254. -/
theorem Network_bitmask_size_witness :
    (Network "192.168.0.0/24".toList).2 = none ∧
      (Network "192.168.0.0/24".toList).1.Bitmask = 24 ∧
      (Network "192.168.0.0/24".toList).1.Size = 254 ∧ 254 < 2 ^ 32 :=
  Network_bitmask_size 3232235520 24 (by norm_num) (by norm_num)

/-- Claim C16. For a valid address `a` and a bitmask `n` from 0 to 31, `Network`
returns, in dotted-quad form, the mask with exactly the top `n` bits set, the
host mask that is its complement in 32 bits, the broadcast address `a OR
hostmask`, the first address `(a AND mask) + 1` and the last address
`broadcast - 1`. -/
theorem Network_addresses (a n : Nat) (ha : a < 2 ^ 32) (hn : n < 32) :
    (∀ i, (2 ^ 32 - 2 ^ (32 - n)).testBit i = (decide (i < 32) && !decide (i < 32 - n))) ∧
      (Network (Itoa a ++ '/' :: FormatUint n)).1.Mask = Itoa (2 ^ 32 - 2 ^ (32 - n)) ∧
      (Network (Itoa a ++ '/' :: FormatUint n)).1.Hostmask =
        Itoa ((2 ^ 32 - 2 ^ (32 - n)) ^^^ 0xffffffff) ∧
      (Network (Itoa a ++ '/' :: FormatUint n)).1.Broadcast =
        Itoa (a ||| ((2 ^ 32 - 2 ^ (32 - n)) ^^^ 0xffffffff)) ∧
      (Network (Itoa a ++ '/' :: FormatUint n)).1.First =
        Itoa ((a &&& (2 ^ 32 - 2 ^ (32 - n))) + 1) ∧
      (Network (Itoa a ++ '/' :: FormatUint n)).1.Last =
        Itoa ((a ||| ((2 ^ 32 - 2 ^ (32 - n)) ^^^ 0xffffffff)) - 1) := by
  obtain ⟨hM, hH⟩ := maskOf_eq n hn
  rw [hM] at hH
  rw [Network_block a n ha hn, hH]
  exact ⟨fun i => testBit_mask (32 - n) i (by omega), rfl, rfl, rfl, rfl, rfl⟩

/-- Witness of `Network_addresses`: the block "192.168.0.0/24" of the documented
example. -/
theorem Network_addresses_witness :
    (∀ i, (2 ^ 32 - 2 ^ (32 - 24)).testBit i = (decide (i < 32) && !decide (i < 32 - 24))) ∧
      (Network "192.168.0.0/24".toList).1.Mask = "255.255.255.0".toList ∧
      (Network "192.168.0.0/24".toList).1.Hostmask = "0.0.0.255".toList ∧
      (Network "192.168.0.0/24".toList).1.Broadcast = "192.168.0.255".toList ∧
      (Network "192.168.0.0/24".toList).1.First = "192.168.0.1".toList ∧
      (Network "192.168.0.0/24".toList).1.Last = "192.168.0.254".toList :=
  Network_addresses 3232235520 24 (by norm_num) (by norm_num)

end netx

/-! ## Theorems about `mathx` -/

namespace mathx

/-- A half below zero goes away from zero. -/
theorem roundHalfAway_half_neg (k : ℤ) (hk : k < 0) : roundHalfAway ((k : ℚ) + 1 / 2) = k := by
  have h : (k : ℚ) + 1 / 2 < 0 := by
    have : (k : ℚ) ≤ -1 := by exact_mod_cast (by omega : k ≤ -1)
    linarith
  unfold roundHalfAway
  rw [if_pos h, add_sub_cancel_right, Int.ceil_intCast]

/-- A half from zero on goes up. -/
theorem roundHalfAway_half_nonneg (k : ℤ) (hk : 0 ≤ k) :
    roundHalfAway ((k : ℚ) + 1 / 2) = k + 1 := by
  have h : ¬ (k : ℚ) + 1 / 2 < 0 := by
    have : (0 : ℚ) ≤ k := by exact_mod_cast hk
    linarith
  unfold roundHalfAway
  rw [if_neg h, Int.floor_eq_iff]
  constructor <;> push_cast <;> linarith

/-- A value less than a half away from a whole number goes to it. -/
theorem roundHalfAway_near (k : ℤ) (x : ℚ) (hx : |x - k| < 1 / 2) : roundHalfAway x = k := by
  rw [abs_lt] at hx
  unfold roundHalfAway
  split
  · rw [Int.ceil_eq_iff]
    constructor <;> linarith [hx.1, hx.2]
  · rw [Int.floor_eq_iff]
    constructor <;> linarith [hx.1, hx.2]

/-! ### The whole part of a `float64` -/

theorem floor_nat_div (m d : Nat) (hd : 0 < d) : ⌊(m : ℚ) / (d : ℚ)⌋ = ((m / d : Nat) : ℤ) := by
  have hd2 : (0 : ℚ) < d := by exact_mod_cast hd
  have h1 : ((d * (m / d) + m % d : Nat) : ℚ) = m := by rw [Nat.div_add_mod]
  have h2 : ((m % d : Nat) : ℚ) < d := by exact_mod_cast Nat.mod_lt m hd
  have h3 : (0 : ℚ) ≤ ((m % d : Nat) : ℚ) := Nat.cast_nonneg _
  push_cast at h1
  rw [Int.floor_eq_iff]
  constructor
  · rw [le_div_iff₀ hd2]
    simp only [Int.cast_natCast]
    nlinarith
  · rw [div_lt_iff₀ hd2]
    simp only [Int.cast_natCast]
    nlinarith

theorem ceil_nat_div (m d : Nat) (hd : 0 < d) :
    ⌈(m : ℚ) / (d : ℚ)⌉ = (((m + d - 1) / d : Nat) : ℤ) := by
  have hd2 : (0 : ℚ) < d := by exact_mod_cast hd
  have h0 : d * ((m + d - 1) / d) + (m + d - 1) % d + 1 = m + d := by
    have := Nat.div_add_mod (m + d - 1) d
    omega
  have h1 : ((d * ((m + d - 1) / d) + (m + d - 1) % d + 1 : Nat) : ℚ) = ((m + d : Nat) : ℚ) := by
    rw [h0]
  have h2 : (((m + d - 1) % d : Nat) : ℚ) + 1 ≤ d := by
    exact_mod_cast Nat.mod_lt (m + d - 1) hd
  have h3 : (0 : ℚ) ≤ (((m + d - 1) % d : Nat) : ℚ) := Nat.cast_nonneg _
  push_cast at h1
  rw [Int.ceil_eq_iff]
  constructor
  · rw [lt_div_iff₀ hd2]
    simp only [Int.cast_natCast]
    nlinarith
  · rw [div_le_iff₀ hd2]
    simp only [Int.cast_natCast]
    nlinarith

/-- The value of a finite `float64` with a negative exponent, as a fraction. -/
theorem toRat_neg_exp (s : Bool) (m : Nat) (e : Int) (he : ¬ 0 ≤ e) :
    (if s then -1 else 1) * (m : ℚ) * (2 : ℚ) ^ e =
      (if s then -1 else 1) * ((m : ℚ) / ((2 ^ (-e).toNat : Nat) : ℚ)) := by
  have h : e = -(((-e).toNat : Nat) : Int) := by omega
  have h2 : (2 : ℚ) ^ e = 1 / (2 : ℚ) ^ (-e).toNat := by
    conv_lhs => rw [h]
    rw [zpow_neg, zpow_natCast, one_div]
  rw [h2]
  push_cast
  ring

/-- The value of a finite `float64` with an exponent that is not negative is a
whole number. -/
theorem toRat_nonneg_exp (s : Bool) (m : Nat) (e : Int) (he : 0 ≤ e) :
    (if s then -1 else 1) * (m : ℚ) * (2 : ℚ) ^ e =
      (((if s then -1 else 1) * ((m * 2 ^ e.toNat : Nat) : ℤ) : ℤ) : ℚ) := by
  have h : e = ((e.toNat : Nat) : Int) := by omega
  have h2 : (2 : ℚ) ^ e = (2 : ℚ) ^ e.toNat := by
    conv_lhs => rw [h]
    rw [zpow_natCast]
  rw [h2]
  cases s <;> simp

/-- The function `math.Floor` gives the floor of the value. -/
theorem Floor_toRat (y : Float64) (r : ℚ) (h : y.toRat = some r) :
    (Floor y).toRat = some (⌊r⌋ : ℚ) := by
  cases y with
  | inf s => cases h
  | nan => cases h
  | finite s m e =>
    simp only [Float64.toRat, Option.some.injEq] at h
    subst h
    simp only [Floor]
    by_cases he : 0 ≤ e
    · rw [if_pos he]
      simp only [Float64.toRat, Option.some.injEq]
      rw [toRat_nonneg_exp s m e he, Int.floor_intCast]
    · rw [if_neg he, toRat_neg_exp s m e he]
      have hd : 0 < 2 ^ (-e).toNat := Nat.two_pow_pos _
      cases s with
      | true =>
        simp only [if_true, Float64.toRat, Option.some.injEq, zpow_zero, mul_one]
        rw [neg_one_mul, neg_one_mul, Int.floor_neg, ceil_nat_div m _ hd]
        simp only [Int.cast_neg, Int.cast_natCast]
      | false =>
        simp only [Bool.false_eq_true, if_false, Float64.toRat, Option.some.injEq, zpow_zero,
          mul_one, one_mul]
        rw [floor_nat_div m _ hd]
        simp only [Int.cast_neg, Int.cast_natCast]

/-- The function `math.Ceil` gives the ceiling of the value. -/
theorem Ceil_toRat (y : Float64) (r : ℚ) (h : y.toRat = some r) :
    (Ceil y).toRat = some (⌈r⌉ : ℚ) := by
  cases y with
  | inf s => cases h
  | nan => cases h
  | finite s m e =>
    simp only [Float64.toRat, Option.some.injEq] at h
    subst h
    simp only [Ceil]
    by_cases he : 0 ≤ e
    · rw [if_pos he]
      simp only [Float64.toRat, Option.some.injEq]
      rw [toRat_nonneg_exp s m e he, Int.ceil_intCast]
    · rw [if_neg he, toRat_neg_exp s m e he]
      have hd : 0 < 2 ^ (-e).toNat := Nat.two_pow_pos _
      cases s with
      | true =>
        simp only [if_true, Float64.toRat, Option.some.injEq, zpow_zero, mul_one]
        rw [neg_one_mul, neg_one_mul, Int.ceil_neg, floor_nat_div m _ hd]
        simp only [Int.cast_neg, Int.cast_natCast]
      | false =>
        simp only [Bool.false_eq_true, if_false, Float64.toRat, Option.some.injEq, zpow_zero,
          mul_one, one_mul]
        rw [ceil_nat_div m _ hd]
        simp only [Int.cast_neg, Int.cast_natCast]

/-- The comparison with zero is that of the values. -/
theorem ltZero_iff (x : Float64) (q : ℚ) (h : x.toRat = some q) :
    x.ltZero = true ↔ q < 0 := by
  cases x with
  | inf s => cases h
  | nan => cases h
  | finite s m e =>
    simp only [Float64.toRat, Option.some.injEq] at h
    subst h
    have hp : (0 : ℚ) < (2 : ℚ) ^ e := zpow_pos (by norm_num) e
    have hm : (0 : ℚ) ≤ (m : ℚ) := Nat.cast_nonneg m
    unfold Float64.ltZero
    cases s with
    | true =>
      by_cases h0 : m = 0
      · subst h0
        simp
      · have hm2 : (0 : ℚ) < (m : ℚ) := by exact_mod_cast Nat.pos_of_ne_zero h0
        simp only [Bool.true_and, decide_eq_true_eq, ne_eq, h0, not_false_eq_true, if_true,
          true_iff]
        nlinarith [mul_pos hm2 hp]
    | false =>
      simp only [Bool.false_and, Bool.false_eq_true, if_false, one_mul, false_iff, not_lt]
      exact mul_nonneg hm (le_of_lt hp)

/-- Where the sum `f + 0.5`, or the difference `f - 0.5` below zero, is computed
without rounding error, `Round` gives the nearest whole number of the value, a
half going away from zero. -/
theorem Round_toRat (x : Float64) (q : ℚ) (hx : x.toRat = some q)
    (hexact : (if x.ltZero then x.sub half else x.add half).toRat =
      some (if q < 0 then q - 1 / 2 else q + 1 / 2)) :
    (Round x).toRat = some ((roundHalfAway q : ℤ) : ℚ) := by
  unfold Round roundHalfAway
  by_cases hlt : x.ltZero = true
  · have hq : q < 0 := (ltZero_iff x q hx).1 hlt
    rw [if_pos hlt, if_pos hq] at hexact
    rw [if_pos hlt, if_pos hq]
    exact Ceil_toRat _ _ hexact
  · have hq : ¬ q < 0 := fun h => hlt ((ltZero_iff x q hx).2 h)
    rw [if_neg hlt, if_neg hq] at hexact
    rw [if_neg hlt, if_neg hq]
    exact Floor_toRat _ _ hexact

/-! ### Sums without rounding error -/

theorem ilog2_le : ∀ (fuel n : Nat), 0 < n → 2 ^ ilog2 fuel n ≤ n := by
  intro fuel
  induction fuel with
  | zero =>
    intro n hn
    simpa [ilog2] using hn
  | succ fuel ih =>
    intro n hn
    unfold ilog2
    by_cases h : n < 2
    · rw [if_pos h]
      simpa using hn
    · rw [if_neg h, pow_succ]
      have := ih (n / 2) (by omega)
      omega

/-- A whole number of at most 53 bits is a `float64`: its rounding is the
number. -/
theorem roundNearestEven_exact (a : Nat) (h0 : 0 < a) (h53 : a < 2 ^ 53) :
    ((roundNearestEven a 1).1 : ℚ) * (2 : ℚ) ^ (roundNearestEven a 1).2 = a := by
  have hL : 2 ^ ilog2 a a ≤ a := ilog2_le a a h0
  have hL2 : ilog2 a a < 53 := by
    by_contra hc
    have : 2 ^ 53 ≤ 2 ^ ilog2 a a := Nat.pow_le_pow_right (by norm_num) (by omega)
    omega
  have h1 : ilog2 1 1 = 0 := by decide
  have hge : geTwoPow a 1 ((ilog2 a a : Int) - (0 : Nat)) = true := by
    unfold geTwoPow
    simp only [Nat.cast_zero, sub_zero, Nat.cast_nonneg, if_true, Int.toNat_ofNat, one_mul,
      decide_eq_true_eq]
    exact hL
  have hk : (0 : Int) ≤ 52 - ((ilog2 a a : Int) - (0 : Nat)) := by
    simp only [Nat.cast_zero, sub_zero]
    omega
  unfold roundNearestEven
  simp only [h1, hge, if_true, hk, Nat.div_one, Nat.mod_one, mul_zero, Nat.not_lt_zero,
    false_or, zero_ne_one, false_and, if_false]
  have hk2 : (52 - ((ilog2 a a : Int) - (0 : Nat))).toNat = 52 - ilog2 a a := by
    simp only [Nat.cast_zero, sub_zero]
    omega
  have he : ((ilog2 a a : Int) - (0 : Nat)) - 52 = -((52 - ilog2 a a : Nat) : Int) := by
    simp only [Nat.cast_zero, sub_zero]
    omega
  rw [hk2, he, zpow_neg, zpow_natCast]
  push_cast
  field_simp

/-- The value of a finite `float64` over a smaller exponent. -/
theorem toRat_shift (s : Bool) (m : Nat) (e g : Int) (hg : g ≤ e) :
    (if s then -1 else 1) * (m : ℚ) * (2 : ℚ) ^ e =
      (((if s then -((m * 2 ^ (e - g).toNat : Nat) : Int) else ((m * 2 ^ (e - g).toNat : Nat) : Int)) :
        Int) : ℚ) * (2 : ℚ) ^ g := by
  have h : e = ((e - g).toNat : Int) + g := by omega
  have h2 : (2 : ℚ) ^ e = (2 : ℚ) ^ (e - g).toNat * (2 : ℚ) ^ g := by
    conv_lhs => rw [h]
    rw [zpow_add₀ (by norm_num : (2 : ℚ) ≠ 0), zpow_natCast]
  rw [h2]
  cases s <;> simp <;> ring

/-- Where the exact sum of two finite values has at most 53 bits over the
smaller of the two exponents, the sum of `float64` is the exact sum. -/
theorem add_toRat (s : Bool) (m : Nat) (e : Int) (t : Bool) (n : Nat) (f : Int)
    (hfit : ((if s then -((m * 2 ^ (e - min e f).toNat : Nat) : Int)
          else ((m * 2 ^ (e - min e f).toNat : Nat) : Int)) +
        (if t then -((n * 2 ^ (f - min e f).toNat : Nat) : Int)
          else ((n * 2 ^ (f - min e f).toNat : Nat) : Int))).natAbs < 2 ^ 53) :
    ((Float64.finite s m e).add (.finite t n f)).toRat =
      some ((if s then -1 else 1) * (m : ℚ) * (2 : ℚ) ^ e +
        (if t then -1 else 1) * (n : ℚ) * (2 : ℚ) ^ f) := by
  rw [toRat_shift s m e (min e f) (min_le_left e f), toRat_shift t n f (min e f) (min_le_right e f),
    ← add_mul, ← Int.cast_add]
  simp only [Float64.add]
  generalize hS : ((if s then -((m * 2 ^ (e - min e f).toNat : Nat) : Int)
          else ((m * 2 ^ (e - min e f).toNat : Nat) : Int)) +
        (if t then -((n * 2 ^ (f - min e f).toNat : Nat) : Int)
          else ((n * 2 ^ (f - min e f).toNat : Nat) : Int))) = S at hfit ⊢
  by_cases h0 : S = 0
  · rw [if_pos h0, h0]
    simp [Float64.toRat]
  · rw [if_neg h0]
    have hpos : 0 < S.natAbs := Int.natAbs_pos.2 h0
    have hex := roundNearestEven_exact S.natAbs hpos hfit
    simp only [Float64.toRat, Option.some.injEq]
    rw [zpow_add₀ (by norm_num : (2 : ℚ) ≠ 0), ← mul_assoc, mul_assoc _ ((roundNearestEven S.natAbs 1).1 : ℚ),
      hex]
    by_cases hneg : S < 0
    · have : (S : ℚ) = -(S.natAbs : ℚ) := by
        have h : (S.natAbs : Int) = -S := by omega
        rw [← Int.cast_natCast (R := ℚ) S.natAbs, h, Int.cast_neg, neg_neg]
      simp [hneg, this]
    · have : (S : ℚ) = (S.natAbs : ℚ) := by
        have h : (S.natAbs : Int) = S := by omega
        rw [← Int.cast_natCast (R := ℚ) S.natAbs, h]
      simp [hneg, this]

/-- The `float64` for `k + 0.5` stands for `k + 0.5`. -/
theorem halfOf_toRat (k : Int) : (halfOf k).toRat = some ((k : ℚ) + 1 / 2) := by
  unfold halfOf
  simp only [Float64.toRat, Option.some.injEq]
  have h2 : (2 : ℚ) ^ (-1 : Int) = 1 / 2 := by norm_num
  rw [h2]
  by_cases hk : k < 0
  · have h : ((2 * k + 1).natAbs : Int) = -(2 * k + 1) := by omega
    have h3 : (((2 * k + 1).natAbs : Int) : ℚ) = ((-(2 * k + 1) : Int) : ℚ) := by rw [h]
    rw [Int.cast_natCast] at h3
    simp only [hk, decide_True, if_true]
    rw [h3]
    push_cast
    ring
  · have h : ((2 * k + 1).natAbs : Int) = 2 * k + 1 := by omega
    have h3 : (((2 * k + 1).natAbs : Int) : ℚ) = ((2 * k + 1 : Int) : ℚ) := by rw [h]
    rw [Int.cast_natCast] at h3
    simp only [hk, decide_False, Bool.false_eq_true, if_false]
    rw [h3]
    push_cast
    ring

/-- For a half `k + 0.5`, the sum `f + 0.5`, or the difference `f - 0.5` below
zero, is computed without rounding error. -/
theorem halfOf_exact (k : Int) (hlo : -2 ^ 52 < k) (hhi : k < 2 ^ 52 - 1) :
    (if (halfOf k).ltZero then (halfOf k).sub half else (halfOf k).add half).toRat =
      some (if (k : ℚ) + 1 / 2 < 0 then (k : ℚ) + 1 / 2 - 1 / 2 else (k : ℚ) + 1 / 2 + 1 / 2) := by
  have hlt := ltZero_iff (halfOf k) _ (halfOf_toRat k)
  have hv : (halfOf k) = .finite (decide (k < 0)) (2 * k + 1).natAbs (-1) := rfl
  have hq : (if decide (k < 0) = true then -1 else 1) * ((2 * k + 1).natAbs : ℚ) *
      (2 : ℚ) ^ (-1 : Int) = (k : ℚ) + 1 / 2 := by
    have h := halfOf_toRat k
    rw [hv] at h
    simpa [Float64.toRat] using h
  by_cases hk : (k : ℚ) + 1 / 2 < 0
  · rw [if_pos (hlt.2 hk), if_pos hk]
    have hk2 : k < 0 := by
      by_contra hc
      have : (0 : ℚ) ≤ (k : ℚ) := by exact_mod_cast (by omega : 0 ≤ k)
      linarith
    unfold Float64.sub half Float64.neg
    rw [hv, add_toRat]
    · rw [hq]
      norm_num
    · simp only [min_self, sub_self, Int.toNat_zero, pow_zero, mul_one, Bool.not_false, if_true,
        hk2, decide_True]
      omega
  · have hlf : ¬ (halfOf k).ltZero = true := fun h => hk (hlt.1 h)
    rw [if_neg hlf, if_neg hk]
    have hk2 : ¬ k < 0 := by
      intro hc
      have : (k : ℚ) ≤ -1 := by exact_mod_cast (by omega : k ≤ -1)
      linarith
    unfold half
    rw [hv, add_toRat]
    · rw [hq]
      norm_num
    · simp only [min_self, sub_self, Int.toNat_zero, pow_zero, mul_one, Bool.false_eq_true,
        if_false, hk2, decide_False]
      omega

/-- On every half `k + 0.5` that is a `float64`, `Round` gives the nearest whole
number of the half, away from zero. -/
theorem Round_halfOf (k : Int) (hlo : -2 ^ 52 ≤ k) (hhi : k < 2 ^ 52) :
    (Round (halfOf k)).toRat = some ((roundHalfAway ((k : ℚ) + 1 / 2) : ℤ) : ℚ) := by
  by_cases h1 : k = 2 ^ 52 - 1
  · subst h1
    have hr : Round (halfOf (2 ^ 52 - 1)) = .finite false 4503599627370496 0 := by decide
    rw [hr, roundHalfAway_half_nonneg _ (by norm_num)]
    norm_num [Float64.toRat]
  · by_cases h2 : k = -2 ^ 52
    · subst h2
      have hr : Round (halfOf (-2 ^ 52)) = .finite true 4503599627370496 0 := by decide
      rw [hr, roundHalfAway_half_neg _ (by norm_num)]
      norm_num [Float64.toRat]
    · exact Round_toRat _ _ (halfOf_toRat k) (halfOf_exact k (by omega) (by omega))

/-! ### Sums that are rounded -/

theorem ilog2_lt : ∀ (fuel n : Nat), n ≤ fuel → n < 2 ^ (ilog2 fuel n + 1) := by
  intro fuel
  induction fuel with
  | zero =>
    intro n hn
    have : n = 0 := by omega
    subst this
    simp [ilog2]
  | succ fuel ih =>
    intro n hn
    unfold ilog2
    by_cases h : n < 2
    · rw [if_pos h]
      simpa using h
    · rw [if_neg h, pow_succ]
      have := ih (n / 2) (by omega)
      omega

/-- The binary logarithm of a number between two powers of two. -/
theorem ilog2_eq (n L : Nat) (h1 : 2 ^ L ≤ n) (h2 : n < 2 ^ (L + 1)) : ilog2 n n = L := by
  have hpos : 0 < n := lt_of_lt_of_le (Nat.two_pow_pos L) h1
  have ha := ilog2_le n n hpos
  have hb := ilog2_lt n n (le_refl n)
  have h3 : ilog2 n n < L + 1 :=
    (Nat.pow_lt_pow_iff_right (by norm_num : 1 < 2)).1 (lt_of_le_of_lt ha h2)
  have h4 : L < ilog2 n n + 1 :=
    (Nat.pow_lt_pow_iff_right (by norm_num : 1 < 2)).1 (lt_of_le_of_lt h1 hb)
  omega

/-- The rounding of a whole number of `53 + d` bits, `d` at least 1: the last
`d` bits are dropped, and the number of 53 bits that is left goes up by one
when they are more than the half, or the half with the number odd. -/
theorem roundNearestEven_big (S d : Nat) (hd : 0 < d) (h1 : 2 ^ (52 + d) ≤ S)
    (h2 : S < 2 ^ (53 + d)) :
    roundNearestEven S 1 =
      (if 2 ^ d < 2 * (S % 2 ^ d) ∨ (2 * (S % 2 ^ d) = 2 ^ d ∧ S / 2 ^ d % 2 = 1)
        then S / 2 ^ d + 1 else S / 2 ^ d, (d : Int)) := by
  have hL : ilog2 S S = 52 + d := ilog2_eq S (52 + d) h1 (by rw [show 52 + d + 1 = 53 + d by omega]; exact h2)
  have h11 : ilog2 1 1 = 0 := by decide
  have hge : geTwoPow S 1 (((52 + d : Nat) : Int) - (0 : Nat)) = true := by
    unfold geTwoPow
    have h0 : (0 : Int) ≤ ((52 + d : Nat) : Int) - (0 : Nat) := by omega
    have ht : (((52 + d : Nat) : Int) - (0 : Nat)).toNat = 52 + d := by omega
    rw [if_pos h0, ht]
    simpa using h1
  have hk : ¬ (0 : Int) ≤ 52 - (((52 + d : Nat) : Int) - (0 : Nat)) := by omega
  have hk2 : (-(52 - (((52 + d : Nat) : Int) - (0 : Nat)))).toNat = d := by omega
  have he : (((52 + d : Nat) : Int) - (0 : Nat)) - 52 = (d : Int) := by omega
  unfold roundNearestEven
  simp only [hL, h11, hge, if_true, hk, if_false, hk2, he, one_mul]

/-- The sum of two `float64` of one sign, the second one not zero: the whole
number of units of the smaller exponent is rounded. -/
theorem add_same_sign (s : Bool) (m : Nat) (e : Int) (n : Nat) (f : Int) (hn : 0 < n) :
    (Float64.finite s m e).add (.finite s n f) =
      .finite s
        (roundNearestEven (m * 2 ^ (e - min e f).toNat + n * 2 ^ (f - min e f).toNat) 1).1
        ((roundNearestEven (m * 2 ^ (e - min e f).toNat + n * 2 ^ (f - min e f).toNat) 1).2 +
          min e f) := by
  have hB : 0 < n * 2 ^ (f - min e f).toNat := Nat.mul_pos hn (Nat.two_pow_pos _)
  simp only [Float64.add]
  generalize m * 2 ^ (e - min e f).toNat = A at *
  generalize n * 2 ^ (f - min e f).toNat = B at *
  cases s with
  | true =>
    have h0 : ¬ (-(A : Int) + -(B : Int) = 0) := by omega
    have h1 : (-(A : Int) + -(B : Int)).natAbs = A + B := by omega
    have h2 : decide (-(A : Int) + -(B : Int) < 0) = true := by
      simp only [decide_eq_true_eq]
      omega
    simp only [if_true, h0, if_false, h1, h2]
  | false =>
    have h0 : ¬ ((A : Int) + (B : Int) = 0) := by omega
    have h1 : ((A : Int) + (B : Int)).natAbs = A + B := by omega
    have h2 : decide ((A : Int) + (B : Int) < 0) = false := by
      simp only [decide_eq_false_iff_not]
      omega
    simp only [Bool.false_eq_true, if_false, h0, h1, h2]

/-- The result of `Round` on a finite value, below zero or from zero on: the
sum of the absolute value and 0.5 is rounded, and the digits behind the point
are cut off. -/
theorem Round_finite (s : Bool) (m : Nat) (e : Int) (h : s = true → m ≠ 0) :
    Round (.finite s m e) =
      if 0 ≤ (roundNearestEven (m * 2 ^ (e - min e (-1)).toNat +
            1 * 2 ^ (-1 - min e (-1)).toNat) 1).2 + min e (-1) then
        .finite s
          (roundNearestEven (m * 2 ^ (e - min e (-1)).toNat +
            1 * 2 ^ (-1 - min e (-1)).toNat) 1).1
          ((roundNearestEven (m * 2 ^ (e - min e (-1)).toNat +
            1 * 2 ^ (-1 - min e (-1)).toNat) 1).2 + min e (-1))
      else
        .finite s
          ((roundNearestEven (m * 2 ^ (e - min e (-1)).toNat +
              1 * 2 ^ (-1 - min e (-1)).toNat) 1).1 /
            2 ^ (-((roundNearestEven (m * 2 ^ (e - min e (-1)).toNat +
              1 * 2 ^ (-1 - min e (-1)).toNat) 1).2 + min e (-1))).toNat) 0 := by
  cases s with
  | true =>
    have hm : m ≠ 0 := h rfl
    have hlt : (Float64.finite true m e).ltZero = true := by
      simp [Float64.ltZero, hm]
    unfold Round
    rw [if_pos hlt]
    unfold Float64.sub half Float64.neg
    simp only [Bool.not_false]
    rw [add_same_sign true m e 1 (-1) (by norm_num)]
    simp only [Ceil, if_true]
  | false =>
    have hlt : ¬ (Float64.finite false m e).ltZero = true := by
      simp [Float64.ltZero]
    unfold Round
    rw [if_neg hlt]
    unfold half
    rw [add_same_sign false m e 1 (-1) (by norm_num)]
    simp only [Floor, Bool.false_eq_true, if_false]

/-- The rounded sum does not reach the next whole number. For a value
`m * 2 ^ (-G)` with `m` of 53 bits, other than the `float64` just below 0.5,
whose sum with 0.5 has more than 53 bits, `Round` gives the whole part of the
exact sum. -/
theorem Round_small_exp (s : Bool) (m G : Nat) (h : s = true → m ≠ 0) (hG : 2 ≤ G)
    (hm : m < 2 ^ 53) (hS : 2 ^ 53 ≤ m + 2 ^ (G - 1))
    (hex : ¬ (m = 2 ^ 53 - 1 ∧ G = 54)) :
    Round (.finite s m (-(G : Int))) = .finite s ((m + 2 ^ (G - 1)) / 2 ^ G) 0 := by
  have hmin : min (-(G : Int)) (-1) = -(G : Int) := min_eq_left (by omega)
  have ht1 : (-(G : Int) - -(G : Int)).toNat = 0 := by omega
  have ht2 : (-1 - -(G : Int)).toNat = G - 1 := by omega
  rw [Round_finite s m _ h, hmin, ht1, ht2, pow_zero, mul_one, one_mul]
  have hGG : 2 ^ G = 2 * 2 ^ (G - 1) := by
    rw [show G = (G - 1) + 1 by omega, pow_succ]
    simp only [Nat.add_sub_cancel]
    ring
  by_cases hA : m < 2 ^ (G - 1)
  · -- the value is below 0.5
    have hlt : m + 2 ^ (G - 1) < 2 ^ G := by omega
    have h53 : 53 < G := by
      have : 2 ^ 53 < 2 ^ G := lt_of_le_of_lt hS hlt
      exact (Nat.pow_lt_pow_iff_right (by norm_num : 1 < 2)).1 this
    obtain ⟨d, hd⟩ : ∃ d, G = 53 + d := ⟨G - 53, by omega⟩
    have hd0 : 0 < d := by omega
    have hG1 : G - 1 = 52 + d := by omega
    have hP : (2 : Nat) ^ G = 2 ^ 53 * 2 ^ d := by rw [hd, pow_add]
    have hP1 : (2 : Nat) ^ (G - 1) = 2 ^ 52 * 2 ^ d := by rw [hG1, pow_add]
    have hbig := roundNearestEven_big (m + 2 ^ (G - 1)) d hd0 (by rw [← hG1]; omega)
      (by rw [← hd]; exact hlt)
    rw [hbig]
    have hE : ¬ (0 : Int) ≤ (d : Int) + -(G : Int) := by omega
    have hE2 : (-((d : Int) + -(G : Int))).toNat = 53 := by omega
    simp only [hE, if_false, hE2]
    have hq : (m + 2 ^ (G - 1)) / 2 ^ d < 2 ^ 53 := by
      rw [Nat.div_lt_iff_lt_mul (Nat.two_pow_pos d)]
      omega
    have hdm := Nat.div_add_mod (m + 2 ^ (G - 1)) (2 ^ d)
    have hr := Nat.mod_lt (m + 2 ^ (G - 1)) (Nat.two_pow_pos d)
    have hd2 : 2 ≤ 2 ^ d := by
      calc 2 = 2 ^ 1 := by norm_num
        _ ≤ 2 ^ d := Nat.pow_le_pow_right (by norm_num) hd0
    have hM : (if 2 ^ d < 2 * ((m + 2 ^ (G - 1)) % 2 ^ d) ∨
          (2 * ((m + 2 ^ (G - 1)) % 2 ^ d) = 2 ^ d ∧ (m + 2 ^ (G - 1)) / 2 ^ d % 2 = 1)
        then (m + 2 ^ (G - 1)) / 2 ^ d + 1 else (m + 2 ^ (G - 1)) / 2 ^ d) < 2 ^ 53 := by
      split
      · rename_i hc
        by_contra hcon
        have hq2 : (m + 2 ^ (G - 1)) / 2 ^ d = 2 ^ 53 - 1 := by omega
        rw [hq2] at hdm
        have h2r : 2 ^ d ≤ 2 * ((m + 2 ^ (G - 1)) % 2 ^ d) := by
          rcases hc with hc | hc
          · omega
          · omega
        generalize (m + 2 ^ (G - 1)) % 2 ^ d = r at *
        generalize hPd : 2 ^ d = P at *
        have hP2 : P = 2 := by
          rw [hP1] at hdm
          have e1 : P * (2 ^ 53 - 1) = 9007199254740991 * P := by ring
          have e2 : 2 ^ 52 * P = 4503599627370496 * P := by ring
          rw [e1] at hdm
          rw [e2] at hdm
          norm_num at hm
          omega
        have hd1 : d = 1 := by
          by_contra hne
          have : 2 ^ 2 ≤ 2 ^ d := Nat.pow_le_pow_right (by norm_num) (by omega)
          rw [hPd, hP2] at this
          norm_num at this
        apply hex
        constructor
        · rw [hP1, hP2] at hdm
          norm_num at hdm hm ⊢
          omega
        · omega
      · exact hq
    rw [Nat.div_eq_of_lt hM, Nat.div_eq_of_lt hlt]
  · -- the value is 0.5 or more
    have hG53 : G - 1 < 53 :=
      (Nat.pow_lt_pow_iff_right (by norm_num : 1 < 2)).1 (lt_of_le_of_lt (not_lt.1 hA) hm)
    have hA52 : 2 ^ (G - 1) ≤ 2 ^ 52 := Nat.pow_le_pow_right (by norm_num) (by omega)
    have hbig := roundNearestEven_big (m + 2 ^ (G - 1)) 1 (by norm_num) (by norm_num; omega)
      (by norm_num at hA52 hm ⊢; omega)
    rw [hbig]
    have hE : ¬ (0 : Int) ≤ ((1 : Nat) : Int) + -(G : Int) := by omega
    have hE2 : (-(((1 : Nat) : Int) + -(G : Int))).toNat = G - 1 := by omega
    simp only [hE, if_false, hE2, pow_one]
    congr 1
    have hGle : G ≤ 53 := by omega
    interval_cases G <;> norm_num at hm hS hA ⊢ <;> split <;> omega

theorem roundHalfAway_signed (s : Bool) (a : ℚ) (ha : 0 ≤ a) (hs : s = true → 0 < a) :
    roundHalfAway ((if s then -1 else 1) * a) = (if s then -1 else 1) * ⌊a + 1 / 2⌋ := by
  unfold roundHalfAway
  cases s with
  | true =>
    have hpos := hs rfl
    have hneg : (-1 : ℚ) * a < 0 := by linarith
    simp only [if_true, hneg]
    rw [show (-1 : ℚ) * a - 1 / 2 = -(a + 1 / 2) by ring, Int.ceil_neg]
    ring
  | false =>
    have hneg : ¬ (a < 0) := by linarith
    simp only [Bool.false_eq_true, if_false, one_mul]
    rw [if_neg hneg]

/-- The value `Round` gives for a `float64` of 53 bits below `2 ^ 52` in absolute
value, other than the one just below 0.5: the whole part of the absolute value
plus 0.5, with the sign of the value. -/
theorem Round_abs (s : Bool) (m : Nat) (e : Int) (h : s = true → m ≠ 0) (hm : m < 2 ^ 53)
    (hq : (m : ℚ) * (2 : ℚ) ^ e < 2 ^ 52) (hex : ¬ (m = 2 ^ 53 - 1 ∧ e = -54)) :
    (Round (.finite s m e)).toRat =
      some (((if s then -1 else 1) * ⌊(m : ℚ) * (2 : ℚ) ^ e + 1 / 2⌋ : ℤ) : ℚ) := by
  have hp : (0 : ℚ) < (2 : ℚ) ^ e := zpow_pos (by norm_num) e
  have ha : (0 : ℚ) ≤ (m : ℚ) * (2 : ℚ) ^ e := mul_nonneg (Nat.cast_nonneg m) (le_of_lt hp)
  have hs : s = true → (0 : ℚ) < (m : ℚ) * (2 : ℚ) ^ e := by
    intro hs
    have : (0 : ℚ) < (m : ℚ) := by exact_mod_cast Nat.pos_of_ne_zero (h hs)
    exact mul_pos this hp
  by_cases hfit : m * 2 ^ (e - min e (-1)).toNat + 1 * 2 ^ (-1 - min e (-1)).toNat < 2 ^ 53
  · -- the sum is computed without rounding error
    have hx : (Float64.finite s m e).toRat =
        some ((if s then -1 else 1) * ((m : ℚ) * (2 : ℚ) ^ e)) := by
      simp only [Float64.toRat, Option.some.injEq]
      ring
    rw [← roundHalfAway_signed s _ ha hs]
    refine Round_toRat _ _ hx ?_
    cases s with
    | true =>
      have hlt : (Float64.finite true m e).ltZero = true := by
        simp [Float64.ltZero, h rfl]
      have hneg : (-1 : ℚ) * ((m : ℚ) * (2 : ℚ) ^ e) < 0 := by linarith [hs rfl]
      rw [if_pos hlt]
      simp only [if_true, hneg]
      unfold Float64.sub half Float64.neg
      simp only [Bool.not_false]
      rw [add_toRat true m e true 1 (-1)]
      · simp only [if_true, Option.some.injEq]
        norm_num
        ring
      · simp only [if_true]
        omega
    | false =>
      have hlt : ¬ (Float64.finite false m e).ltZero = true := by
        simp [Float64.ltZero]
      have hneg : ¬ ((1 : ℚ) * ((m : ℚ) * (2 : ℚ) ^ e) < 0) := by linarith
      rw [if_neg hlt]
      simp only [Bool.false_eq_true, if_false, hneg]
      unfold half
      rw [add_toRat false m e false 1 (-1)]
      · simp only [Bool.false_eq_true, if_false, Option.some.injEq]
        norm_num
      · simp only [Bool.false_eq_true, if_false]
        omega
  · by_cases he : e < -1
    · -- the sum is rounded
      obtain ⟨G, hG⟩ : ∃ G : Nat, e = -(G : Int) := ⟨(-e).toNat, by omega⟩
      subst hG
      have hG2 : 2 ≤ G := by omega
      have hmin : min (-(G : Int)) (-1) = -(G : Int) := min_eq_left (by omega)
      have ht1 : (-(G : Int) - -(G : Int)).toNat = 0 := by omega
      have ht2 : (-1 - -(G : Int)).toNat = G - 1 := by omega
      rw [hmin, ht1, ht2, pow_zero, mul_one, one_mul] at hfit
      have hex2 : ¬ (m = 2 ^ 53 - 1 ∧ G = 54) := by
        rintro ⟨h1, h2⟩
        exact hex ⟨h1, by omega⟩
      rw [Round_small_exp s m G h hG2 hm (not_lt.1 hfit) hex2]
      have hval : (m : ℚ) * (2 : ℚ) ^ (-(G : Int)) + 1 / 2 =
          ((m + 2 ^ (G - 1) : Nat) : ℚ) / ((2 ^ G : Nat) : ℚ) := by
        have hGG : (2 : ℚ) ^ G = 2 * (2 : ℚ) ^ (G - 1) := by
          conv_lhs => rw [show G = (G - 1) + 1 by omega, pow_succ]
          ring
        rw [zpow_neg, zpow_natCast]
        push_cast
        rw [hGG]
        have hne : (2 : ℚ) ^ (G - 1) ≠ 0 := pow_ne_zero _ (by norm_num)
        field_simp
        ring
      rw [hval, floor_nat_div _ _ (Nat.two_pow_pos G)]
      simp only [Float64.toRat, Option.some.injEq, zpow_zero, mul_one]
      cases s <;>
        simp only [Bool.false_eq_true, if_true, if_false, Int.cast_mul, Int.cast_neg,
          Int.cast_one, Int.cast_natCast]
    · -- a multiple of 0.5: only `2 ^ 52 - 0.5` has a sum of more than 53 bits
      have hmin : min e (-1) = -1 := min_eq_right (by omega)
      have ht1 : (e - -1).toNat = (e + 1).toNat := by congr 1
      have ht2 : (-1 - (-1 : Int)).toNat = 0 := by omega
      rw [hmin, ht1, ht2, pow_zero, mul_one] at hfit
      have hpow : (2 : ℚ) ^ e = ((2 ^ (e + 1).toNat : Nat) : ℚ) / 2 := by
        have h1 : e = (((e + 1).toNat : Nat) : Int) + (-1) := by omega
        conv_lhs => rw [h1]
        rw [zpow_add₀ (by norm_num : (2 : ℚ) ≠ 0), zpow_natCast]
        push_cast
        norm_num
        ring
      have hlt : m * 2 ^ (e + 1).toNat < 2 ^ 53 := by
        rw [hpow] at hq
        have h2 : ((m * 2 ^ (e + 1).toNat : Nat) : ℚ) < ((2 ^ 53 : Nat) : ℚ) := by
          push_cast
          push_cast at hq
          linarith
        exact_mod_cast h2
      have hS : m * 2 ^ (e + 1).toNat = 2 ^ 53 - 1 := by omega
      have he1 : (e + 1).toNat = 0 := by
        by_contra hne
        obtain ⟨j, hj⟩ : ∃ j, (e + 1).toNat = j + 1 := ⟨(e + 1).toNat - 1, by omega⟩
        rw [hj, pow_succ, show m * (2 ^ j * 2) = 2 * (m * 2 ^ j) by ring] at hS
        generalize m * 2 ^ j = K at hS
        omega
      rw [he1, pow_zero, mul_one] at hS
      have he2 : e = -1 := by omega
      subst he2
      subst hS
      cases s with
      | true =>
        have hr : Round (.finite true (2 ^ 53 - 1) (-1)) = .finite true 4503599627370496 0 := by
          decide
        rw [hr]
        simp only [Float64.toRat, Option.some.injEq, if_true]
        have hfl : ⌊(((2 ^ 53 - 1 : Nat) : ℚ)) * (2 : ℚ) ^ (-1 : Int) + 1 / 2⌋ = 4503599627370496 := by
          rw [Int.floor_eq_iff]
          norm_num
        rw [hfl]
        norm_num
      | false =>
        have hr : Round (.finite false (2 ^ 53 - 1) (-1)) = .finite false 4503599627370496 0 := by
          decide
        rw [hr]
        simp only [Float64.toRat, Option.some.injEq, Bool.false_eq_true, if_false]
        have hfl : ⌊(((2 ^ 53 - 1 : Nat) : ℚ)) * (2 : ℚ) ^ (-1 : Int) + 1 / 2⌋ = 4503599627370496 := by
          rw [Int.floor_eq_iff]
          norm_num
        rw [hfl]
        norm_num

/-- On every `float64` below `2 ^ 52` in absolute value, other than the two
next to 0.5 and -0.5 on the side of zero, `Round` gives the nearest whole
number of the value, a half going away from zero. -/
theorem Round_nearest (s : Bool) (m : Nat) (e : Int) (q : ℚ) (hm : m < 2 ^ 53)
    (hx : (Float64.finite s m e).toRat = some q) (hq : |q| < 2 ^ 52)
    (hex : |q| ≠ (2 ^ 53 - 1) / 2 ^ 54) :
    (Round (.finite s m e)).toRat = some ((roundHalfAway q : ℤ) : ℚ) := by
  have hp : (0 : ℚ) < (2 : ℚ) ^ e := zpow_pos (by norm_num) e
  have ha : (0 : ℚ) ≤ (m : ℚ) * (2 : ℚ) ^ e := mul_nonneg (Nat.cast_nonneg m) (le_of_lt hp)
  have hqa : q = (if s then -1 else 1) * ((m : ℚ) * (2 : ℚ) ^ e) := by
    simp only [Float64.toRat, Option.some.injEq] at hx
    rw [← hx]
    ring
  have habs : |q| = (m : ℚ) * (2 : ℚ) ^ e := by
    rw [hqa]
    cases s with
    | true =>
      simp only [if_true, neg_one_mul, abs_neg]
      exact abs_of_nonneg ha
    | false =>
      simp only [Bool.false_eq_true, if_false, one_mul]
      exact abs_of_nonneg ha
  have hq2 : (m : ℚ) * (2 : ℚ) ^ e < 2 ^ 52 := by rw [← habs]; exact hq
  have hex2 : ¬ (m = 2 ^ 53 - 1 ∧ e = -54) := by
    rintro ⟨h1, h2⟩
    apply hex
    rw [habs, h1, h2]
    norm_num
  by_cases h0 : m = 0
  · subst h0
    have hsame : Round (.finite s 0 e) = Round (.finite false 0 e) := by
      cases s with
      | true => simp [Round, Float64.ltZero, Float64.add, half]
      | false => rfl
    have hq0 : q = 0 := by
      rw [hqa]
      simp
    rw [hsame, Round_abs false 0 e (fun h => by cases h) hm hq2 hex2, hq0]
    simp [roundHalfAway]
  · have h : s = true → m ≠ 0 := fun _ => h0
    have hs : s = true → (0 : ℚ) < (m : ℚ) * (2 : ℚ) ^ e := by
      intro _
      have : (0 : ℚ) < (m : ℚ) := by exact_mod_cast Nat.pos_of_ne_zero h0
      exact mul_pos this hp
    rw [Round_abs s m e h hm hq2 hex2, hqa, roundHalfAway_signed s _ ha hs]

/-- Runs of `Round` where the sum `f + 0.5`, or the difference `f - 0.5`, is
rounded up to a whole number: the `float64` next below 0.5 goes to 1, the one
next above -0.5 goes to -1, and `2 ^ 52 + 1` goes to `2 ^ 52 + 2`. -/
theorem Round_rounded_sum :
    Round (.finite false 9007199254740991 (-54)) = .finite false 1 0 ∧
      Round (.finite true 9007199254740991 (-54)) = .finite true 1 0 ∧
      Round (.finite false 4503599627370497 0) = .finite false 4503599627370498 0 := by
  decide

/-- Claim C20 as stated fails. The half `-2 + 0.5`, that is -1.5, is rounded to
-2, not to -1: below zero the code rounds a half away from zero. -/
theorem Round_negative_half_not_up :
    Round (halfOf (-2)) = .finite true 2 0 ∧
      (halfOf (-2)).toRat = some (((-2 : ℤ) : ℚ) + 1 / 2) ∧
      (Float64.finite true 2 0).toRat = some (((-2 : ℤ) : ℚ)) ∧ (-2 : ℤ) ≠ -2 + 1 := by
  refine ⟨by decide, halfOf_toRat (-2), ?_, by decide⟩
  norm_num [Float64.toRat]

/-- Claim C20, as amended. `Round` rounds to the nearest whole number, a half
going away from zero. For every `float64` below `2 ^ 52` in absolute value (a
value `±m * 2 ^ e` with `m` of 53 bits) other than 0.49999999999999994 and
-0.49999999999999994, the values next to 0.5 and -0.5 on the side of zero, and
every whole number `k` less than a half away from it, `Round` gives `k`. For
every half `k + 0.5` that is a `float64`, `Round (k + 0.5)` is `k + 1` for
`k ≥ 0` and `k` for `k < 0`. -/
theorem Round_nearest_half_away (k : ℤ) :
    (∀ (s : Bool) (m : Nat) (e : Int) (q : ℚ), m < 2 ^ 53 →
        (Float64.finite s m e).toRat = some q → |q| < 2 ^ 52 →
        |q| ≠ (2 ^ 53 - 1) / 2 ^ 54 → |q - k| < 1 / 2 →
        (Round (.finite s m e)).toRat = some (k : ℚ)) ∧
      (halfOf k).toRat = some ((k : ℚ) + 1 / 2) ∧
      (0 ≤ k → k < 2 ^ 52 → (Round (halfOf k)).toRat = some (((k + 1 : ℤ)) : ℚ)) ∧
      (k < 0 → -2 ^ 52 ≤ k → (Round (halfOf k)).toRat = some (k : ℚ)) := by
  refine ⟨?_, halfOf_toRat k, ?_, ?_⟩
  · intro s m e q hm hx hq hex hk
    rw [Round_nearest s m e q hm hx hq hex, roundHalfAway_near k q hk]
  · intro h0 h1
    rw [Round_halfOf k (by omega) h1, roundHalfAway_half_nonneg k h0]
  · intro h0 h1
    rw [Round_halfOf k h1 (by omega), roundHalfAway_half_neg k h0]

/-- Witness of `Round_nearest_half_away`: 2.25, which `Round` takes to 2, and the
halves 2.5 and -2.5. -/
theorem Round_nearest_half_away_witness :
    (Round (.finite false 9 (-2))).toRat = some ((2 : ℤ) : ℚ) ∧
      (Round (halfOf 2)).toRat = some ((3 : ℤ) : ℚ) ∧
      (Round (halfOf (-3))).toRat = some ((-3 : ℤ) : ℚ) := by
  refine ⟨(Round_nearest_half_away 2).1 false 9 (-2) (9 / 4) (by norm_num) ?_ ?_ ?_ ?_,
    (Round_nearest_half_away 2).2.2.1 (by decide) (by decide),
    (Round_nearest_half_away (-3)).2.2.2 (by decide) (by decide)⟩
  · norm_num [Float64.toRat]
  · norm_num [abs_lt]
  · norm_num [abs_of_pos]
  · norm_num [abs_lt]

end mathx

/-! ## Theorems about `slicex` -/

namespace slicex

/-! ### `RemoveDuplicates` -/

theorem firstOccurrences_succ (key : Str → Str) (list : List Str) (i : Nat) :
    firstOccurrences key list (i + 1) =
      firstOccurrences key list i ++
        (if ∀ p, p < i → key (list.getD p []) ≠ key (list.getD i []) then [list.getD i []]
         else []) := by
  unfold firstOccurrences
  rw [List.range_succ, List.filter_append, List.map_append]
  congr 1
  by_cases h : ∀ p, p < i → key (list.getD p []) ≠ key (list.getD i [])
  · rw [if_pos h, List.filter_cons_of_pos (by simpa using h)]
    rfl
  · rw [if_neg h, List.filter_cons_of_neg (by simpa using h)]
    rfl

/-- The loop of `RemoveDuplicates` keeps, in front of the slice, the first
occurrences among the elements visited so far. -/
theorem removeLoop_spec (toLower : Str → Str) (cs : Bool) (orig : List Str) :
    ∀ (n i : Nat) (cur : List Str) (j : Nat) (found : List Str),
      i + n = orig.length → cur.length = orig.length → j ≤ i →
      (∀ m, i ≤ m → cur.getD m [] = orig.getD m []) →
      cur.take j = firstOccurrences (dupKey toLower cs) orig i →
      (∀ k, k ∈ found ↔ ∃ p, p < i ∧ dupKey toLower cs (orig.getD p []) = k) →
      (removeLoop toLower cs n i cur j found).1.take (removeLoop toLower cs n i cur j found).2 =
        firstOccurrences (dupKey toLower cs) orig orig.length := by
  intro n
  induction n with
  | zero =>
    intro i cur j found hi _ _ _ htake _
    have : i = orig.length := by omega
    subst this
    simpa [removeLoop] using htake
  | succ n ih =>
    intro i cur j found hi hlen hj hsuf htake hfound
    have hx : cur.getD i [] = orig.getD i [] := hsuf i (le_refl i)
    have hkey : (if cs = true then cur.getD i [] else toLower (cur.getD i [])) =
        dupKey toLower cs (orig.getD i []) := by
      rw [hx]
      rfl
    unfold removeLoop
    simp only [hkey]
    by_cases hmem : dupKey toLower cs (orig.getD i []) ∈ found
    · rw [if_pos hmem]
      apply ih (i + 1) cur j found (by omega) hlen (by omega)
      · intro m hm
        exact hsuf m (by omega)
      · rw [firstOccurrences_succ, htake]
        obtain ⟨p, hp, hpk⟩ := (hfound _).1 hmem
        rw [if_neg (fun hall => hall p hp hpk), List.append_nil]
      · intro k
        constructor
        · intro hk
          obtain ⟨p, hp, hpk⟩ := (hfound k).1 hk
          exact ⟨p, by omega, hpk⟩
        · rintro ⟨p, hp, hpk⟩
          by_cases hpi : p < i
          · exact (hfound k).2 ⟨p, hpi, hpk⟩
          · have : p = i := by omega
            subst this
            rw [← hpk]
            exact hmem
    · rw [if_neg hmem]
      have hjlt : j < cur.length := by omega
      apply ih (i + 1) (cur.set j (cur.getD i [])) (j + 1) _ (by omega)
        (by rw [List.length_set]; exact hlen) (by omega)
      · intro m hm
        rw [List.getD_eq_getElem?_getD, List.getElem?_set_ne (by omega),
          ← List.getD_eq_getElem?_getD]
        exact hsuf m (by omega)
      · rw [firstOccurrences_succ, ← htake, hx]
        have hall : ∀ p, p < i →
            dupKey toLower cs (orig.getD p []) ≠ dupKey toLower cs (orig.getD i []) :=
          fun p hp hpk => hmem ((hfound _).2 ⟨p, hp, hpk⟩)
        rw [if_pos hall, List.take_succ]
        have h1 : (cur.set j (orig.getD i [])).take j = cur.take j := by
          rw [List.set_take, List.set_eq_of_length_le (by simp)]
        have h2 : (cur.set j (orig.getD i []))[j]? = some (orig.getD i []) := by
          simp [hjlt]
        rw [h1, h2]
        rfl
      · intro k
        constructor
        · intro hk
          rcases List.mem_cons.1 hk with hk | hk
          · exact ⟨i, by omega, hk.symm⟩
          · obtain ⟨p, hp, hpk⟩ := (hfound k).1 hk
            exact ⟨p, by omega, hpk⟩
        · rintro ⟨p, hp, hpk⟩
          by_cases hpi : p < i
          · exact List.mem_cons_of_mem _ ((hfound k).2 ⟨p, hpi, hpk⟩)
          · have : p = i := by omega
            subst this
            rw [← hpk]
            exact List.mem_cons_self _ _

/-- Claim C18. After `RemoveDuplicates` the list holds exactly the first
occurrence of each distinct string, in the original order and spelling, where
two strings are the same when equal (`caseSensitive`) or equal after
`strings.ToLower` (otherwise); so `["abc", "Abc"]` becomes `["abc"]` without
case sensitivity and stays as it is with it. -/
theorem RemoveDuplicates_first_occurrences (toLower : Str → Str) (list : List Str)
    (caseSensitive : Bool) :
    RemoveDuplicates toLower list caseSensitive =
        firstOccurrences (dupKey toLower caseSensitive) list list.length ∧
      RemoveDuplicates asciiLower ["abc".toList, "Abc".toList] false = ["abc".toList] ∧
      RemoveDuplicates asciiLower ["abc".toList, "Abc".toList] true =
        ["abc".toList, "Abc".toList] := by
  refine ⟨?_, by decide, by decide⟩
  unfold RemoveDuplicates
  apply removeLoop_spec toLower caseSensitive list list.length 0 list 0 [] (by omega) rfl
    (le_refl 0) (fun _ _ => rfl)
  · rfl
  · intro k
    constructor
    · intro hk
      exact absurd hk (List.not_mem_nil k)
    · rintro ⟨p, hp, -⟩
      omega

/-! ### `Intersect` -/

theorem intersectLoop_empty_input {α : Type} [DecidableEq α] :
    ∀ (arrs : List (List α)) (tempMap : List (α × Nat)), [] ∈ arrs →
      intersectLoop arrs tempMap = .error "reflect: slice index out of range" := by
  intro arrs
  induction arrs with
  | nil =>
    intro _ h
    exact absurd h (List.not_mem_nil _)
  | cons arg rest ih =>
    intro tempMap h
    unfold intersectLoop
    by_cases hd : Distinct arg = []
    · rw [if_pos hd]
    · rw [if_neg hd]
      rcases List.mem_cons.1 h with h | h
      · subst h
        exact absurd rfl hd
      · exact ih _ h

/-- Claim C19 fails on the code. When one of the input slices is empty,
`Intersect` does not return an empty slice: it panics, on `tempArr.Index(0)` of
the empty result of `Distinct`. -/
theorem Intersect_empty_input_panics {α : Type} [DecidableEq α] (arrs : List (List α))
    (h : [] ∈ arrs) : Intersect arrs = .panic "reflect: slice index out of range" := by
  unfold Intersect
  rw [intersectLoop_empty_input arrs [] h]

/-- Witness of `Intersect_empty_input_panics`: the slices `[1, 2, 3]` and `[]`
of integers. -/
theorem Intersect_empty_input_panics_witness :
    Intersect [[1, 2, 3], ([] : List Int)] = .panic "reflect: slice index out of range" :=
  Intersect_empty_input_panics [[1, 2, 3], []] (by decide)

end slicex

/-! ## Theorems about `sortx` -/

namespace sortx

theorem store_eq {α : Type} (arr : List α) (i : Nat) (v : α) (h : i < arr.length) :
    store arr i v = some (arr.set i v) := by
  unfold store
  rw [if_pos h]

/-- The first inner loop returns: `high` stops at `low`, or above it on an
element below the key, which is then copied to `low`; the elements it went
past are not below the key. -/
theorem scanDown_spec {α : Type} [LinearOrder α] (key : α) (arr : List α) (low : Nat) :
    ∀ high, low ≤ high → high < arr.length →
      ∃ high1, low ≤ high1 ∧ high1 ≤ high ∧
        (∀ i y, high1 < i → i ≤ high → arr[i]? = some y → key ≤ y) ∧
        ((high1 = low ∧ scanDown key arr low high = some (arr, high1)) ∨
          (low < high1 ∧ ∃ x, arr[high1]? = some x ∧ x < key ∧
            scanDown key arr low high = some (arr.set low x, high1))) := by
  intro high
  induction high with
  | zero =>
    intro h0 _
    have hl : low = 0 := by omega
    subst hl
    exact ⟨0, le_refl _, le_refl _, fun i y h1 h2 => by omega, Or.inl ⟨rfl, rfl⟩⟩
  | succ high ih =>
    intro hle hlen
    by_cases hlt : low < high + 1
    · have hx : arr[high + 1]? = some arr[high + 1] := List.getElem?_eq_getElem hlen
      by_cases hk : arr[high + 1] < key
      · refine ⟨high + 1, hle, le_refl _, fun i y h1 h2 => by omega, Or.inr ⟨hlt, _, hx, hk, ?_⟩⟩
        unfold scanDown
        rw [if_pos hlt, hx]
        simp only [if_pos hk]
        rw [store_eq arr low _ (by omega)]
        rfl
      · obtain ⟨h1, hl1, hh1, hpast, hres⟩ := ih (by omega) (by omega)
        have hrec : scanDown key arr low (high + 1) = scanDown key arr low high := by
          conv_lhs => unfold scanDown
          rw [if_pos hlt, hx]
          simp only [if_neg hk]
        refine ⟨h1, hl1, by omega, ?_, ?_⟩
        · intro i y hi1 hi2 hy
          by_cases hi : i = high + 1
          · subst hi
            rw [hx] at hy
            cases hy
            exact not_lt.1 hk
          · exact hpast i y hi1 (by omega) hy
        · rw [hrec]
          exact hres
    · have hl : low = high + 1 := by omega
      refine ⟨high + 1, hle, le_refl _, fun i y h1 h2 => by omega, Or.inl ⟨hl.symm, ?_⟩⟩
      unfold scanDown
      rw [if_neg hlt]

/-- The second inner loop returns: `low` stops at `high`, or below it on an
element above the key, which is then copied to `high`; the elements it went
past are not above the key. -/
theorem scanUp_spec {α : Type} [LinearOrder α] (key : α) (arr : List α) (high : Nat)
    (hlen : high < arr.length) :
    ∀ d low, low ≤ high → high - low ≤ d →
      ∃ low1, low ≤ low1 ∧ low1 ≤ high ∧
        (∀ i y, low ≤ i → i < low1 → arr[i]? = some y → y ≤ key) ∧
        ((low1 = high ∧ scanUp key arr high d low = some (arr, low1)) ∨
          (low1 < high ∧ ∃ x, arr[low1]? = some x ∧ key < x ∧
            scanUp key arr high d low = some (arr.set high x, low1))) := by
  intro d
  induction d with
  | zero =>
    intro low hle hd
    have hl : low = high := by omega
    subst hl
    exact ⟨low, le_refl _, le_refl _, fun i y h1 h2 => by omega, Or.inl ⟨rfl, rfl⟩⟩
  | succ d ih =>
    intro low hle hd
    by_cases hlt : low < high
    · have hx : arr[low]? = some arr[low] := List.getElem?_eq_getElem (by omega)
      by_cases hk : arr[low] > key
      · refine ⟨low, le_refl _, hle, fun i y h1 h2 => by omega, Or.inr ⟨hlt, _, hx, hk, ?_⟩⟩
        unfold scanUp
        rw [if_pos hlt, hx]
        simp only [if_pos hk]
        rw [store_eq arr high _ hlen]
        rfl
      · obtain ⟨l1, hl1, hh1, hpast, hres⟩ := ih (low + 1) (by omega) (by omega)
        have hrec : scanUp key arr high (d + 1) low = scanUp key arr high d (low + 1) := by
          conv_lhs => unfold scanUp
          rw [if_pos hlt, hx]
          simp only [if_neg hk]
        refine ⟨l1, by omega, hh1, ?_, ?_⟩
        · intro i y hi1 hi2 hy
          by_cases hi : i = low
          · subst hi
            rw [hx] at hy
            cases hy
            exact not_lt.1 hk
          · exact hpast i y (by omega) hi2 hy
        · rw [hrec]
          exact hres
    · have hl : low = high := by omega
      refine ⟨low, le_refl _, hle, fun i y h1 h2 => by omega, Or.inl ⟨hl, ?_⟩⟩
      unfold scanUp
      rw [if_neg hlt]


theorem Frame.refl {α : Type} (arr : List α) (s t : Nat) : Frame arr s t arr :=
  ⟨rfl, fun _ _ => rfl, fun i y h1 h2 h => ⟨i, h1, h2, h⟩⟩

theorem Frame.trans {α : Type} {a b c : List α} {s t s1 t1 : Nat} (hab : Frame a s t b)
    (hbc : Frame b s1 t1 c) (hs : s ≤ s1) (ht : t1 ≤ t) : Frame a s t c := by
  refine ⟨hbc.len.trans hab.len, ?_, ?_⟩
  · intro i hi
    rw [hbc.outside i (by omega), hab.outside i hi]
  · intro i y h1 h2 hy
    by_cases hin : s1 ≤ i ∧ i < t1
    · obtain ⟨j, hj1, hj2, hj⟩ := hbc.inside i y hin.1 hin.2 hy
      exact hab.inside j y (by omega) (by omega) hj
    · rw [hbc.outside i (by omega)] at hy
      exact hab.inside i y h1 h2 hy

/-- Writing into the range a value of the range keeps the frame. -/
theorem Frame.set {α : Type} {orig arr : List α} {s t : Nat} (h : Frame orig s t arr)
    (i : Nat) (v : α) (h1 : s ≤ i) (h2 : i < t)
    (hv : ∃ j, s ≤ j ∧ j < t ∧ orig[j]? = some v) : Frame orig s t (arr.set i v) := by
  refine ⟨by rw [List.length_set, h.len], ?_, ?_⟩
  · intro k hk
    rw [List.getElem?_set_ne (by omega)]
    exact h.outside k hk
  · intro k y hk1 hk2 hy
    by_cases hki : i = k
    · subst hki
      rw [List.getElem?_set] at hy
      simp only [if_true] at hy
      split at hy
      · cases hy
        exact hv
      · cases hy
    · rw [List.getElem?_set_ne hki] at hy
      exact h.inside k y hk1 hk2 hy

/-- Putting `h` where `v` was and `v` in front rearranges the list with `h` in
front. -/
theorem perm_set_cons {α : Type} (h : α) : ∀ (t : List α) (b : Nat) (v : α),
    t[b]? = some v → (v :: t.set b h).Perm (h :: t) := by
  intro t
  induction t with
  | nil =>
    intro b v hv
    simp at hv
  | cons x t ih =>
    intro b v hv
    cases b with
    | zero =>
      simp only [List.getElem?_cons_zero, Option.some.injEq] at hv
      subst hv
      exact List.Perm.swap _ _ _
    | succ b =>
      simp only [List.getElem?_cons_succ] at hv
      rw [List.set_cons_succ]
      exact (List.Perm.swap _ _ _).trans
        (((ih b v hv).cons x).trans (List.Perm.swap _ _ _))

/-- Exchanging the elements at two indices rearranges the list. -/
theorem perm_swap_set {α : Type} : ∀ (l : List α) (a b : Nat) (u v : α),
    l[a]? = some u → l[b]? = some v → a ≠ b → ((l.set a v).set b u).Perm l := by
  intro l
  induction l with
  | nil =>
    intro a b u v ha
    simp at ha
  | cons x t ih =>
    intro a b u v ha hb hab
    cases a with
    | zero =>
      cases b with
      | zero => exact absurd rfl hab
      | succ b =>
        simp only [List.getElem?_cons_zero, Option.some.injEq] at ha
        simp only [List.getElem?_cons_succ] at hb
        subst ha
        rw [List.set_cons_zero, List.set_cons_succ]
        exact perm_set_cons x t b v hb
    | succ a =>
      cases b with
      | zero =>
        simp only [List.getElem?_cons_zero, Option.some.injEq] at hb
        simp only [List.getElem?_cons_succ] at ha
        subst hb
        rw [List.set_cons_succ, List.set_cons_zero]
        exact perm_set_cons x t a u ha
      | succ b =>
        simp only [List.getElem?_cons_succ] at ha hb
        rw [List.set_cons_succ, List.set_cons_succ]
        exact (ih a b u v ha hb (fun h => hab (by rw [h]))).cons x

/-- Writing an element where it is leaves the list. -/
theorem set_self {α : Type} : ∀ (l : List α) (i : Nat) (x : α), l[i]? = some x → l.set i x = l := by
  intro l
  induction l with
  | nil =>
    intro i x h
    simp at h
  | cons y t ih =>
    intro i x h
    cases i with
    | zero =>
      simp only [List.getElem?_cons_zero, Option.some.injEq] at h
      rw [List.set_cons_zero, h]
    | succ i =>
      simp only [List.getElem?_cons_succ] at h
      rw [List.set_cons_succ, ih i x h]

/-- The loop of `QSortT` returns within `high - low + 1` passes, with `low` and
`high` equal, the key at that index, the elements left of it not above the key
and the elements right of it not below, the slice a rearrangement of the slice
the loop began with. -/
theorem partition_spec {α : Type} [LinearOrder α] (orig : List α) (key : α) (s t : Nat)
    (hkey : ∃ j, s ≤ j ∧ j < t ∧ orig[j]? = some key) :
    ∀ fuel arr low high, Inv orig key s t arr low high → high - low < fuel →
      ∃ arr1 p, partition key fuel arr low high = .ret (arr1, p, p) ∧
        Inv orig key s t arr1 p p ∧ arr1[p]? = some key ∧ arr1.Perm orig := by
  intro fuel
  induction fuel with
  | zero =>
    intro arr low high _ h
    omega
  | succ fuel ih =>
    intro arr low high inv hfuel
    have hlen : arr.length = orig.length := inv.frame.len
    have hhigh : high < arr.length := by
      have := inv.hi
      have := inv.bound
      omega
    obtain ⟨high1, hl1, hh1, hpast, hdown⟩ := scanDown_spec key arr low high inv.mid hhigh
    rcases hdown with ⟨heq, hdown⟩ | ⟨hlt, x, hx, hxk, hdown⟩
    · -- the first loop ran down to `low`
      subst heq
      have hup : scanUp key arr high1 (high1 - high1) high1 = some (arr, high1) := by
        rw [Nat.sub_self]
        rfl
      refine ⟨arr.set high1 key, high1, ?_, ?_, ?_, inv.perm⟩
      · unfold partition
        rw [hdown]
        simp only []
        rw [hup]
        simp only [ge_iff_le, le_refl, if_true]
        rw [store_eq arr high1 key (by omega)]
      · refine ⟨inv.frame.set high1 key inv.lo (by have := inv.hi; omega) hkey, inv.lo,
          le_refl _, by have := inv.hi; omega, inv.bound, ?_, ?_,
          by rw [List.set_set]; exact inv.perm⟩
        · intro i y h1 h2 hy
          rw [List.getElem?_set_ne (by omega)] at hy
          exact inv.left i y h1 h2 hy
        · intro i y h1 h2 hy
          rw [List.getElem?_set_ne (by omega)] at hy
          by_cases hi : i ≤ high
          · exact hpast i y h1 hi hy
          · exact inv.right i y (by omega) h2 hy
      · exact List.getElem?_set_self (by omega)
    · -- the first loop stopped at `high1` on an element below the key
      have hx1 : ∃ j, s ≤ j ∧ j < t ∧ orig[j]? = some x :=
        inv.frame.inside high1 x (by have := inv.lo; omega) (by have := inv.hi; omega) hx
      have hf1 : Frame orig s t (arr.set low x) :=
        inv.frame.set low x inv.lo (by have := inv.hi; omega) hx1
      have hlow1 : (arr.set low x)[low]? = some x := List.getElem?_set_self (by omega)
      have hperm1 : ((arr.set low x).set high1 key).Perm orig := by
        have h := perm_swap_set (arr.set low key) low high1 key x
          (List.getElem?_set_self (by omega))
          (by rw [List.getElem?_set_ne (by omega)]; exact hx) (by omega)
        rw [List.set_set] at h
        exact h.trans inv.perm
      obtain ⟨low1, hll, hlh, hpast1, hup⟩ :=
        scanUp_spec key (arr.set low x) high1 (by rw [List.length_set]; omega)
          (high1 - low) low hl1 (le_refl _)
      rcases hup with ⟨heq, hup⟩ | ⟨hlt1, x2, hx2, hxk2, hup⟩
      · -- the second loop ran up to `high1`
        subst heq
        refine ⟨(arr.set low x).set low1 key, low1, ?_, ?_, ?_, hperm1⟩
        · unfold partition
          rw [hdown]
          simp only []
          rw [hup]
          simp only [ge_iff_le, le_refl, if_true]
          rw [store_eq _ low1 key (by rw [List.length_set]; omega)]
        · refine ⟨hf1.set low1 key (by have := inv.lo; omega) (by have := inv.hi; omega) hkey,
            by have := inv.lo; omega, le_refl _, by have := inv.hi; omega, inv.bound, ?_, ?_,
            by rw [List.set_set]; exact hperm1⟩
          · intro i y h1 h2 hy
            rw [List.getElem?_set_ne (by omega)] at hy
            by_cases hi : low ≤ i
            · exact hpast1 i y hi h2 hy
            · rw [List.getElem?_set_ne (by omega)] at hy
              exact inv.left i y h1 (by omega) hy
          · intro i y h1 h2 hy
            rw [List.getElem?_set_ne (by omega), List.getElem?_set_ne (by omega)] at hy
            by_cases hi : i ≤ high
            · exact hpast i y h1 hi hy
            · exact inv.right i y (by omega) h2 hy
        · exact List.getElem?_set_self (by rw [List.length_set]; omega)
      · -- the second loop stopped at `low1` on an element above the key
        have hne : low1 ≠ low := by
          intro h
          rw [h, hlow1] at hx2
          cases hx2
          exact absurd hxk (not_lt.2 (le_of_lt hxk2))
        have hx2a : arr[low1]? = some x2 := by
          rw [List.getElem?_set_ne (by omega)] at hx2
          exact hx2
        have hx2o : ∃ j, s ≤ j ∧ j < t ∧ orig[j]? = some x2 :=
          inv.frame.inside low1 x2 (by have := inv.lo; omega) (by have := inv.hi; omega) hx2a
        have inv2 : Inv orig key s t ((arr.set low x).set high1 x2) low1 high1 := by
          have hperm2 : (((arr.set low x).set high1 x2).set low1 key).Perm orig := by
            have h := perm_swap_set ((arr.set low x).set high1 key) high1 low1 key x2
              (List.getElem?_set_self (by rw [List.length_set]; omega))
              (by rw [List.getElem?_set_ne (by omega)]; exact hx2) (by omega)
            rw [List.set_set] at h
            exact h.trans hperm1
          refine ⟨hf1.set high1 x2 (by have := inv.lo; omega) (by have := inv.hi; omega) hx2o,
            by have := inv.lo; omega, le_of_lt hlt1, by have := inv.hi; omega, inv.bound, ?_, ?_,
            hperm2⟩
          · intro i y h1 h2 hy
            rw [List.getElem?_set_ne (by omega)] at hy
            by_cases hi : low ≤ i
            · exact hpast1 i y hi h2 hy
            · rw [List.getElem?_set_ne (by omega)] at hy
              exact inv.left i y h1 (by omega) hy
          · intro i y h1 h2 hy
            rw [List.getElem?_set_ne (by omega), List.getElem?_set_ne (by omega)] at hy
            by_cases hi : i ≤ high
            · exact hpast i y h1 hi hy
            · exact inv.right i y (by omega) h2 hy
        obtain ⟨arr1, p, hres, hinv, hp, hperm⟩ := ih _ low1 high1 inv2 (by omega)
        refine ⟨arr1, p, ?_, hinv, hp, hperm⟩
        unfold partition
        rw [hdown]
        simp only []
        rw [hup]
        simp only [ge_iff_le]
        rw [if_neg (by omega)]
        exact hres

/-- The call `QSortT(arr, start, end)` on a range inside the slice returns when
`fuel` is above the length of the range, and leaves the range sorted, with the
values it had in another order, and the rest of the slice as it was. -/
theorem QSortRange_spec {α : Type} [LinearOrder α] :
    ∀ fuel (arr : List α) start end_, start ≤ end_ → end_ < arr.length → end_ - start < fuel →
      ∃ out, QSortRange fuel arr start end_ = .ret out ∧ Frame arr start (end_ + 1) out ∧
        SortedOn out start (end_ + 1) ∧ out.Perm arr := by
  intro fuel
  induction fuel with
  | zero =>
    intro arr s e _ _ h
    omega
  | succ fuel ih =>
    intro arr s e hse hlen hfuel
    have hkey : arr[s]? = some arr[s] := List.getElem?_eq_getElem (by omega)
    obtain ⟨arr1, p, hpart, inv, hp, hperm1⟩ :=
      partition_spec arr arr[s] s (e + 1) ⟨s, le_refl _, by omega, hkey⟩ (fuel + 1) arr s e
        ⟨Frame.refl _ _ _, le_refl _, hse, by omega, by omega,
          fun i y h1 h2 => by omega, fun i y h1 h2 => by omega,
          by rw [set_self arr s _ hkey]⟩ hfuel
    have hsp : s ≤ p := inv.lo
    have hpe : p ≤ e := by have := inv.hi; omega
    have hlen1 : arr1.length = arr.length := inv.frame.len
    -- the call on the left part
    have hleft : ∃ out2,
        (if p - 1 > s then QSortRange fuel arr1 s (p - 1) else .ret arr1) = .ret out2 ∧
          Frame arr1 s p out2 ∧ SortedOn out2 s p ∧ out2.Perm arr1 := by
      by_cases hc : p - 1 > s
      · rw [if_pos hc]
        obtain ⟨out2, h1, h2, h3, h4⟩ := ih arr1 s (p - 1) (by omega) (by omega) (by omega)
        have hpp : p - 1 + 1 = p := by omega
        rw [hpp] at h2 h3
        exact ⟨out2, h1, h2, h3, h4⟩
      · rw [if_neg hc]
        exact ⟨arr1, rfl, Frame.refl _ _ _, fun i x _ h1 h2 => by omega, List.Perm.refl _⟩
    obtain ⟨out2, hcall2, hf2, hs2, hperm2⟩ := hleft
    have hlen2 : out2.length = arr1.length := hf2.len
    -- the call on the right part
    have hright : ∃ out3,
        (if p + 1 < e then QSortRange fuel out2 (p + 1) e else .ret out2) = .ret out3 ∧
          Frame out2 (p + 1) (e + 1) out3 ∧ SortedOn out3 (p + 1) (e + 1) ∧
          out3.Perm out2 := by
      by_cases hc : p + 1 < e
      · rw [if_pos hc]
        exact ih out2 (p + 1) e (by omega) (by omega) (by omega)
      · rw [if_neg hc]
        exact ⟨out2, rfl, Frame.refl _ _ _, fun i x y h1 h2 => by omega, List.Perm.refl _⟩
    obtain ⟨out3, hcall3, hf3, hs3, hperm3⟩ := hright
    refine ⟨out3, ?_, ?_, ?_, (hperm3.trans hperm2).trans hperm1⟩
    · unfold QSortRange
      rw [hkey]
      simp only []
      rw [hpart]
      simp only []
      rw [hcall2]
      simp only []
      exact hcall3
    · exact (inv.frame.trans hf2 (le_refl _) (by omega)).trans hf3 (by omega) (le_refl _)
    · intro i x y h1 h2 hx hy
      have hkp : out3[p]? = some arr[s] := by
        rw [hf3.outside p (by omega), hf2.outside p (by omega)]
        exact hp
      have hsmall : ∀ k z, s ≤ k → k < p → out3[k]? = some z → z ≤ arr[s] := by
        intro k z hk1 hk2 hz
        rw [hf3.outside k (by omega)] at hz
        obtain ⟨j, hj1, hj2, hj⟩ := hf2.inside k z hk1 hk2 hz
        exact inv.left j z hj1 hj2 hj
      have hbig : ∀ k z, p < k → k < e + 1 → out3[k]? = some z → arr[s] ≤ z := by
        intro k z hk1 hk2 hz
        obtain ⟨j, hj1, hj2, hj⟩ := hf3.inside k z (by omega) hk2 hz
        rw [hf2.outside j (by omega)] at hj
        exact inv.right j z (by omega) hj2 hj
      by_cases hip : i + 1 < p
      · rw [hf3.outside i (by omega)] at hx
        rw [hf3.outside (i + 1) (by omega)] at hy
        exact hs2 i x y h1 hip hx hy
      · by_cases hip2 : i + 1 = p
        · rw [hip2, hkp] at hy
          cases hy
          exact hsmall i x h1 (by omega) hx
        · by_cases hip3 : i = p
          · rw [hip3, hkp] at hx
            cases hx
            exact hbig (i + 1) y (by omega) (by omega) hy
          · exact hs3 i x y (by omega) h2 hx hy

/-- A run of the model: `QSortT` on `[3, 1, 2, 5, 4]`, and on the empty slice,
where `_arr[start]` panics. -/
theorem QSortT_example :
    QSortT 5 ([3, 1, 2, 5, 4] : List Int) = .ret [1, 2, 3, 4, 5] ∧
      QSortT 5 ([] : List Int) = .panic "index out of range" := by
  decide

/-- Claim C17. On every non-empty slice of a linearly ordered element type (as
`int`, `uint64` and `string` are), `QSortT(arr)` returns, when the nested calls
and the passes of its loops are not cut short before the length of the slice,
and leaves the slice sorted from small to large: the slice after the call is a
rearrangement of the slice before it, the same elements each as many times,
with `arr[i] <= arr[i+1]` for every adjacent pair. -/
theorem QSortT_sorts {α : Type} [LinearOrder α] (arr : List α) (fuel : Nat) (hne : arr ≠ [])
    (hfuel : arr.length ≤ fuel) :
    ∃ out, QSortT fuel arr = .ret out ∧ out.Perm arr ∧ out.length = arr.length ∧
      (∀ i x y, out[i]? = some x → out[i + 1]? = some y → x ≤ y) ∧
      List.Sorted (fun a b => a ≤ b) out := by
  have hpos : 0 < arr.length := List.length_pos.2 hne
  obtain ⟨out, hres, hf, hs, hperm⟩ :=
    QSortRange_spec fuel arr 0 (arr.length - 1) (Nat.zero_le _) (by omega) (by omega)
  have hlen : out.length = arr.length := hf.len
  have hadj : ∀ i x y, out[i]? = some x → out[i + 1]? = some y → x ≤ y := by
    intro i x y hx hy
    have hi : i + 1 < out.length := by
      by_contra hc
      rw [List.getElem?_eq_none (by omega)] at hy
      cases hy
    exact hs i x y (Nat.zero_le _) (by omega) hx hy
  refine ⟨out, hres, hperm, hlen, hadj, ?_⟩
  rw [List.Sorted, ← List.chain'_iff_pairwise, List.chain'_iff_get]
  intro i hi
  exact hadj i _ _ (List.getElem?_eq_getElem (by omega)) (List.getElem?_eq_getElem (by omega))

/-- Witness of `QSortT_sorts`: the slice `[3, 1, 2]` of integers. -/
theorem QSortT_sorts_witness :
    ([3, 1, 2] : List Int) ≠ [] ∧ ([3, 1, 2] : List Int).length ≤ 3 ∧
      ∃ out, QSortT 3 ([3, 1, 2] : List Int) = .ret out ∧ out.Perm [3, 1, 2] ∧ out.length = 3 ∧
        (∀ i x y, out[i]? = some x → out[i + 1]? = some y → x ≤ y) ∧
        List.Sorted (fun a b => a ≤ b) out :=
  ⟨by decide, by decide, QSortT_sorts [3, 1, 2] 3 (by decide) (by decide)⟩

end sortx

/-! ## Theorems about `mathx`: `DivideCeil` -/

namespace mathx

/-- Runs of the model on small operands, where the quotient is exact or its
rounding stays on the same side of the whole numbers. -/
theorem DivideCeil_small :
    DivideCeil 7 2 = some 4 ∧ DivideCeil 10 5 = some 2 ∧ DivideCeil 0 5 = some 0 ∧
      DivideCeil 1 3 = some 1 ∧ ofInt64 7 = .finite false 7881299347898368 (-50) := by
  decide

/-- Claim C21 fails on the code. The count `2 ^ 53 + 1` is not a `float64`: the
conversion rounds it to `2 ^ 53`, and `DivideCeil` with the page size 1 returns
`2 ^ 53`, which is below the count, so it is not the ceiling of the quotient;
with the page size 2 it returns `2 ^ 52`, where the ceiling is `2 ^ 52 + 1`. -/
theorem DivideCeil_loses_precision :
    ofInt64 9007199254740993 = .finite false 4503599627370496 1 ∧
      DivideCeil 9007199254740993 1 = some 9007199254740992 ∧
      ¬ ((9007199254740993 : Int) ≤ 9007199254740992 * 1) ∧
      DivideCeil 9007199254740993 2 = some 4503599627370496 ∧
      ¬ ((9007199254740993 : Int) ≤ 4503599627370496 * 2) := by
  decide

end mathx

/-! ## Theorems about `timex` and `monthx` -/

namespace timex

/-- The test of `isLeap` is the leap year rule of the Gregorian calendar. -/
theorem isLeap_iff (year : Int) :
    isLeap year = true ↔ 4 ∣ year ∧ (¬ 100 ∣ year ∨ 400 ∣ year) := by
  have h : ∀ k : Int, year.tmod k = 0 ↔ k ∣ year := fun k =>
    ⟨Int.dvd_of_tmod_eq_zero, Int.tmod_eq_zero_of_dvd⟩
  unfold isLeap
  simp only [Bool.and_eq_true, Bool.or_eq_true, beq_iff_eq, bne_iff_ne, ne_eq, h]

/-- The months other than February, as `lastDayOfMonth` counts them. -/
theorem lastDayOfMonth_table (year : Int) :
    lastDayOfMonth year 1 = 31 ∧ lastDayOfMonth year 3 = 31 ∧ lastDayOfMonth year 4 = 30 ∧
      lastDayOfMonth year 5 = 31 ∧ lastDayOfMonth year 6 = 30 ∧ lastDayOfMonth year 7 = 31 ∧
      lastDayOfMonth year 8 = 31 ∧ lastDayOfMonth year 9 = 30 ∧ lastDayOfMonth year 10 = 31 ∧
      lastDayOfMonth year 11 = 30 ∧ lastDayOfMonth year 12 = 31 := by
  refine ⟨?_, ?_, ?_, ?_, ?_, ?_, ?_, ?_, ?_, ?_, ?_⟩ <;> rfl

theorem lastDayOfMonth_eq (year month : Int) (h1 : 1 ≤ month) (h12 : month ≤ 12) :
    lastDayOfMonth year month = gregorianDays year month := by
  obtain ⟨t1, t3, t4, t5, t6, t7, t8, t9, t10, t11, t12⟩ := lastDayOfMonth_table year
  have hcases : month = 1 ∨ month = 2 ∨ month = 3 ∨ month = 4 ∨ month = 5 ∨ month = 6 ∨
      month = 7 ∨ month = 8 ∨ month = 9 ∨ month = 10 ∨ month = 11 ∨ month = 12 := by omega
  rcases hcases with h | h | h | h | h | h | h | h | h | h | h | h <;> subst h
  case inr.inl =>
    unfold lastDayOfMonth gregorianDays
    by_cases hl : isLeap year = true
    · have := (isLeap_iff year).1 hl
      simp [hl, this]
    · have hn : ¬ (4 ∣ year ∧ (¬ 100 ∣ year ∨ 400 ∣ year)) := fun h => hl ((isLeap_iff year).2 h)
      simp only [Bool.not_eq_true] at hl
      rw [if_neg hn]
      simp [hl]
  all_goals simp [gregorianDays, *]

end timex

namespace monthx

/-- Claim C24. For every year and every month from 1 to 12, `LastDayOfMonth`
and `Month.LastDay` return the number of days of the month in the Gregorian
calendar: 31 for the months 1, 3, 5, 7, 8, 10, 12, 30 for the months 4, 6, 9,
11, and for February 29 when the year is divisible by 4 and not by 100, or by
400, else 28. -/
theorem LastDay_gregorian (year month : Int) (h1 : 1 ≤ month) (h12 : month ≤ 12) :
    timex.LastDayOfMonth year month = timex.gregorianDays year month ∧
      Month.LastDay month year = timex.gregorianDays year month :=
  ⟨timex.lastDayOfMonth_eq year month h1 h12, timex.lastDayOfMonth_eq year month h1 h12⟩

/-- Witness of `LastDay_gregorian`: February of 1900, which is not a leap
year. -/
theorem LastDay_gregorian_witness :
    (1 : Int) ≤ 2 ∧ (2 : Int) ≤ 12 ∧
      timex.LastDayOfMonth 1900 2 = timex.gregorianDays 1900 2 ∧
      Month.LastDay 2 1900 = timex.gregorianDays 1900 2 :=
  ⟨by decide, by decide, LastDay_gregorian 1900 2 (by decide) (by decide)⟩

end monthx

/-! ### The function `time.Date` and `EndOfMonth` -/

namespace time

theorem daysIn_bounds (year month : Int) : 28 ≤ daysIn year month ∧ daysIn year month ≤ 31 := by
  unfold daysIn
  split_ifs <;> omega

/-- The fuel `normDay` is given by `Date` is enough: the day it returns is a day
of the month it returns. -/
theorem normDay_range : ∀ (n : Nat) (year month day : Int), 1 ≤ month → month ≤ 12 →
    1 - 28 * (n : Int) ≤ day → day ≤ daysIn year month + 28 * (n : Int) →
    1 ≤ (normDay n year month day).2.1 ∧ (normDay n year month day).2.1 ≤ 12 ∧
      1 ≤ (normDay n year month day).2.2 ∧
      (normDay n year month day).2.2 ≤
        daysIn (normDay n year month day).1 (normDay n year month day).2.1 := by
  intro n
  induction n with
  | zero =>
    intro year month day h1 h12 hlo hhi
    simp only [normDay]
    simp only [Nat.cast_zero, mul_zero, sub_zero, add_zero] at hlo hhi
    exact ⟨h1, h12, hlo, hhi⟩
  | succ n ih =>
    intro year month day h1 h12 hlo hhi
    unfold normDay
    push_cast at hlo hhi
    by_cases hd : day < 1
    · rw [if_pos hd]
      have hb := daysIn_bounds (if month = 1 then year - 1 else year)
        (if month = 1 then 12 else month - 1)
      exact ih _ _ _ (by split_ifs <;> omega) (by split_ifs <;> omega) (by omega) (by omega)
    · rw [if_neg hd]
      by_cases hu : daysIn year month < day
      · rw [if_pos hu]
        have hb := daysIn_bounds (if month = 12 then year + 1 else year)
          (if month = 12 then 1 else month + 1)
        have hb2 := daysIn_bounds year month
        exact ih _ _ _ (by split_ifs <;> omega) (by split_ifs <;> omega) (by omega) (by omega)
      · rw [if_neg hu]
        exact ⟨h1, h12, not_lt.1 hd, not_lt.1 hu⟩

/-- The normalization of `time.Date` gives a date of the calendar: a month from
1 to 12 and a day of that month. -/
theorem normalize_range (year month day hour min sec nsec : Int) :
    1 ≤ (normalize year month day hour min sec nsec).month ∧
      (normalize year month day hour min sec nsec).month ≤ 12 ∧
      1 ≤ (normalize year month day hour min sec nsec).day ∧
      (normalize year month day hour min sec nsec).day ≤
        daysIn (normalize year month day hour min sec nsec).year
          (normalize year month day hour min sec nsec).month := by
  have hb := daysIn_bounds
  unfold normalize
  simp only []
  apply normDay_range
  · unfold norm
    simp only []
    omega
  · unfold norm
    simp only []
    omega
  · generalize (norm day (norm hour (norm min (norm sec nsec 1000000000).1 60).1 60).1 24).1 = d
    simp only [Nat.cast_add, Nat.cast_one]
    rcases Int.natAbs_eq d with h | h <;> omega
  · generalize (norm day (norm hour (norm min (norm sec nsec 1000000000).1 60).1 60).1 24).1 = d
    have := hb (norm year (month - 1) 12).1 ((norm year (month - 1) 12).2 + 1)
    simp only [Nat.cast_add, Nat.cast_one]
    rcases Int.natAbs_eq d with h | h <;> omega

/-- The test of `isLeap` is the leap year rule of the Gregorian calendar. -/
theorem isLeap_gregorian (year : Int) :
    isLeap year = true ↔ 4 ∣ year ∧ (¬ 100 ∣ year ∨ 400 ∣ year) := by
  unfold isLeap
  simp only [Bool.and_eq_true, Bool.or_eq_true, beq_iff_eq, bne_iff_ne, ne_eq,
    ← Int.dvd_iff_emod_eq_zero]

/-- The days of a month as the package counts them are those of the Gregorian
calendar. -/
theorem daysIn_eq (year month : Int) (h1 : 1 ≤ month) (h12 : month ≤ 12) :
    daysIn year month = timex.gregorianDays year month := by
  have hcases : month = 1 ∨ month = 2 ∨ month = 3 ∨ month = 4 ∨ month = 5 ∨ month = 6 ∨
      month = 7 ∨ month = 8 ∨ month = 9 ∨ month = 10 ∨ month = 11 ∨ month = 12 := by omega
  rcases hcases with h | h | h | h | h | h | h | h | h | h | h | h <;> subst h
  case inr.inl =>
    unfold daysIn timex.gregorianDays
    by_cases hl : isLeap year = true
    · have := (isLeap_gregorian year).1 hl
      simp [hl, this]
    · have hn : ¬ (4 ∣ year ∧ (¬ 100 ∣ year ∨ 400 ∣ year)) := fun h => hl ((isLeap_gregorian year).2 h)
      simp only [Bool.not_eq_true] at hl
      rw [if_neg hn]
      simp [hl]
  all_goals simp [daysIn, timex.gregorianDays]

/-- The reading that `time.Date(year, month+1, 0, 0, 0, 0, 0, loc)` asks for, for
a month from 1 to 12: midnight of the last day of the month, in the same
year. -/
theorem normalize_day_zero (year month : Int) (h1 : 1 ≤ month) (h12 : month ≤ 12) :
    normalize year (month + 1) 0 0 0 0 0 =
      { year := year, month := month, day := daysIn year month, hour := 0, min := 0, sec := 0,
        nsec := 0 } := by
  have hcases : month = 1 ∨ month = 2 ∨ month = 3 ∨ month = 4 ∨ month = 5 ∨ month = 6 ∨
      month = 7 ∨ month = 8 ∨ month = 9 ∨ month = 10 ∨ month = 11 ∨ month = 12 := by omega
  rcases hcases with h | h | h | h | h | h | h | h | h | h | h | h <;> subst h <;>
    simp [normalize, norm, normDay]

end time

namespace monthx

/-- Claim C25 as stated fails. In a location whose clocks are put forward at
midnight of the last day of a month, that midnight is not a reading of the
location, and `EndOfMonth` is not at 00:00: for 15 March 2019 in "Asia/Beirut"
it is 31 March 2019 at 01:00. -/
theorem EndOfMonth_not_midnight :
    (EndOfMonth { clock := ⟨2019, 3, 15, 12, 0, 0, 0⟩, loc := time.beirut2019 }).clock =
        ⟨2019, 3, 31, 1, 0, 0, 0⟩ ∧
      (EndOfMonth { clock := ⟨2019, 3, 15, 12, 0, 0, 0⟩, loc := time.beirut2019 }).clock.hour
        ≠ 0 := by
  decide

/-- Claim C25, as amended. For every date whose location does not skip midnight
of the last day of the month of the date, `EndOfMonth` is that midnight, in the
location of the date: the year and the month are those of the date, and the day
is the number of days of the month, 29 for February of a leap year, with
December staying in its year; in UTC 2016-11-01 gives 2016-11-30, 2012-02-01
gives 2012-02-29 and 2016-12-31 gives 2016-12-31. -/
theorem EndOfMonth_last_day (date : time.Time) (h1 : 1 ≤ date.Month) (h12 : date.Month ≤ 12)
    (hex : date.Location.skipped
        { year := date.Year, month := date.Month,
          day := timex.gregorianDays date.Year date.Month,
          hour := 0, min := 0, sec := 0, nsec := 0 } = none) :
    EndOfMonth date =
        { clock :=
            { year := date.Year, month := date.Month,
              day := timex.gregorianDays date.Year date.Month,
              hour := 0, min := 0, sec := 0, nsec := 0 },
          loc := date.Location } ∧
      (EndOfMonth { clock := ⟨2016, 11, 1, 0, 0, 0, 0⟩, loc := time.UTC }).clock =
        ⟨2016, 11, 30, 0, 0, 0, 0⟩ ∧
      (EndOfMonth { clock := ⟨2012, 2, 1, 0, 0, 0, 0⟩, loc := time.UTC }).clock =
        ⟨2012, 2, 29, 0, 0, 0, 0⟩ ∧
      (EndOfMonth { clock := ⟨2016, 12, 31, 0, 0, 0, 0⟩, loc := time.UTC }).clock =
        ⟨2016, 12, 31, 0, 0, 0, 0⟩ := by
  refine ⟨?_, by decide, by decide, by decide⟩
  unfold EndOfMonth time.Date
  rw [time.normalize_day_zero _ _ h1 h12, time.daysIn_eq _ _ h1 h12, hex]

/-- Witness of `EndOfMonth_last_day`: the afternoon of 2012-02-01 in UTC. -/
theorem EndOfMonth_last_day_witness :
    EndOfMonth { clock := ⟨2012, 2, 1, 15, 4, 5, 6⟩, loc := time.UTC } =
        { clock := { year := 2012, month := 2, day := timex.gregorianDays 2012 2,
                     hour := 0, min := 0, sec := 0, nsec := 0 },
          loc := time.UTC } ∧
      (EndOfMonth { clock := ⟨2016, 11, 1, 0, 0, 0, 0⟩, loc := time.UTC }).clock =
        ⟨2016, 11, 30, 0, 0, 0, 0⟩ ∧
      (EndOfMonth { clock := ⟨2012, 2, 1, 0, 0, 0, 0⟩, loc := time.UTC }).clock =
        ⟨2012, 2, 29, 0, 0, 0, 0⟩ ∧
      (EndOfMonth { clock := ⟨2016, 12, 31, 0, 0, 0, 0⟩, loc := time.UTC }).clock =
        ⟨2016, 12, 31, 0, 0, 0, 0⟩ :=
  EndOfMonth_last_day { clock := ⟨2012, 2, 1, 15, 4, 5, 6⟩, loc := time.UTC } (by decide)
    (by decide) rfl

end monthx

/-! ## Theorems about `httpx` -/

namespace httpx

/-- Claim C26. The handler returned by `EnsureHTTPS` calls the wrapped handler,
once and with the request, if and only if `DISABLE_ENSURE_HTTPS` was "1" or
"true" when `EnsureHTTPS` was called, or the scheme of the URL of the request
is "https", or its header `X-Forwarded-Proto` is "https"; in every other case
it does not call the wrapped handler and writes the status 403, which is the
status of the response when nothing was written before. -/
theorem EnsureHTTPS_calls_iff (getenv : String → String) (handler : HandlerFunc)
    (w : ResponseWriter) (r : Request) :
    ((EnsureHTTPS getenv handler w r).calls ≠ [] ↔
        ((getenv "DISABLE_ENSURE_HTTPS" = "1" ∨ getenv "DISABLE_ENSURE_HTTPS" = "true") ∨
          r.Scheme = "https" ∨ Get r.Header "X-Forwarded-Proto" = "https")) ∧
      ((EnsureHTTPS getenv handler w r).calls ≠ [] →
        EnsureHTTPS getenv handler w r = { w := handler w r, calls := [r] }) ∧
      ((EnsureHTTPS getenv handler w r).calls = [] →
        EnsureHTTPS getenv handler w r = { w := w.WriteHeader 403, calls := [] } ∧
          (w.status = none → (EnsureHTTPS getenv handler w r).w.status = some 403)) := by
  have hw : w.status = none → (w.WriteHeader 403).status = some 403 := by
    intro h
    unfold ResponseWriter.WriteHeader
    rw [h]
  by_cases h1 : getenv "DISABLE_ENSURE_HTTPS" = "1" <;>
    by_cases h2 : getenv "DISABLE_ENSURE_HTTPS" = "true" <;>
    by_cases h3 : r.Scheme = "https" <;>
    by_cases h4 : Get r.Header "X-Forwarded-Proto" = "https" <;>
    simp [EnsureHTTPS, h1, h2, h3, h4, StatusForbidden]
  exact hw

/-- Runs of `EnsureHTTPS` as in the test of the package: a request over http is
refused with 403, a request over https and a request over http with the check
disabled reach the handler, which writes 200. -/
theorem EnsureHTTPS_test :
    (EnsureHTTPS (fun _ => "") (fun w _ => w.WriteHeader 200) ⟨none⟩
        { Scheme := "http", Header := [] }) = { w := ⟨some 403⟩, calls := [] } ∧
      (EnsureHTTPS (fun _ => "") (fun w _ => w.WriteHeader 200) ⟨none⟩
        { Scheme := "https", Header := [] }).w = ⟨some 200⟩ ∧
      (EnsureHTTPS (fun _ => "") (fun w _ => w.WriteHeader 200) ⟨none⟩
        { Scheme := "http", Header := [("X-Forwarded-Proto", ["https"])] }).w = ⟨some 200⟩ ∧
      (EnsureHTTPS (fun k => if k = "DISABLE_ENSURE_HTTPS" then "1" else "")
        (fun w _ => w.WriteHeader 200) ⟨none⟩ { Scheme := "http", Header := [] }).w =
          ⟨some 200⟩ := by
  decide

end httpx

/-! ## Theorems about `utilsx` -/

namespace utilsx

theorem lookup_cons (k : Str) (v : Int) (m : List (Str × Int)) (w : Str) :
    lookup ((k, v) :: m) w = if k = w then some v else lookup m w := by
  unfold lookup
  rw [List.find?_cons]
  by_cases h : k = w <;> simp [h]

theorem lookup_eq_none (m : List (Str × Int)) (w : Str) :
    lookup m w = none ↔ w ∉ m.map Prod.fst := by
  induction m with
  | nil => simp [lookup]
  | cons p m ih =>
    obtain ⟨k, v⟩ := p
    rw [lookup_cons]
    by_cases h : k = w
    · simp [h]
    · rw [if_neg h, ih]
      simp [h, Ne.symm h]

theorem lookup_map_incr (m : List (Str × Int)) (x w : Str) :
    lookup (m.map (fun p => if p.1 = x then (p.1, p.2 + 1) else p)) w =
      if w = x then (lookup m w).map (fun c => c + 1) else lookup m w := by
  induction m with
  | nil => simp [lookup]
  | cons p m ih =>
    obtain ⟨k, v⟩ := p
    rw [List.map_cons]
    by_cases hkx : k = x
    · simp only [hkx, if_true]
      rw [lookup_cons, lookup_cons, ih]
      by_cases hw : w = x
      · simp [hw]
      · simp [hw, Ne.symm hw]
    · simp only [hkx, if_false]
      rw [lookup_cons, lookup_cons, ih]
      by_cases hw : w = x
      · subst hw
        simp [hkx]
      · by_cases hkw : k = w <;> simp [hw, hkw]

theorem lookup_append_new (m : List (Str × Int)) (x w : Str) (h : lookup m x = none) :
    lookup (m ++ [(x, 1)]) w = if w = x then some 1 else lookup m w := by
  induction m with
  | nil =>
    rw [List.nil_append, lookup_cons]
    by_cases hw : w = x
    · simp [hw]
    · simp [hw, Ne.symm hw, lookup]
  | cons p m ih =>
    obtain ⟨k, v⟩ := p
    rw [lookup_cons] at h
    by_cases hkx : k = x
    · rw [if_pos hkx] at h
      cases h
    · rw [if_neg hkx] at h
      rw [List.cons_append, lookup_cons, lookup_cons, ih h]
      by_cases hw : w = x
      · subst hw
        simp [hkx]
      · simp [hw]

/-- One pass of the loop: the count of the word goes up by one, from 0 when
the key is new, and the other counts stay. -/
theorem lookup_addWord (m : List (Str × Int)) (x w : Str) :
    lookup (addWord m x) w =
      if w = x then some ((lookup m x).getD 0 + 1) else lookup m w := by
  unfold addWord
  cases h : lookup m x with
  | none =>
    simp only []
    rw [lookup_append_new m x w h]
    simp
  | some c =>
    simp only []
    rw [lookup_map_incr]
    by_cases hw : w = x
    · subst hw
      simp [h]
    · simp [hw]

theorem keys_addWord (m : List (Str × Int)) (x : Str) :
    (addWord m x).map Prod.fst =
      if x ∈ m.map Prod.fst then m.map Prod.fst else m.map Prod.fst ++ [x] := by
  unfold addWord
  cases h : lookup m x with
  | none =>
    simp only []
    rw [if_neg ((lookup_eq_none m x).1 h)]
    simp
  | some c =>
    simp only []
    have hx : x ∈ m.map Prod.fst := by
      by_contra hc
      rw [(lookup_eq_none m x).2 hc] at h
      cases h
    rw [if_pos hx, List.map_map]
    apply List.map_congr_left
    intro p _
    by_cases hp : p.1 = x <;> simp [hp]

theorem sum_map_incr (m : List (Str × Int)) (x : Str) (hnd : (m.map Prod.fst).Nodup)
    (hx : x ∈ m.map Prod.fst) :
    ((m.map (fun p => if p.1 = x then (p.1, p.2 + 1) else p)).map Prod.snd).sum =
      (m.map Prod.snd).sum + 1 := by
  induction m with
  | nil => simp at hx
  | cons p m ih =>
    obtain ⟨k, v⟩ := p
    rw [List.map_cons, List.nodup_cons] at hnd
    by_cases hkx : k = x
    · subst hkx
      have hid : m.map (fun p => if p.1 = k then (p.1, p.2 + 1) else p) = m := by
        conv_rhs => rw [← List.map_id m]
        apply List.map_congr_left
        intro p hp
        have : p.1 ≠ k := by
          intro hpk
          have hmem : p.1 ∈ m.map Prod.fst := List.mem_map_of_mem Prod.fst hp
          rw [hpk] at hmem
          exact hnd.1 hmem
        simp [this]
      simp only [List.map_cons, if_true, List.sum_cons, hid]
      omega
    · have hx2 : x ∈ m.map Prod.fst := by
        rcases List.mem_cons.1 hx with h | h
        · exact absurd h.symm hkx
        · exact h
      simp only [List.map_cons, hkx, if_false, List.sum_cons, ih hnd.2 hx2]
      omega

theorem sum_addWord (m : List (Str × Int)) (x : Str) (hnd : (m.map Prod.fst).Nodup) :
    ((addWord m x).map Prod.snd).sum = (m.map Prod.snd).sum + 1 := by
  unfold addWord
  cases h : lookup m x with
  | none => simp
  | some c =>
    simp only []
    apply sum_map_incr m x hnd
    by_contra hc
    rw [(lookup_eq_none m x).2 hc] at h
    cases h

/-- The loop of `wordCount` from a map `m` over the words `ws`: each count goes
up by the number of times the word is in `ws`, the keys stay distinct, and the
sum of the counts goes up by the number of words. -/
theorem foldl_addWord (ws : List Str) :
    ∀ m : List (Str × Int), (m.map Prod.fst).Nodup →
      (∀ w, lookup (ws.foldl addWord m) w =
        if w ∈ ws then some ((lookup m w).getD 0 + (ws.count w : Int)) else lookup m w) ∧
      ((ws.foldl addWord m).map Prod.fst).Nodup ∧
      ((ws.foldl addWord m).map Prod.snd).sum = (m.map Prod.snd).sum + (ws.length : Int) := by
  induction ws with
  | nil =>
    intro m hnd
    exact ⟨fun w => by simp, hnd, by simp⟩
  | cons x ws ih =>
    intro m hnd
    have hnd1 : ((addWord m x).map Prod.fst).Nodup := by
      rw [keys_addWord]
      split
      · exact hnd
      · rename_i hx
        rw [List.nodup_append]
        refine ⟨hnd, List.nodup_singleton x, ?_⟩
        intro a ha hb
        rw [List.mem_singleton] at hb
        exact hx (hb ▸ ha)
    obtain ⟨h1, h2, h3⟩ := ih (addWord m x) hnd1
    refine ⟨?_, h2, ?_⟩
    · intro w
      rw [List.foldl_cons, h1 w, lookup_addWord]
      by_cases hwx : w = x
      · subst hwx
        simp only [if_true, List.mem_cons, true_or, List.count_cons_self, Option.getD_some]
        by_cases hin : w ∈ ws
        · simp only [hin, if_true]
          push_cast
          congr 1
          omega
        · simp only [hin, if_false, List.count_eq_zero_of_not_mem hin]
          simp
      · have hxw : x ≠ w := Ne.symm hwx
        have hc : (x :: ws).count w = ws.count w := by
          rw [List.count_cons]
          simp [hxw]
        simp only [hwx, if_false, List.mem_cons, false_or, hc]
    · rw [List.foldl_cons, h3, sum_addWord m x hnd, List.length_cons]
      push_cast
      omega

/-- Claim C27. For every string and every word `w`, `WordCount` maps `w` to the
number of fields of the string, as `strings.Fields` splits it, that equal `w`,
has no key that is not a field, each key once, and its counts sum to the
number of fields; "Australia Canada Germany Australia Japan Canada" gives
Australia 2, Canada 2, Germany 1 and Japan 1. -/
theorem WordCount_counts (Fields : Str → List Str) (str w : Str) :
    lookup (WordCount Fields str) w =
        (if w ∈ Fields str then some ((Fields str).count w : Int) else none) ∧
      ((WordCount Fields str).map Prod.fst).Nodup ∧
      ((WordCount Fields str).map Prod.snd).sum = ((Fields str).length : Int) ∧
      WordCount asciiFields "Australia Canada Germany Australia Japan Canada".toList =
        [("Australia".toList, 2), ("Canada".toList, 2), ("Germany".toList, 1),
          ("Japan".toList, 1)] := by
  obtain ⟨h1, h2, h3⟩ := foldl_addWord (Fields str) [] List.nodup_nil
  refine ⟨?_, h2, ?_, by decide⟩
  · have := h1 w
    simpa [WordCount, wordCount, lookup] using this
  · simpa [WordCount, wordCount] using h3

end utilsx

/-! ## Theorems about `strx` -/

namespace strx

open utf8

/-- The rows of the table of examples of `CamelCaseSplit` after the first, on
the tables of `unicode` cut down to ASCII. -/
theorem CamelCaseSplit_table :
    CamelCaseSplit asciiUnicode (bytes "lowercase") = .ret [bytes "lowercase"] ∧
      CamelCaseSplit asciiUnicode (bytes "MyClass") = .ret [bytes "My", bytes "Class"] ∧
      CamelCaseSplit asciiUnicode (bytes "HTML") = .ret [bytes "HTML"] ∧
      CamelCaseSplit asciiUnicode (bytes "PDFLoader") = .ret [bytes "PDF", bytes "Loader"] ∧
      CamelCaseSplit asciiUnicode (bytes "GL11Version") =
        .ret [bytes "GL", bytes "11", bytes "Version"] ∧
      CamelCaseSplit asciiUnicode (bytes "Two  spaces") =
        .ret [bytes "Two", bytes "  ", bytes "spaces"] ∧
      CamelCaseSplit asciiUnicode (bytes "BadUTF8" ++ [0xe2, 0xe2, 0xa1]) =
        .ret [bytes "BadUTF8" ++ [0xe2, 0xe2, 0xa1]] := by
  decide

/-- Claim C22 fails on the code. On the empty string `CamelCaseSplit` returns
the empty list: no rune is read, `runes` stays empty, and `container` is
returned as `[]string{}`; the list of one empty string of the table of examples
is not returned. -/
theorem CamelCaseSplit_empty (U : Unicode) :
    CamelCaseSplit U [] = .ret [] ∧
      CamelCaseSplit U [] ≠ .ret [[]] := by
  have h : CamelCaseSplit U [] = .ret [] := rfl
  refine ⟨h, ?_⟩
  rw [h]
  intro hc
  cases hc

/-! ### `SnakeStr` and `CamelStr` -/

theorem snakeLoop_rest : ∀ (rest : List Nat) (i : Nat) (data : List Nat), 0 < i →
    snakeLoop i rest true data = data ++ rest.flatMap snakePiece := by
  intro rest
  induction rest with
  | nil =>
    intro i data _
    simp [snakeLoop]
  | cons d rest ih =>
    intro i data hi
    unfold snakeLoop
    have hj : (if d ≠ 95 then true else true) = true := by split <;> rfl
    rw [hj, ih (i + 1) _ (Nat.succ_pos i), List.flatMap_cons]
    unfold snakePiece
    by_cases hu : 65 ≤ d ∧ d ≤ 90
    · have hc : i > 0 ∧ d ≥ 65 ∧ d ≤ 90 ∧ true = true := ⟨hi, hu.1, hu.2, rfl⟩
      rw [if_pos hc, if_pos hu]
      simp
    · have hc : ¬ (i > 0 ∧ d ≥ 65 ∧ d ≤ 90 ∧ true = true) := fun h => hu ⟨h.2.1, h.2.2.1⟩
      rw [if_neg hc, if_neg hu]
      simp

theorem camelLoop_keep (d : Nat) (rest data : List Nat) (hd : d ≠ 95) :
    camelLoop (d :: rest) false true data = camelLoop rest false true (data ++ [d]) := by
  conv_lhs => unfold camelLoop
  simp [hd]

theorem camelLoop_skip (d : Nat) (rest data : List Nat) (h1 : 97 ≤ d) (h2 : d ≤ 122) :
    camelLoop (95 :: d :: rest) false true data = camelLoop (d :: rest) true true data := by
  conv_lhs => unfold camelLoop
  simp [h1, h2]

theorem camelLoop_up (d : Nat) (rest data : List Nat) (h1 : 97 ≤ d) (h2 : d ≤ 122) :
    camelLoop (d :: rest) true true data = camelLoop rest false true (data ++ [d - 32]) := by
  have h3 : d - 32 ≠ 95 := by omega
  conv_lhs => unfold camelLoop
  simp [h1, h2, h3]

theorem camelLoop_first (d : Nat) (rest : List Nat) (h1 : 97 ≤ d) (h2 : d ≤ 122) :
    camelLoop (d :: rest) false false [] = camelLoop rest false true [d - 32] := by
  have h3 : d - 32 ≠ 95 := by omega
  have h4 : ¬ (65 ≤ d ∧ d ≤ 90) := by omega
  conv_lhs => unfold camelLoop
  simp [h1, h2, h3, h4]

theorem camelLoop_rest : ∀ (rest data : List Nat), (∀ b ∈ rest, isAlnum b) →
    camelLoop ((rest.flatMap snakePiece).map lowerByte) false true data = data ++ rest := by
  intro rest
  induction rest with
  | nil =>
    intro data _
    simp [camelLoop]
  | cons d rest ih =>
    intro data h
    have hd : isAlnum d := h d (List.mem_cons_self _ _)
    have hrest : ∀ b ∈ rest, isAlnum b := fun b hb => h b (List.mem_cons_of_mem _ hb)
    rw [List.flatMap_cons, List.map_append]
    unfold isAlnum at hd
    by_cases hu : 65 ≤ d ∧ d ≤ 90
    · have e1 : (snakePiece d).map lowerByte = [95, d + 32] := by
        simp [snakePiece, lowerByte, hu]
      rw [e1]
      simp only [List.cons_append, List.nil_append]
      rw [camelLoop_skip _ _ _ (by omega) (by omega), camelLoop_up _ _ _ (by omega) (by omega),
        Nat.add_sub_cancel, ih _ hrest]
      simp
    · have e1 : (snakePiece d).map lowerByte = [d] := by
        simp [snakePiece, lowerByte, hu]
      rw [e1]
      simp only [List.cons_append, List.nil_append]
      rw [camelLoop_keep _ _ _ (by omega), ih _ hrest]
      simp

theorem snakePiece_ascii (rest : List Nat) (h : ∀ b ∈ rest, isAlnum b) :
    ∀ b ∈ rest.flatMap snakePiece, b < 128 := by
  intro b hb
  rw [List.mem_flatMap] at hb
  obtain ⟨d, hd, hbd⟩ := hb
  have := h d hd
  unfold isAlnum at this
  unfold snakePiece at hbd
  split at hbd
  · simp at hbd
    omega
  · simp at hbd
    omega

/-- Claim C23. For every string of ASCII letters and digits that starts with an
upper case letter, `CamelStr` of its `SnakeStr` is the string; `SnakeStr` of
"XxYy" is "xx_yy" and `CamelStr` of "xx_yy" is "XxYy". What is taken of
`strings.ToLower` is its action on ASCII. -/
theorem CamelStr_SnakeStr (toLower : List Nat → List Nat) (hlow : ToLowerContract toLower)
    (c : Nat) (rest : List Nat) (hc : 65 ≤ c ∧ c ≤ 90) (hrest : ∀ b ∈ rest, isAlnum b) :
    CamelStr (SnakeStr toLower (c :: rest)) = c :: rest ∧
      SnakeStr toLower (bytes "XxYy") = bytes "xx_yy" ∧
      CamelStr (bytes "xx_yy") = bytes "XxYy" := by
  have hsnake : ∀ (c : Nat) (rest : List Nat), 65 ≤ c ∧ c ≤ 90 → (∀ b ∈ rest, isAlnum b) →
      SnakeStr toLower (c :: rest) = (c + 32) :: (rest.flatMap snakePiece).map lowerByte := by
    intro c rest hc hrest
    have h95 : c ≠ 95 := by omega
    have h0 : ¬ (0 > 0 ∧ c ≥ 65 ∧ c ≤ 90 ∧ false = true) := by simp
    unfold SnakeStr
    unfold snakeLoop
    rw [if_pos h95, if_neg h0, snakeLoop_rest rest 1 _ Nat.one_pos, hlow]
    · simp [lowerByte, hc]
    · intro b hb
      rw [List.nil_append, List.mem_append] at hb
      rcases hb with hb | hb
      · rw [List.mem_singleton] at hb
        omega
      · exact snakePiece_ascii rest hrest b hb
  refine ⟨?_, ?_, by decide⟩
  · rw [hsnake c rest hc hrest]
    unfold CamelStr
    rw [camelLoop_first _ _ (by omega) (by omega), Nat.add_sub_cancel, camelLoop_rest _ _ hrest]
    simp
  · have hx : bytes "XxYy" = 88 :: [120, 89, 121] := by decide
    rw [hx, hsnake 88 [120, 89, 121] (by decide) (by
      intro b hb
      simp only [List.mem_cons, List.mem_singleton, List.not_mem_nil, or_false] at hb
      unfold isAlnum
      omega)]
    decide

/-- Witness of `CamelStr_SnakeStr`: the string "XYy1Z", with `strings.ToLower`
cut down to ASCII. -/
theorem CamelStr_SnakeStr_witness :
    ToLowerContract asciiToLower ∧ (65 ≤ 88 ∧ 88 ≤ 90) ∧
      (∀ b ∈ [89, 121, 49, 90], isAlnum b) ∧
      CamelStr (SnakeStr asciiToLower (88 :: [89, 121, 49, 90])) = 88 :: [89, 121, 49, 90] ∧
      SnakeStr asciiToLower (bytes "XxYy") = bytes "xx_yy" ∧
      CamelStr (bytes "xx_yy") = bytes "XxYy" :=
  have hlow : ToLowerContract asciiToLower := fun _ _ => rfl
  have hrest : ∀ b ∈ [89, 121, 49, 90], isAlnum b := by
    intro b hb
    simp only [List.mem_cons, List.mem_singleton, List.not_mem_nil, or_false] at hb
    unfold isAlnum
    omega
  ⟨hlow, by decide, hrest,
    CamelStr_SnakeStr asciiToLower hlow 88 [89, 121, 49, 90] (by decide) hrest⟩

end strx

/-! ## Theorems about `bytex` -/

namespace bytex

open utf8

/-- Runs of the model as in the tests of the package, on "body", and on a
haystack in another case, with the tables of `unicode` cut down to ASCII. -/
theorem ByteIndexFold_test :
    ByteHasPrefixFold asciiUnicode 4 (bytes "body") (bytes "body") = .ret true ∧
      ByteIndexFold asciiUnicode 4 (bytes "body") (bytes "body") = .ret 0 ∧
      ByteIndexFold asciiUnicode 6 (bytes "a BoDy") (bytes "body") = .ret 2 := by
  decide

theorem EqualFoldRune_self (U : Unicode) (fuel r : Nat) : EqualFoldRune U fuel r r = .ret true := by
  unfold EqualFoldRune
  rw [if_pos rfl]

theorem hasPrefixLoop_self (U : Unicode) (fuel : Nat) :
    ∀ (n : Nat) (s : List Nat), s ≠ [] → noRuneError n s = true →
      hasPrefixLoop U fuel n s s = .ret true := by
  intro n
  induction n with
  | zero =>
    intro s hs h
    simp [noRuneError, hs] at h
  | succ n ih =>
    intro s hs h
    unfold noRuneError at h
    rw [if_neg hs] at h
    have hlen : ¬ s.length = 0 := fun h0 => hs (List.length_eq_zero.1 h0)
    by_cases hr : (DecodeRune s).1 = RuneError
    · rw [if_pos hr] at h
      cases h
    · rw [if_neg hr] at h
      unfold hasPrefixLoop
      simp only [if_neg hlen, if_neg hr, EqualFoldRune_self]
      by_cases hd : (s.drop (DecodeRune s).2).length = 0
      · rw [if_pos hd]
      · rw [if_neg hd]
        exact ih _ (fun h0 => hd (by rw [h0]; rfl)) h

/-- Away from U+FFFD the matching is reflexive: on a string in which no rune
decodes to `utf8.RuneError`, that is valid UTF-8 without U+FFFD,
`ByteHasPrefixFold(s, s)` is true and `ByteIndexFold(s, s)` is 0. -/
theorem ByteHasPrefixFold_self (U : Unicode) (fuel : Nat) (s : List Nat)
    (h : noRuneError fuel s = true) :
    ByteHasPrefixFold U fuel s s = .ret true ∧ ByteIndexFold U fuel s s = .ret 0 := by
  by_cases hs : s = []
  · subst hs
    exact ⟨rfl, rfl⟩
  · have hlen : ¬ s.length = 0 := fun h0 => hs (List.length_eq_zero.1 h0)
    have hp : ByteHasPrefixFold U fuel s s = .ret true := by
      unfold ByteHasPrefixFold
      rw [if_neg hlen]
      exact hasPrefixLoop_self U fuel fuel s hs h
    refine ⟨hp, ?_⟩
    obtain ⟨b, rest, rfl⟩ := List.exists_cons_of_ne_nil hs
    cases fuel with
    | zero => simp [noRuneError] at h
    | succ n =>
      have hfirst : (if (b :: rest).headD 0 ≥ RuneSelf then (DecodeRune (b :: rest)).1
          else (b :: rest).headD 0) = (DecodeRune (b :: rest)).1 := by
        by_cases hb : b ≥ RuneSelf
        · simp only [List.headD_cons, if_pos hb]
        · simp only [List.headD_cons, if_neg hb]
          have hb2 : b < 0x80 := by
            unfold RuneSelf at hb
            omega
          simp only [DecodeRune, if_pos hb2]
      unfold ByteIndexFold
      rw [if_neg hlen, if_neg hlen]
      simp only [hfirst]
      unfold indexLoop
      simp only [EqualFoldRune_self, if_true, hp]

/-- Claim C28 fails on the code. The three bytes `EF BF BD` are valid UTF-8,
the encoding of U+FFFD, which is the value of `utf8.RuneError`. On them
`ByteHasPrefixFold(s, s)` stops at `sr == utf8.RuneError` and returns false, and
`ByteIndexFold(s, s)` returns -1. -/
theorem ByteHasPrefixFold_not_reflexive (U : Unicode) (fuel : Nat) :
    Valid [0xEF, 0xBF, 0xBD] = true ∧
      ByteHasPrefixFold U (fuel + 1) [0xEF, 0xBF, 0xBD] [0xEF, 0xBF, 0xBD] = .ret false ∧
      ByteIndexFold U (fuel + 1) [0xEF, 0xBF, 0xBD] [0xEF, 0xBF, 0xBD] = .ret (-1) := by
  have hd : DecodeRune [0xEF, 0xBF, 0xBD] = (RuneError, 3) := by decide
  have hp : ByteHasPrefixFold U (fuel + 1) [0xEF, 0xBF, 0xBD] [0xEF, 0xBF, 0xBD] = .ret false := by
    unfold ByteHasPrefixFold hasPrefixLoop
    simp [hd]
  refine ⟨by decide, hp, ?_⟩
  unfold ByteIndexFold indexLoop
  simp [hd, hp, EqualFoldRune, RuneSelf, RuneError]

end bytex

/-! ## Theorems about `cryptox`: the failures of `OpenReader` -/

namespace cryptox

/-- Claim C29. When the header does not parse, `OpenReader` returns the error
of the decoder with a nil reader, and the result is the same whatever scrypt
and the box would do: neither is run. When the box does not open, `OpenReader`
returns the error "failed open box" with a nil reader. A reader is returned
only with a nil error, and holds what the box gave on opening: no byte of
plaintext comes with a failure. -/
theorem OpenReader_failures (P : Prims) (r passphrase : List Byte) :
    (∀ e, (P.jsonDecode r).err = some e →
        ∀ Q : Prims, Q.jsonDecode = P.jsonDecode →
          OpenReader Q r passphrase = .ret ((P.jsonDecode r).toKey, none, some e)) ∧
      (∀ key, (P.jsonDecode r).err = none →
        (P.jsonDecode r).toKey.Populate P passphrase 32 = (key, none) →
        1 + Overhead ≤ (P.jsonDecode r).rest.length →
        P.boxOpen ((P.jsonDecode r).rest.drop 1) (fit 24 key.Salt) (fit 32 key.Bytes) = none →
        OpenReader P r passphrase = .ret (key, none, some "failed open box")) ∧
      (∀ key data e, OpenReader P r passphrase = .ret (key, some data, e) →
        e = none ∧
          P.boxOpen ((P.jsonDecode r).rest.drop 1) (fit 24 key.Salt) (fit 32 key.Bytes) =
            some data) := by
  refine ⟨?_, ?_, ?_⟩
  · intro e he Q hQ
    unfold OpenReader
    rw [hQ]
    simp only [he]
  · intro key herr hpop hlen hbox
    have h1 : ¬ (P.jsonDecode r).rest.length < 1 := by omega
    have h2 : ¬ ((P.jsonDecode r).rest.drop 1).length < Overhead := by
      rw [List.length_drop]
      omega
    unfold OpenReader
    simp only [herr, hpop, if_neg h1, if_neg h2, hbox]
  · intro key data e h
    unfold OpenReader at h
    simp only at h
    split at h
    · cases h
    · split at h
      · cases h
      · split at h
        · cases h
        · split at h
          · cases h
          · split at h
            · cases h
            · rename_i key2 _ _ _ data2 hopen
              cases h
              exact ⟨rfl, hopen⟩

/-- Witness of `OpenReader_failures`, on the stand-ins: the empty stream, whose
header does not parse, and an envelope whose box carries a tag of zeros, which
does not open. -/
theorem OpenReader_failures_witness :
    OpenReader refPrims [] [1, 2] =
        .ret (Key.zero, none, some "unexpected end of JSON input") ∧
      OpenReader refPrims (refEncode (List.replicate 24 7) 14 8 1 ++ 10 :: List.replicate 20 0)
          [1, 2] =
        .ret ({ Bytes := List.replicate 32 (Fin.ofNat (3 + 168 + 16384 + 1)),
                Salt := List.replicate 24 7, L2N := 14, R := 8, P := 1 },
          none, some "failed open box") :=
  ⟨(OpenReader_failures refPrims [] [1, 2]).1 "unexpected end of JSON input" (by decide)
      refPrims rfl,
    (OpenReader_failures refPrims
        (refEncode (List.replicate 24 7) 14 8 1 ++ 10 :: List.replicate 20 0) [1, 2]).2.1
      { Bytes := List.replicate 32 (Fin.ofNat (3 + 168 + 16384 + 1)),
        Salt := List.replicate 24 7, L2N := 14, R := 8, P := 1 }
      (by decide) (by decide) (by decide) (by decide)⟩

end cryptox
